import Mathlib

/-!
# kdiff: image references, aggregation index and mismatch detection

A shallow embedding of the parts of `internal/kube/resources.go`,
`internal/helpers/functions.go` and `internal/view/ui.go` that decompose and
render container images, fold fetch results into the aggregation index and
detect mismatching images; of the context probes of `internal/kube/client.go`,
of `EnsureDir` of `internal/config/helpers.go` and of the selection list of
`internal/view/multiSelectList.go`; followed by theorems about them.

Go strings are modelled by `String`, slices by `List`, maps by association
lists without duplicate keys, and a function that can return an error or stop
with a run-time panic by `Outcome`.
-/

namespace Kdiff

/-! ## Results of Go functions -/

/-- The three ways a Go function with an `error` result can end: it returns
its values with a nil error, it returns a non-nil error, or it stops with a
run-time panic. -/
inductive Outcome (α : Type) where
  | value (a : α)
  | error (msg : String)
  | crash (msg : String)
  deriving DecidableEq, Repr

/-! ## Regular expressions (Go `regexp`, RE2 syntax)

Only the operators that occur in the patterns of this program are modelled.
Repetition is applied to single-character classes only, which is all the
patterns do.  Matching follows the leftmost-first rule of Go's `regexp`: the
match is the one a backtracking engine finds first, so every operator returns
its possible continuations in priority order. -/

/-- Abstract syntax of the patterns. -/
inductive Regex where
  /-- the empty pattern -/
  | empty
  /-- a literal character -/
  | lit (c : Char)
  /-- a character class, also `.` -/
  | cls (p : Char → Bool)
  /-- concatenation -/
  | seq (a b : Regex)
  /-- greedy option `a?` -/
  | opt (a : Regex)
  /-- repetition `[p]*` when `greedy`, `[p]*?` otherwise -/
  | star (greedy : Bool) (p : Char → Bool)
  /-- repetition `[p]+` when `greedy`, `[p]+?` otherwise -/
  | plus (greedy : Bool) (p : Char → Bool)
  /-- capturing group number `i` -/
  | group (i : Nat) (a : Regex)
  /-- anchor `^` without the multi-line flag: beginning of the text -/
  | bol
  /-- anchor `$` without the multi-line flag: end of the text -/
  | eol

/-- A matcher state: the number of characters consumed so far, the rest of the
text, and the text captured by each group (empty for a group that did not
take part, as in the `String` flavour of the `Find` functions). -/
structure MState where
  pos : Nat
  rest : List Char
  caps : Nat → List Char

/-- All ways of matching `[p]*` (or `[p]*?`) at the front of `rest`, in
priority order: longest first when greedy, shortest first otherwise. -/
def starRun (p : Char → Bool) (greedy : Bool) (caps : Nat → List Char) :
    Nat → List Char → List MState
  | pos, [] => [⟨pos, [], caps⟩]
  | pos, c :: cs =>
    if p c then
      if greedy then starRun p greedy caps (pos + 1) cs ++ [⟨pos, c :: cs, caps⟩]
      else ⟨pos, c :: cs, caps⟩ :: starRun p greedy caps (pos + 1) cs
    else [⟨pos, c :: cs, caps⟩]

/-- All ways of matching a pattern from a state, in priority order. -/
def Regex.run : Regex → MState → List MState
  | .empty, st => [st]
  | .lit c, st =>
    match st.rest with
    | x :: xs => if x = c then [⟨st.pos + 1, xs, st.caps⟩] else []
    | [] => []
  | .cls p, st =>
    match st.rest with
    | x :: xs => if p x then [⟨st.pos + 1, xs, st.caps⟩] else []
    | [] => []
  | .seq a b, st => (a.run st).flatMap (fun st' => b.run st')
  | .opt a, st => a.run st ++ [st]
  | .star greedy p, st => starRun p greedy st.caps st.pos st.rest
  | .plus greedy p, st =>
    match st.rest with
    | x :: xs => if p x then starRun p greedy st.caps (st.pos + 1) xs else []
    | [] => []
  | .group i a, st =>
    (a.run st).map (fun st' =>
      ⟨st'.pos, st'.rest,
        fun j => if j = i then st.rest.take (st'.pos - st.pos) else st'.caps j⟩)
  | .bol, st => if st.pos = 0 then [st] else []
  | .eol, st => if st.rest = [] then [st] else []

/-- A literal string. -/
def Regex.lits : List Char → Regex
  | [] => .empty
  | c :: cs => .seq (.lit c) (Regex.lits cs)

/-- The highest group number of a pattern. -/
def Regex.groups : Regex → Nat
  | .seq a b => max a.groups b.groups
  | .opt a => a.groups
  | .group i a => max i a.groups
  | _ => 0

/-- The match of `re` that starts right at `rest`, `pos` characters into the
text: the first result of the backtracking search.  Group 0 is the whole
match. -/
def matchAt (re : Regex) (pos : Nat) (rest : List Char) : Option (Nat → List Char) :=
  match re.run ⟨pos, rest, fun _ => []⟩ with
  | st :: _ => some (fun j => if j = 0 then rest.take (st.pos - pos) else st.caps j)
  | [] => none

/-- The leftmost match of `re` in a text of which `pos` characters lie before
`rest`: the start positions are tried from left to right. -/
def findFirst (re : Regex) : Nat → List Char → Option (Nat → List Char)
  | pos, [] => matchAt re pos []
  | pos, c :: tl =>
    match matchAt re pos (c :: tl) with
    | some caps => some caps
    | none => findFirst re (pos + 1) tl

/-- The call `re.FindAllStringSubmatch(s, -1)`, as far as its callers read it: they
test `len(matches)` against 0 and read `matches[0]` only, so the list holds
the leftmost match (with its submatches, one string per group, group 0
first) when there is a match, and is empty (Go's nil) when there is none. -/
def FindAllStringSubmatch (re : Regex) (s : String) : List (List String) :=
  match findFirst re 0 s.data with
  | some caps => [(List.range (re.groups + 1)).map (fun j => String.mk (caps j))]
  | none => []

/-- The class `\d`. -/
def isDigit (c : Char) : Bool := 48 ≤ c.toNat && c.toNat ≤ 57

/-- The class `\w`: in RE2 the ASCII word characters `[0-9A-Za-z_]`. -/
def isWord (c : Char) : Bool :=
  isDigit c || (65 ≤ c.toNat && c.toNat ≤ 90) || (97 ≤ c.toNat && c.toNat ≤ 122) || c = '_'

/-- The class `.` without the `s` flag: any character but a newline. -/
def isAny (c : Char) : Bool := c != '\n'

/-- The class `[\w\.\d-]`. -/
def isTagChar (c : Char) : Bool := isWord c || c = '.' || isDigit c || c = '-'

/-- The class `[\w\d]`. -/
def isHashChar (c : Char) : Bool := isWord c || isDigit c

/-! ## `internal/kube/resources.go` -/

/-- The part `((.*)/)?` of the pattern of `decomposeImage`. -/
def registryPart : Regex :=
  .opt (.group 1 (.seq (.group 2 (.star true isAny)) (.lit '/')))

/-- The part `(.+?)` of the pattern of `decomposeImage`. -/
def namePart : Regex := .group 3 (.plus false isAny)

/-- The part `(:([\w\.\d-]*))?` of the pattern of `decomposeImage`. -/
def tagPart : Regex :=
  .opt (.group 4 (.seq (.lit ':') (.group 5 (.star true isTagChar))))

/-- The part `((@sha256:)([\w\d]*?))?` of the pattern of `decomposeImage`. -/
def hashPart : Regex :=
  .opt (.group 6 (.seq (.group 7 (Regex.lits "@sha256:".data))
                       (.group 8 (.star false isHashChar))))

/-- The pattern of `decomposeImage`:
`^((.*)/)?(.+?)(:([\w\.\d-]*))?((@sha256:)([\w\d]*?))?$`. -/
def imageRe : Regex :=
  .seq .bol (.seq registryPart (.seq namePart (.seq tagPart (.seq hashPart .eol))))

/-- Function `decomposeImage` returns registry, name, tag and hash of a container
image.  The test `len(matches) >= 0` is the source's; indexing a slice out of
range is a run-time panic. -/
def decomposeImage (image : String) : Outcome (String × String × String × String) :=
  let found := FindAllStringSubmatch imageRe image
  if found.length ≥ 0 then
    match found[0]? with
    | none => .crash "index out of range [0] with length 0"
    | some m =>
      match m[2]?, m[3]?, m[5]?, m[8]? with
      | some registry, some name, some tag, some hash => .value (registry, name, tag, hash)
      | _, _, _, _ => .crash "index out of range"
  else .error "could not parse image"

/-- The image of a container, decomposed. -/
structure image where
  registry : String
  name : String
  tag : String
  hash : String
  deriving DecidableEq, Repr

/-- A container of a workload resource. -/
structure kContainer where
  name : String
  image : image
  deriving DecidableEq, Repr

/-- A Deployment, StatefulSet or DaemonSet as fetched from one context. -/
structure AppsV1Resource where
  name : String
  containers : List kContainer
  deriving DecidableEq, Repr

/-- Method `GetName` returns name of resource. -/
def AppsV1Resource.GetName (a : AppsV1Resource) : String := a.name

/-- Method `GetContainers`: the names of the containers, in order. -/
def AppsV1Resource.GetContainers (a : AppsV1Resource) : List String :=
  a.containers.foldl (fun containerNames container => containerNames ++ [container.name]) []

/-- The body of the loop of `GetImage` for one container: `returnString`
before, `returnString` after. -/
def renderContainer (containerName : String)
    (includeRegistryName includeName includeTag includeHash : Bool)
    (returnString : String) (container : kContainer) : String :=
  if container.name = containerName then
    let returnString :=
      if includeRegistryName && container.image.registry != "" then container.image.registry
      else returnString
    let returnString :=
      if includeName then
        (if returnString.length > 0 then returnString ++ "/" else returnString)
          ++ container.image.name
      else returnString
    let returnString :=
      if includeTag && container.image.tag != "" then
        (if returnString.length > 0 then returnString ++ ":" else returnString)
          ++ container.image.tag
      else returnString
    let returnString :=
      if includeHash && container.image.hash != "" then
        (if returnString.length > 0 then returnString ++ "@sha256:" else returnString)
          ++ container.image.hash
      else returnString
    returnString
  else returnString

/-- Method `GetImage` returns the image for a given container name: the rendered
string and the error (none for Go's nil). -/
def AppsV1Resource.GetImage (a : AppsV1Resource) (containerName : String)
    (includeRegistryName includeName includeTag includeHash : Bool) :
    String × Option String :=
  let returnString :=
    a.containers.foldl
      (renderContainer containerName includeRegistryName includeName includeTag includeHash) ""
  if returnString.length > 0 then (returnString, none)
  else (returnString, some ("lookup failed for container \x27" ++ containerName ++ "\x27"))

/-! ## `internal/helpers/functions.go` -/

/-- The loop of `GetUniqueStrings`: `uniqueList` and the key set of the map
`keys` are carried along. -/
def uniqueLoop : List String → List String → List String → List String
  | [], uniqueList, _ => uniqueList
  | item :: items, uniqueList, keys =>
    if item ∈ keys then uniqueLoop items uniqueList keys
    else uniqueLoop items (uniqueList ++ [item]) (item :: keys)

/-- Function `GetUniqueStrings`: the items without repetitions, first occurrences kept. -/
def GetUniqueStrings (items : List String) : List String :=
  uniqueLoop items [] []

/-! ## Rendering as the specification words it -/

/-- Concatenation of components, each with the separator that stands before
it. -/
def joinSeparated : List (String × String) → String
  | [] => ""
  | (sep, c) :: rest => sep ++ c ++ joinSeparated rest

/-- Concatenation of components, each given with the separator that stands
before it; the first component carries no separator. -/
def joinComponents : List (String × String) → String
  | [] => ""
  | (_, c) :: rest => c ++ joinSeparated rest

/-- The specification's rendering of an image under a projection: the
selected components that are present, in the order registry, name, tag,
digest, with `/` before the name, `:` before the tag and `@sha256:` before
the digest. -/
def renderSpec (img : image) (selRegistry selName selTag selDigest : Bool) : String :=
  joinComponents
    ((if selRegistry && img.registry != "" then [("", img.registry)] else [])
      ++ (if selName then [("/", img.name)] else [])
      ++ (if selTag && img.tag != "" then [(":", img.tag)] else [])
      ++ (if selDigest && img.hash != "" then [("@sha256:", img.hash)] else []))

/-! ## Go maps with string keys

A map is an association list; `lookup` reads it and `alter` is the only way
the program writes it, so no key occurs twice in a map the program builds.
`range` visits the entries in the order of the list, which stands for the
unspecified iteration order of Go. -/

/-- A Go `map[string]V`. -/
abbrev GoMap (V : Type) := List (String × V)

/-- The read `m[key]` with its `exists` flag: `none` when the key is absent. -/
def GoMap.lookup {V : Type} : GoMap V → String → Option V
  | [], _ => none
  | (k, v) :: m, key => if k = key then some v else GoMap.lookup m key

/-- The write `m[key] = f old`, where `old` is the value stored at `key`, if
any: an absent key is added, a present key keeps its place. -/
def GoMap.alter {V : Type} : GoMap V → String → (Option V → V) → GoMap V
  | [], key, f => [(key, f none)]
  | (k, v) :: m, key, f =>
    if k = key then (k, f (some v)) :: m else (k, v) :: GoMap.alter m key f

/-- No key occurs twice. -/
def GoMap.WF {V : Type} (m : GoMap V) : Prop := (m.map Prod.fst).Nodup

/-! ## `internal/view/ui.go`: folding the fetch results into the index -/

/-- The message a fetch sends on the channel: resource type, context and the
resources fetched. -/
structure getKubeResourceResult where
  rt : String
  ctx : String
  resources : List AppsV1Resource
  deriving DecidableEq, Repr

/-- The index `allResources`: resource type, then resource name, then
container name, then context. -/
abbrev Index := GoMap (GoMap (GoMap (GoMap AppsV1Resource)))

/-- The maps `allResources[rt]` and `allResources[rt][resourceName]` are made
when they do not exist (lines 259 to 264); an existing map is kept.  Go maps
are references, so a write into an inner map is a write into the index:
`alter` on the outer key with the inner map (`getD []`: the map just made
when the key was absent) as the old value does both steps. -/
def ensureResource (allResources : Index) (rt resourceName : String) : Index :=
  GoMap.alter allResources rt (fun byName =>
    GoMap.alter (byName.getD []) resourceName (fun byContainer => byContainer.getD []))

/-- The body of the loop over the container names (lines 268 to 271): the map
`allResources[rt][resourceName][containerName]` is made when it does not
exist, then `allResources[rt][resourceName][containerName][ctx] = res`. -/
def addContainer (rt resourceName ctx : String) (res : AppsV1Resource)
    (allResources : Index) (containerName : String) : Index :=
  GoMap.alter allResources rt (fun byName =>
    GoMap.alter (byName.getD []) resourceName (fun byContainer =>
      GoMap.alter (byContainer.getD []) containerName (fun byContext =>
        GoMap.alter (byContext.getD []) ctx (fun _ => res))))

/-- The body of the loop over `result.resources` (lines 257 to 273). -/
def addResource (rt ctx : String) (allResources : Index) (res : AppsV1Resource) : Index :=
  let resourceName := res.GetName
  let allResources := ensureResource allResources rt resourceName
  let containers := res.GetContainers
  containers.foldl (addContainer rt resourceName ctx res) allResources

/-- The body of the collecting loop (lines 254 to 274) for one received
result. -/
def addResult (allResources : Index) (result : getKubeResourceResult) : Index :=
  result.resources.foldl (addResource result.rt result.ctx) allResources

/-- The collecting loop of `updateDisplayArea`: the results, in the order in
which they are received from the channel, are folded into the empty index. -/
def collectResults (results : List getKubeResourceResult) : Index :=
  results.foldl addResult []

/-- The value of `allResources[rt]`, if the key exists. -/
def Index.kind? (all : Index) (rt : String) : Option (GoMap (GoMap (GoMap AppsV1Resource))) :=
  GoMap.lookup all rt

/-- The value of `allResources[rt][resourceName]`, if the keys exist. -/
def Index.resource? (all : Index) (rt resourceName : String) :
    Option (GoMap (GoMap AppsV1Resource)) :=
  (all.kind? rt).bind (fun m => GoMap.lookup m resourceName)

/-- The value of `allResources[rt][resourceName][containerName]`, if the keys
exist. -/
def Index.container? (all : Index) (rt resourceName containerName : String) :
    Option (GoMap AppsV1Resource) :=
  (all.resource? rt resourceName).bind (fun m => GoMap.lookup m containerName)

/-- The value of `allResources[rt][resourceName][containerName][ctx]`, if the
keys exist. -/
def Index.leaf? (all : Index) (rt resourceName containerName ctx : String) :
    Option AppsV1Resource :=
  (all.container? rt resourceName containerName).bind (fun m => GoMap.lookup m ctx)

/-- The value that the last element of a list writes, when each element `x`
writes `w x` or nothing: what a loop of overwriting assignments leaves. -/
def lastSome {X V : Type} (w : X → Option V) : List X → Option V
  | [] => none
  | x :: l => (lastSome w l).or (w x)

/-! ## Texts and character sets of the round trip -/

/-- The text that `GetImage` emits for a registry. -/
def registryText (r : List Char) : List Char := if r = [] then [] else r ++ ['/']

/-- The text that `GetImage` emits for a tag. -/
def tagText (t : List Char) : List Char := if t = [] then [] else ':' :: t

/-- The text that `GetImage` emits for a hash. -/
def hashText (h : List Char) : List Char := if h = [] then [] else "@sha256:".data ++ h

/-- A character that the round trip allows in a name: matched by `.` and none
of the separators `/`, `:` and `@`. -/
def isNameChar (c : Char) : Bool := isAny c && c != '/' && c != ':' && c != '@'

/-! ## `internal/view/ui.go`: identifying the mismatching images -/

/-- The options of the user interface: the projection chosen for the display
of images, and whether only differences are shown. -/
structure uiOptions where
  showImageRegistryName : Bool
  showImageName : Bool
  showImageTag : Bool
  showImageHash : Bool
  showDifferencesOnly : Bool
  deriving DecidableEq, Repr

/-- The resource types that `updateResourceTypeList` offers for selection;
the keys of the first level of the index are among them. -/
def resourceTypes : List String := ["DaemonSet", "Deployment", "StatefulSet"]

/-- The call `helpers.HandleError(err)`: whether it returns to its caller.
The function is defined outside the files at hand, so what it does with a
non-nil error is the parameter `onError` (`true`: it returns, `false`: it
ends the program); a nil error returns. -/
def HandleError (onError : String → Bool) (err : Option String) : Bool :=
  match err with
  | none => true
  | some e => onError e

/-- The loop over `contextMap` (lines 281 to 285): `allImages` collects the
full image name of the container in every context; `none` when
`HandleError` ends the program. -/
def imagesLoop (onError : String → Bool) (containerName : String) :
    GoMap AppsV1Resource → List String → Option (List String)
  | [], allImages => some allImages
  | (_, res) :: contextMap, allImages =>
    match res.GetImage containerName true true true true with
    | (fullImageName, err) =>
      if HandleError onError err then
        imagesLoop onError containerName contextMap (allImages ++ [fullImageName])
      else none

/-- The loop over `containerMap` (lines 279 to 290): a container whose images
are not exactly one distinct string is appended to the entry of
`rt-resourceName`. -/
def containerLoop (onError : String → Bool) (rt resourceName : String) :
    GoMap (GoMap AppsV1Resource) → GoMap (List String) → Option (GoMap (List String))
  | [], mistmatches => some mistmatches
  | (containerName, contextMap) :: containerMap, mistmatches =>
    match imagesLoop onError containerName contextMap [] with
    | none => none
    | some allImages =>
      if (GetUniqueStrings allImages).length ≠ 1 then
        let key := rt ++ "-" ++ resourceName
        containerLoop onError rt resourceName containerMap
          (GoMap.alter mistmatches key (fun old => old.getD [] ++ [containerName]))
      else containerLoop onError rt resourceName containerMap mistmatches

/-- The loop over `resourceMap` (lines 278 to 291). -/
def resourceLoop (onError : String → Bool) (rt : String) :
    GoMap (GoMap (GoMap AppsV1Resource)) → GoMap (List String) → Option (GoMap (List String))
  | [], mistmatches => some mistmatches
  | (resourceName, containerMap) :: resourceMap, mistmatches =>
    match containerLoop onError rt resourceName containerMap mistmatches with
    | none => none
    | some mistmatches => resourceLoop onError rt resourceMap mistmatches

/-- The loop over `allResources` (lines 277 to 292). -/
def kindLoop (onError : String → Bool) :
    Index → GoMap (List String) → Option (GoMap (List String))
  | [], mistmatches => some mistmatches
  | (rt, resourceMap) :: allResources, mistmatches =>
    match resourceLoop onError rt resourceMap mistmatches with
    | none => none
    | some mistmatches => kindLoop onError allResources mistmatches

/-- The part "Identify mismatching images" of `updateDisplayArea`, a method
of the user interface that holds the options: the map `mistmatches` it
builds from the index, or `none` when `HandleError` ends the program. -/
def identifyMismatches (onError : String → Bool) (_options : uiOptions)
    (allResources : Index) : Option (GoMap (List String)) :=
  kindLoop onError allResources []

/-- The read `mistmatches[key]`: the nil slice when the key is absent. -/
def flaggedContainers (mistmatches : GoMap (List String)) (key : String) : List String :=
  (GoMap.lookup mistmatches key).getD []

/-- The full image names of a container over the contexts of its leaf, in
the order of the map. -/
def fullImages (containerName : String) (contextMap : GoMap AppsV1Resource) : List String :=
  contextMap.map (fun e => (e.2.GetImage containerName true true true true).1)

/-- No key occurs twice in any map of the index. -/
def Index.WF (all : Index) : Prop :=
  GoMap.WF all ∧ ∀ e ∈ all, GoMap.WF e.2 ∧ ∀ e' ∈ e.2, GoMap.WF e'.2 ∧
    ∀ e'' ∈ e'.2, GoMap.WF e''.2

/-- Every lookup of a full image name in the index succeeds: each resource
stored at a leaf renders the container of its key with a nil error. -/
def Index.renders (all : Index) : Prop :=
  ∀ e ∈ all, ∀ e' ∈ e.2, ∀ e'' ∈ e'.2, ∀ e3 ∈ e''.2,
    (e3.2.GetImage e''.1 true true true true).2 = none

/-! ## Comparing indexes -/

/-- Two indexes have the same keys at every level. -/
def Index.sameKeys (x y : Index) : Prop :=
  (∀ rt, (x.kind? rt).isSome = (y.kind? rt).isSome)
  ∧ (∀ rt rn, (x.resource? rt rn).isSome = (y.resource? rt rn).isSome)
  ∧ (∀ rt rn cn, (x.container? rt rn cn).isSome = (y.container? rt rn cn).isSome)
  ∧ (∀ rt rn cn ctx, (x.leaf? rt rn cn ctx).isSome = (y.leaf? rt rn cn ctx).isSome)

/-- Two indexes are equal as maps: the same keys at every level and the same
resource at every leaf, whatever the order of their entries. -/
def Index.sameAs (x y : Index) : Prop :=
  x.sameKeys y ∧ ∀ rt rn cn ctx, x.leaf? rt rn cn ctx = y.leaf? rt rn cn ctx

/-- Two fetch results agree: at no leaf do the two, each folded alone, leave
different resources. -/
def leavesAgree (r1 r2 : getKubeResourceResult) : Prop :=
  ∀ (rt rn cn ctx : String) (a b : AppsV1Resource),
    (collectResults [r1]).leaf? rt rn cn ctx = some a →
    (collectResults [r2]).leaf? rt rn cn ctx = some b → a = b

/-- Any two of the fetch results agree at every leaf that both write. -/
def agreeingResults (results : List getKubeResourceResult) : Prop :=
  ∀ r1 ∈ results, ∀ r2 ∈ results, leavesAgree r1 r2

/-- The test of `leavesAgree` at the leaves that the first result writes:
at each of them the second result leaves nothing or the same resource. -/
def leavesAgreeCheck (r1 r2 : getKubeResourceResult) : Bool :=
  r1.resources.all (fun a => a.GetContainers.all (fun cn =>
    match (collectResults [r1]).leaf? r1.rt a.GetName cn r1.ctx,
      (collectResults [r2]).leaf? r1.rt a.GetName cn r1.ctx with
    | some x, some y => decide (x = y)
    | _, _ => true))

/-! ## Example data -/

/-- A Deployment `web` with the containers `app` and `sidecar`. -/
def webEarlier : AppsV1Resource :=
  ⟨"web", [⟨"app", ⟨"", "nginx", "1.0", ""⟩⟩, ⟨"sidecar", ⟨"", "envoy", "v1", ""⟩⟩]⟩

/-- A Deployment `web` of another namespace, with the container `app` only. -/
def webLater : AppsV1Resource :=
  ⟨"web", [⟨"app", ⟨"", "nginx", "2.0", ""⟩⟩]⟩

/-- Two fetch results for the Deployments of context `A`, one per namespace,
each holding a Deployment named `web`. -/
def collidingResults : List getKubeResourceResult :=
  [⟨"Deployment", "A", [webEarlier]⟩, ⟨"Deployment", "A", [webLater]⟩]

/-- Context `A` runs Deployment `web` with container `app` at tag `v1`. -/
def webV1 : AppsV1Resource := ⟨"web", [⟨"app", ⟨"", "app", "v1", ""⟩⟩]⟩

/-- Context `B` runs Deployment `web` with container `app` at tag `v2`. -/
def webV2 : AppsV1Resource := ⟨"web", [⟨"app", ⟨"", "app", "v2", ""⟩⟩]⟩

/-- Context `A` also runs a Deployment `solo` that context `B` does not have. -/
def soloA : AppsV1Resource := ⟨"solo", [⟨"main", ⟨"", "busybox", "1", ""⟩⟩]⟩

/-- One fetch result that holds both Deployments named `web`, and a result
of another context. -/
def mergedResults : List getKubeResourceResult :=
  [⟨"Deployment", "A", [webEarlier, webLater]⟩, ⟨"Deployment", "B", [webV2]⟩]

/-- Two fetch results for the Deployments of context `A` that both hold the
same Deployment `web`. -/
def overlappingResults : List getKubeResourceResult :=
  [⟨"Deployment", "A", [webV1, soloA]⟩, ⟨"Deployment", "A", [webV1]⟩]

/-- The index folded from the fetch results of the contexts `A` and `B`. -/
def twoContextIndex : Index :=
  collectResults [⟨"Deployment", "A", [webV1, soloA]⟩, ⟨"Deployment", "B", [webV2]⟩]

/-- The projection that selects the image name only. -/
def nameOnly : uiOptions := ⟨false, true, false, false, false⟩

/-! ## Groups of a pattern -/

/-- Whether the capturing group number `j` occurs in a pattern. -/
def Regex.captures : Regex → Nat → Bool
  | .seq a b, j => a.captures j || b.captures j
  | .opt a, j => a.captures j
  | .group i a, j => decide (j = i) || a.captures j
  | _, _ => false

/-! ## `internal/kube/client.go` and the context list of `internal/view/ui.go` -/

/-- The result of probing one context. -/
structure KubeContext where
  Name : String
  Reachable : Bool
  UnreachableError : Option String
  ServerVersion : String
  deriving DecidableEq, Repr

/-- The class `[[(]`. -/
def isOpener (c : Char) : Bool := c = '[' || c = '('

/-- The class `[])]`. -/
def isCloser (c : Char) : Bool := c = ']' || c = ')'

/-- The pattern of `cleanContextName`: `^(.+?) [[(].*[])]$`. -/
def contextRe : Regex :=
  .seq .bol (.seq (.group 1 (.plus false isAny)) (.seq (.lit ' ') (.seq (.cls isOpener)
    (.seq (.star true isAny) (.seq (.cls isCloser) .eol)))))

/-- Function `cleanContextName`: the context name of an entry of the context
list, or the error when the pattern does not match. -/
def cleanContextName (ctx : String) : Outcome String :=
  let found := FindAllStringSubmatch contextRe ctx
  if found.length > 0 then
    match found[0]? with
    | none => .crash "index out of range [0] with length 0"
    | some m =>
      match m[1]? with
      | some name => .value name
      | none => .crash "index out of range"
  else .error ("couldn\x27t clean context name \x27" ++ ctx ++ "\x27")

/-- The entry that `updateContextList` adds to the context list for a probed
context: its text and whether it is disabled. -/
def contextListEntry (ctx : KubeContext) : String × Bool :=
  if ctx.Reachable then (ctx.Name ++ " [" ++ ctx.ServerVersion ++ "]", false)
  else (ctx.Name ++ " (Unreachable)", true)

/-- No space of the text is followed by `[` or `(`. -/
def noOpenerAfterSpace : List Char → Bool
  | a :: b :: l => !(a = ' ' && isOpener b) && noOpenerAfterSpace (b :: l)
  | _ => true

/-! ## Removing duplicates as the claim words it -/

/-- The list with duplicates removed, the first occurrence of each string
kept, in input order. -/
def keepFirst : List String → List String
  | [] => []
  | x :: l => x :: (keepFirst l).filter (fun y => y ≠ x)

/-! ## Components that `GetImage` has to return -/

/-- Some selected component of the image is present: the registry, tag or
hash when selected and non-empty, or the name when selected. -/
def anySelectedPresent (img : image) (selRegistry selName selTag selDigest : Bool) : Bool :=
  (selRegistry && img.registry != "") || selName || (selTag && img.tag != "")
    || (selDigest && img.hash != "")

/-! ## `internal/config/helpers.go` on a file-system state

The file system is a state that records the directories, each with its
permission bits, and the regular files.  The process owns every directory
and is not the superuser; the umask is taken to leave the bits of the owner
alone.  A path is taken cleaned and absolute, as the list of its elements;
there are no symbolic links.  `os.Stat`, `os.Mkdir` and `os.MkdirAll` are
library functions: they are modelled after their documentation and the
errors `ENOENT`, `ENOTDIR`, `EACCES` and `EEXIST` of the system calls behind
them; a full or read-only device and other input/output errors are not part
of the state. -/

/-- A cleaned absolute path: its elements, from the root. -/
abbrev Path := List String

/-- A file-system state: the directories with their permission bits, and the
regular files. -/
structure FileSystem where
  dirs : List (Path × Nat)
  files : List Path
  deriving DecidableEq, Repr

/-- The call `filepath.Dir(path)` on a cleaned path: all but the last element. -/
def filepathDir (path : Path) : Path := path.dropLast

/-- The errors of the calls in this state: `ENOENT`, `ENOTDIR`, `EACCES` and
`EEXIST`. -/
inductive PathError where
  | notExist
  | notDir
  | permission
  | exist
  deriving DecidableEq, Repr

/-- The owner may write the directory: bit `0200` of its permission bits. -/
def ownerMayWrite (mode : Nat) : Bool := mode / 128 % 2 = 1

/-- The owner may search the directory: bit `0100` of its permission bits. -/
def ownerMaySearch (mode : Nat) : Bool := mode / 64 % 2 = 1

/-- What stands at a path. -/
inductive Entry where
  | missing
  | dir (mode : Nat)
  | file
  deriving DecidableEq, Repr

/-- The entry at a path, each element of the path taken as found. -/
def FileSystem.entry (fs : FileSystem) (p : Path) : Entry :=
  match fs.dirs.find? (fun e => decide (e.1 = p)) with
  | some e => .dir e.2
  | none => if p ∈ fs.files then .file else .missing

/-- What stops the walk at a directory on the way to a path: nothing when it
is a directory that the owner may search. -/
def FileSystem.obstacle (fs : FileSystem) (q : Path) : Option PathError :=
  match fs.entry q with
  | .dir mode => if ownerMaySearch mode then none else some .permission
  | .file => some .notDir
  | .missing => some .notExist

/-- What `os.Stat` returns: a directory or a regular file is found, or an
error. -/
inductive StatResult where
  | dir
  | file
  | failed (err : PathError)
  deriving DecidableEq, Repr

/-- The call `os.Stat(p)`: the directories above `p` are walked from the
root, and the first that is missing, is a regular file or may not be
searched gives the error; otherwise the entry at `p` decides. -/
def osStat (fs : FileSystem) (p : Path) : StatResult :=
  match p.inits.dropLast.findSome? fs.obstacle with
  | some err => .failed err
  | none =>
    match fs.entry p with
    | .dir _ => .dir
    | .file => .file
    | .missing => .failed .notExist

/-- The call `os.IsNotExist(err)` on the error of `os.Stat`, nil included. -/
def osIsNotExist (r : StatResult) : Bool :=
  match r with
  | .failed .notExist => true
  | _ => false

/-- The call `os.Mkdir(p, mode)`: the directory above must be reached and
may be searched, nothing may stand at `p`, and the owner of the directory
above must be allowed to write it; the directory is made with the permission
bits `mode`.  The result is the error, if any, and the state left. -/
def osMkdir (fs : FileSystem) (p : Path) (mode : Nat) : Option PathError × FileSystem :=
  if p = [] then (some .exist, fs)
  else
    match osStat fs p.dropLast with
    | .failed err => (some err, fs)
    | .file => (some .notDir, fs)
    | .dir =>
      match fs.entry p.dropLast with
      | .dir above =>
        if !ownerMaySearch above then (some .permission, fs)
        else
          match fs.entry p with
          | .missing =>
            if ownerMayWrite above then (none, ⟨fs.dirs ++ [(p, mode)], fs.files⟩)
            else (some .permission, fs)
          | _ => (some .exist, fs)
      | _ => (some .notExist, fs)

/-- The recursion of `os.MkdirAll` on the elements of the path in reverse
order, so that the directory above is the tail: nothing is done when the
directory exists; a regular file at the path is an error; otherwise the
directory above is made first, then the directory itself, and an error of
`os.Mkdir` is dropped when the directory is found afterwards. -/
def mkdirAllRev (mode : Nat) : List String → FileSystem → Option PathError × FileSystem
  | [], fs =>
    match osStat fs [] with
    | .dir => (none, fs)
    | .file => (some .notDir, fs)
    | .failed _ => osMkdir fs [] mode
  | name :: above, fs =>
    match osStat fs (name :: above).reverse with
    | .dir => (none, fs)
    | .file => (some .notDir, fs)
    | .failed _ =>
      match mkdirAllRev mode above fs with
      | (some err, fs') => (some err, fs')
      | (none, fs') =>
        match osMkdir fs' (name :: above).reverse mode with
        | (none, fs'') => (none, fs'')
        | (some err, fs'') =>
          if osStat fs'' (name :: above).reverse = .dir then (none, fs'')
          else (some err, fs'')

/-- The call `os.MkdirAll(p, mode)`: the directory and the missing
directories above it are made, each with the permission bits `mode`.  The
result is the error, if any, and the state left. -/
def osMkdirAll (fs : FileSystem) (p : Path) (mode : Nat) : Option PathError × FileSystem :=
  mkdirAllRev mode p.reverse fs

/-- What `require.DirExists` tests: `os.Stat` finds a directory. -/
def DirExists (fs : FileSystem) (p : Path) : Bool := decide (osStat fs p = .dir)

/-- Function `EnsureDir` ensures the given path is a directory: the state it
leaves, or `none` when `log.Fatalf` ends the program. -/
def EnsureDir (fs : FileSystem) (path : Path) (mode : Nat) : Option FileSystem :=
  let dir := filepathDir path
  if osIsNotExist (osStat fs dir) then
    match osMkdirAll fs dir mode with
    | (some _, _) => none
    | (none, fs') => some fs'
  else some fs

/-- A directory stands at the path and its owner may write it. -/
def FileSystem.writable (fs : FileSystem) (p : Path) : Bool :=
  match fs.entry p with
  | .dir mode => ownerMayWrite mode
  | _ => false

/-- The temporary directory of the test: the root and `/tmp`, both with the
permission bits `0755`. -/
def tempDirState : FileSystem := ⟨[([], 493), (["tmp"], 493)], []⟩

/-- The path of the test, `/tmp/kdiff-testEnsureDir-dir1/emptyFile.txt`. -/
def testFile1 : Path := ["tmp", "kdiff-testEnsureDir-dir1", "emptyFile.txt"]

/-- A home directory with the permission bits `0555`, which its owner may
not write. -/
def readOnlyHome : FileSystem := ⟨[([], 493), (["home"], 365)], []⟩

/-- A regular file stands at `/tmp/kdiff`. -/
def fileInPlace : FileSystem := ⟨[([], 493), (["tmp"], 493)], [["tmp", "kdiff"]]⟩

/-! ## `internal/kube/client.go`: probing the contexts -/

/-- The order of Go strings, byte by byte, on the characters of two strings:
whether the first is less than or equal to the second. -/
def lexLe : List Char → List Char → Bool
  | [], _ => true
  | _ :: _, [] => false
  | a :: l, b :: m =>
    if a.toNat < b.toNat then true
    else if b.toNat < a.toNat then false
    else lexLe l m

/-- The comparison `a <= b` of Go strings. -/
def stringLe (a b : String) : Bool := lexLe a.data b.data

/-- The call `sort.Strings(l)`: the strings in ascending order. -/
def sortStrings (l : List String) : List String :=
  l.insertionSort (fun a b => stringLe a b = true)

/-- Method `GetContextNames` returns a list of contexts from the kubeconfig
file: `rawConfig` is what `RawConfig()` returns, the error and the context
names of the configuration in the order in which the map is ranged over.
The result is `none` when `HandleError` ends the program. -/
def GetContextNames (onError : String → Bool) (rawConfig : Option String × List String) :
    Option (List String) :=
  if HandleError onError rawConfig.1 then some (sortStrings rawConfig.2) else none

/-- What `clientSet.Discovery().ServerVersion()` returns: the version, or an
error. -/
inductive VersionResult where
  | ok (major minor : String)
  | failed (err : String)
  deriving DecidableEq, Repr

/-- Function `getServerVersion` performs an API call to get the server
version: the message it sends to the channel, `version` being the result of
the call. -/
def getServerVersion (ctx : String) (version : VersionResult) : KubeContext :=
  match version with
  | .ok major minor => ⟨ctx, true, none, major ++ "." ++ minor⟩
  | .failed err => ⟨ctx, false, some err, ""⟩

/-- The first loop of `GetContextInfo` (lines 96 to 109): a client is built
for each context and a probe is started; the result is the list of the
messages that the started probes will send, or `none` when `HandleError` ends
the program. -/
def dispatchLoop (onError : String → Bool) (clientConfigError newForConfigError :
    String → Option String) (serverVersion : String → VersionResult) :
    List String → List KubeContext → Option (List KubeContext)
  | [], pending => some pending
  | ctx :: rest, pending =>
    if HandleError onError (clientConfigError ctx) then
      if HandleError onError (newForConfigError ctx) then
        dispatchLoop onError clientConfigError newForConfigError serverVersion rest
          (pending ++ [getServerVersion ctx (serverVersion ctx)])
      else none
    else none

/-- The second loop of `GetContextInfo` (lines 111 to 113): `n` messages are
received from the channel and appended to `allContexts`.  Which of the
pending probes completes next is not determined by the program: the
`schedule` gives, for each receive, the position among the pending probes
(modulo their number) of the one that completes.  The result is `none` when a
receive finds no pending probe and blocks for ever. -/
def receiveLoop : Nat → List KubeContext → List Nat → List KubeContext →
    Option (List KubeContext)
  | 0, _, _, allContexts => some allContexts
  | n + 1, pending, schedule, allContexts =>
    match pending[schedule.headD 0 % pending.length]? with
    | none => none
    | some context =>
      receiveLoop n (pending.eraseIdx (schedule.headD 0 % pending.length)) schedule.tail
        (allContexts ++ [context])

/-- Method `GetContextInfo` returns information about all contexts. -/
def GetContextInfo (onError : String → Bool) (rawConfig : Option String × List String)
    (clientConfigError newForConfigError : String → Option String)
    (serverVersion : String → VersionResult) (schedule : List Nat) :
    Option (List KubeContext) :=
  match GetContextNames onError rawConfig with
  | none => none
  | some names =>
    match dispatchLoop onError clientConfigError newForConfigError serverVersion names [] with
    | none => none
    | some pending =>
      match GetContextNames onError rawConfig with
      | none => none
      | some names' => receiveLoop names'.length pending schedule []

/-- Three contexts of which `bad` cannot be reached. -/
def probeOfExample (ctx : String) : VersionResult :=
  if ctx = "bad" then .failed "dial tcp: i/o timeout" else .ok "1" "27"

/-! ## `internal/view/multiSelectList.go`

The callbacks `selected` and `highlighted` are kept as flags that tell
whether a handler is set: the handlers that `ui.go` installs do not write the
list that calls them. -/

/-- An item of a list: its text and whether it is disabled. -/
structure multiSelectListItem where
  Text : String
  IsDisabled : Bool
  deriving DecidableEq, Repr

/-- The state of a list: the items, the indices of the selected items, the
index of the current item, and whether the two handlers are set. -/
structure multiSelectList where
  items : List multiSelectListItem
  selectedItems : List Int
  currentItem : Int
  selected : Bool
  highlighted : Bool
  deriving DecidableEq, Repr

/-- Function `newMultiSelectList`: every field has its zero value. -/
def newMultiSelectList : multiSelectList := ⟨[], [], 0, false, false⟩

/-- Method `addItem`. -/
def multiSelectList.addItem (m : multiSelectList) (text : String) (isDisabled : Bool) :
    multiSelectList :=
  { m with
    items := m.items ++ [⟨text, isDisabled⟩]
    currentItem := if m.currentItem = -1 then 0 else m.currentItem }

/-- Method `Clear`. -/
def multiSelectList.Clear (m : multiSelectList) : multiSelectList :=
  { m with items := [], selectedItems := [], currentItem := -1 }

/-- Method `SetSelectedFunc`. -/
def multiSelectList.SetSelectedFunc (m : multiSelectList) : multiSelectList :=
  { m with selected := true }

/-- Method `SetHighlightedFunc`. -/
def multiSelectList.SetHighlightedFunc (m : multiSelectList) : multiSelectList :=
  { m with highlighted := true }

/-- Method `getItem`, the indexing `m.items[index]`: `none` stands for the
index-out-of-range panic. -/
def multiSelectList.getItem (m : multiSelectList) (index : Int) : Option multiSelectListItem :=
  if index < 0 then none else m.items[index.toNat]?

/-- Method `GetItemCount`. -/
def multiSelectList.GetItemCount (m : multiSelectList) : Nat := m.items.length

/-- Method `GetSelectedItems` returns a list of indices of all selected items. -/
def multiSelectList.GetSelectedItems (m : multiSelectList) : List Int := m.selectedItems

/-- Method `getSelectableItemCount` returns the count of items that are not
disabled. -/
def multiSelectList.getSelectableItemCount (m : multiSelectList) : Nat :=
  m.items.foldl (fun count item => if !item.IsDisabled then count + 1 else count) 0

/-- The loop of `SelectAllItems`: `index` is the index of the first of the
remaining items. -/
def selectAllLoop : List multiSelectListItem → Int → List Int → List Int
  | [], _, selectedItems => selectedItems
  | item :: rest, index, selectedItems =>
    selectAllLoop rest (index + 1)
      (if !item.IsDisabled then selectedItems ++ [index] else selectedItems)

/-- Method `SelectAllItems`. -/
def multiSelectList.SelectAllItems (m : multiSelectList) : multiSelectList :=
  { m with selectedItems := selectAllLoop m.items 0 [] }

/-- The write `keys[k] = v` of a `map[int]bool`. -/
def keySet : List (Int × Bool) → Int → Bool → List (Int × Bool)
  | [], k, v => [(k, v)]
  | (k0, v0) :: m, k, v => if k0 = k then (k0, v) :: m else (k0, v0) :: keySet m k v

/-- The read `keys[k]` of a `map[int]bool`: false for an absent key. -/
def keyGet : List (Int × Bool) → Int → Bool
  | [], _ => false
  | (k0, v0) :: m, k => if k0 = k then v0 else keyGet m k

/-- Function `toggleSelection`.  The final `range` over the map visits the
keys in the order of the association list, which stands for the unspecified
iteration order of Go. -/
def toggleSelection (list : List Int) (currentItem : Int) : List Int :=
  let keys := list.foldl (fun keys item => keySet keys item true) []
  let keys :=
    if keyGet keys currentItem then keySet keys currentItem false
    else keySet keys currentItem true
  (keys.filter (fun e => e.2)).map (fun e => e.1)

/-- Method `triggerSelectedFunc`: when a handler is set the text of the
current item is read; `none` stands for the index-out-of-range panic. -/
def multiSelectList.triggerSelectedFunc (m : multiSelectList) : Option Unit :=
  if m.selected then (m.getItem m.currentItem).map (fun _ => ()) else some ()

/-- Method `triggerHighlightedFunc`: when a handler is set the text of the
current item is read; `none` stands for the index-out-of-range panic. -/
def multiSelectList.triggerHighlightedFunc (m : multiSelectList) : Option Unit :=
  if m.highlighted then (m.getItem m.currentItem).map (fun _ => ()) else some ()

/-- The key events that the input handler tells apart. -/
inductive KeyEvent where
  | keyUp
  | keyDown
  | keyEnd
  | keyHome
  | keyRune (r : Char)
  | other
  deriving DecidableEq, Repr

/-- The handler that `InputHandler` returns, applied to a key event: the
state it leaves, or `none` for an index-out-of-range panic.  The character
`\r` is `rune(tcell.KeyEnter)`. -/
def multiSelectList.InputHandler (m : multiSelectList) (event : KeyEvent) :
    Option multiSelectList :=
  if m.items.length = 0 then some m
  else
    match event with
    | .keyUp =>
      let m := { m with currentItem := m.currentItem - 1 }
      let m := if m.currentItem < (0 : Int) then { m with currentItem := 0 } else m
      (m.triggerHighlightedFunc).map (fun _ => m)
    | .keyDown =>
      let m := { m with currentItem := m.currentItem + 1 }
      let m := if m.currentItem ≥ (m.items.length : Int) then
        { m with currentItem := (m.items.length : Int) - 1 } else m
      (m.triggerHighlightedFunc).map (fun _ => m)
    | .keyEnd =>
      let m := { m with currentItem := (m.items.length : Int) - 1 }
      (m.triggerHighlightedFunc).map (fun _ => m)
    | .keyHome =>
      let m := { m with currentItem := 0 }
      (m.triggerHighlightedFunc).map (fun _ => m)
    | .keyRune r =>
      if r = '\r' ∨ r = ' ' then
        match m.getItem m.currentItem with
        | none => none
        | some item =>
          let m := if !item.IsDisabled then
            { m with selectedItems := toggleSelection m.selectedItems m.currentItem } else m
          (m.triggerSelectedFunc).map (fun _ => m)
      else if r = 'a' ∨ r = 'A' then
        let m := if m.getSelectableItemCount = m.selectedItems.length then
          { m with selectedItems := [] } else m.SelectAllItems
        (m.triggerSelectedFunc).map (fun _ => m)
      else some m
    | .other => some m

/-- The states that a list can be in: those reached from `newMultiSelectList`
through `addItem`, `Clear`, the setting of a handler and the key handler.
The last rule stands for the unspecified order in which `toggleSelection`
ranges over its map: any order of the selected indices can arise. -/
inductive Reachable : multiSelectList → Prop where
  | new : Reachable newMultiSelectList
  | addItem (m : multiSelectList) (text : String) (isDisabled : Bool) :
      Reachable m → Reachable (m.addItem text isDisabled)
  | clear (m : multiSelectList) : Reachable m → Reachable m.Clear
  | setSelected (m : multiSelectList) : Reachable m → Reachable m.SetSelectedFunc
  | setHighlighted (m : multiSelectList) : Reachable m → Reachable m.SetHighlightedFunc
  | key (m m' : multiSelectList) (event : KeyEvent) :
      Reachable m → m.InputHandler event = some m' → Reachable m'
  | reorder (m : multiSelectList) (order : List Int) :
      Reachable m → order.Perm m.selectedItems → Reachable { m with selectedItems := order }

/-- The invariant of the reachable states: the selection has no duplicates
and holds indices of items that are not disabled; the cursor is a valid index
when there are items, and 0 or -1 when there are none. -/
def multiSelectList.Inv (m : multiSelectList) : Prop :=
  m.selectedItems.Nodup
  ∧ (∀ i ∈ m.selectedItems, ∃ item, m.getItem i = some item ∧ item.IsDisabled = false)
  ∧ (m.items ≠ [] → 0 ≤ m.currentItem ∧ m.currentItem < (m.items.length : Int))
  ∧ (m.items = [] → m.currentItem = 0 ∨ m.currentItem = -1)

/-- A context list with a reachable and an unreachable context, after the
keys Down, Space, Up and Space. -/
def exampleList : multiSelectList :=
  ⟨[⟨"alpha [1.27]", false⟩, ⟨"bad (Unreachable)", true⟩], [0], 0, false, false⟩

/-- A namespace list, after `SetSelectedFunc`, `Clear`, two calls of `addItem`
and the keys End and Down. -/
def cursorList : multiSelectList :=
  ⟨[⟨"default", false⟩, ⟨"kube-system", false⟩], [], 1, true, false⟩

/-! ## `internal/view/ui.go`: the fetches of `updateDisplayArea` -/

/-- Method `GetItemText`, the indexing `m.items[index].Text`: `none` stands
for the index-out-of-range panic. -/
def multiSelectList.GetItemText (m : multiSelectList) (index : Int) : Option String :=
  if index < 0 then none else (m.items[index.toNat]?).map (fun item => item.Text)

/-- The loop of `getItemTextMultiple`: the remaining indices and the list
built so far. -/
def textLoop (m : multiSelectList) : List Int → List String → Option (List String)
  | [], list => some list
  | index :: rest, list =>
    match m.GetItemText index with
    | none => none
    | some text => textLoop m rest (list ++ [text])

/-- Method `getItemTextMultiple`. -/
def multiSelectList.getItemTextMultiple (m : multiSelectList) (indices : List Int) :
    Option (List String) :=
  textLoop m indices []

/-- A call `go getKubeResources(rt, ctx, ns, chanResources)`. -/
structure FetchCall where
  rt : String
  ctx : String
  ns : String
  deriving DecidableEq, Repr

/-- What the first half of `updateDisplayArea` settles: the namespaces used,
the calls dispatched, in the order of the three nested loops, and the number
of rounds of the collecting loop. -/
structure DisplayFetch where
  activeNamespaces : List String
  calls : List FetchCall
  rounds : Nat
  deriving DecidableEq, Repr

/-- Method `updateDisplayArea` of `uiElements`, up to the bound of the
collecting loop.  `activeContexts` is what `u.getActiveContexts()` returned;
`none` stands for a panic. -/
def updateDisplayArea (activeContexts : List String)
    (resourceTypeList namespaceList : multiSelectList) : Option DisplayFetch :=
  match resourceTypeList.getItemTextMultiple resourceTypeList.GetSelectedItems with
  | none => none
  | some activeResourceTypes =>
    match namespaceList.getItemTextMultiple namespaceList.GetSelectedItems with
    | none => none
    | some activeNamespaces =>
      let activeNamespaces :=
        if namespaceList.GetSelectedItems.length = namespaceList.GetItemCount then [""]
        else activeNamespaces
      some
        { activeNamespaces := activeNamespaces
          calls := activeContexts.flatMap (fun ctx =>
            activeResourceTypes.flatMap (fun rt =>
              activeNamespaces.map (fun ns => ⟨rt, ctx, ns⟩)))
          rounds := activeContexts.length * activeResourceTypes.length
            * activeNamespaces.length }

/-- The three resource kinds as `updateResourceTypeList` adds them, with
`Deployment` and `StatefulSet` selected. -/
def exampleKinds : multiSelectList :=
  ⟨[⟨"DaemonSet", false⟩, ⟨"Deployment", false⟩, ⟨"StatefulSet", false⟩], [1, 2], 0,
    true, false⟩

/-- A namespace list with both of its namespaces selected. -/
def allNamespaces : multiSelectList :=
  ⟨[⟨"default", false⟩, ⟨"kube-system", false⟩], [1, 0], 0, true, false⟩

/-- A namespace list with one of its two namespaces selected. -/
def oneNamespace : multiSelectList :=
  ⟨[⟨"default", false⟩, ⟨"kube-system", false⟩], [1], 1, true, false⟩

/-! ## `internal/view/ui.go`: the context list and the active contexts -/

/-- Method `updateContextList`, on the probes that `GetContextInfo` returned:
the context list it leaves and the package variable `unreachableError`, a map
from context name to error (`none` is the nil error). -/
def updateContextList (contextList : multiSelectList)
    (unreachableError : GoMap (Option String)) (probes : List KubeContext) :
    multiSelectList × GoMap (Option String) :=
  probes.foldl (fun state ctx =>
    if ctx.Reachable then
      (state.1.addItem (ctx.Name ++ " [" ++ ctx.ServerVersion ++ "]") false, state.2)
    else
      (state.1.addItem (ctx.Name ++ " (Unreachable)") true,
        GoMap.alter state.2 ctx.Name (fun _ => ctx.UnreachableError)))
    (contextList, unreachableError)

/-- The loop of `getActiveContexts` over the texts of the selected entries;
`none` when `HandleError` ends the program or a panic stops it. -/
def cleanLoop (onError : String → Bool) : List String → List String → Option (List String)
  | [], cleanedContextNames => some cleanedContextNames
  | ctx :: activeContexts, cleanedContextNames =>
    match cleanContextName ctx with
    | .value cleanName => cleanLoop onError activeContexts (cleanedContextNames ++ [cleanName])
    | .error err =>
      if HandleError onError (some err) then
        cleanLoop onError activeContexts (cleanedContextNames ++ [""])
      else none
    | .crash _ => none

/-- Method `getActiveContexts` returns a list of cleaned context names from
the selected entries of the context list. -/
def getActiveContexts (onError : String → Bool) (contextList : multiSelectList) :
    Option (List String) :=
  match contextList.getItemTextMultiple contextList.GetSelectedItems with
  | none => none
  | some activeContexts => cleanLoop onError activeContexts []

/-- The read `unreachableError[cleanName]` of the handler that
`SetHighlightedFunc` installs on the context list, for a disabled entry with
the given text: the error found, nil (`none`) when the key is absent; the
outer `none` when `HandleError` ends the program or a panic stops it. -/
def highlightedError (onError : String → Bool) (unreachableError : GoMap (Option String))
    (text : String) : Option (Option String) :=
  match cleanContextName text with
  | .value cleanName => some ((GoMap.lookup unreachableError cleanName).getD none)
  | .error err =>
    if HandleError onError (some err) then
      some ((GoMap.lookup unreachableError "").getD none)
    else none
  | .crash _ => none

/-- The probes of two contexts whose names hold a space and a bracket: the
first reachable, the second not. -/
def bracketProbes : List KubeContext :=
  [⟨"prod (eu)", true, none, "1.27"⟩,
    ⟨"dev [old]", false, some "dial tcp: i/o timeout", ""⟩]

/-! ## Theorems -/

/-- C1: `decomposeImage` returns, with no error, the components
`("", "nginx", "", "")` for `nginx`, `("", "nginx", "1.21", "")` for
`nginx:1.21`, and `("docker.io/library", "nginx", "1.21", "abcd")` for
`docker.io/library/nginx:1.21@sha256:abcd`. -/
theorem decomposeImage_examples :
    decomposeImage "nginx" = .value ("", "nginx", "", "")
    ∧ decomposeImage "nginx:1.21" = .value ("", "nginx", "1.21", "")
    ∧ decomposeImage "docker.io/library/nginx:1.21@sha256:abcd"
        = .value ("docker.io/library", "nginx", "1.21", "abcd") := by
  refine ⟨?_, ?_, ?_⟩ <;> decide

/-- C2 (the code at the failing input): for the empty string `decomposeImage`
does not return the parse error; it stops with an index-out-of-range panic,
because `len(matches) >= 0` holds for the empty result too.  The same happens
for every text that the pattern does not match, such as one with a newline,
and no input at all makes the function return an error. -/
theorem decomposeImage_empty_crashes :
    decomposeImage "" = .crash "index out of range [0] with length 0"
    ∧ decomposeImage "nginx\n" = .crash "index out of range [0] with length 0"
    ∧ (∀ s, FindAllStringSubmatch imageRe s = [] →
        decomposeImage s = .crash "index out of range [0] with length 0")
    ∧ ∀ s msg, decomposeImage s ≠ .error msg := by
  refine ⟨by decide, by decide, ?_, ?_⟩
  · intro s hs
    unfold decomposeImage
    simp [hs]
  · intro s msg
    unfold decomposeImage
    simp only [ge_iff_le, Nat.zero_le, if_true]
    split
    · simp
    · split <;> simp

theorem foldl_renderContainer_filter (c : String) (ir inn it ih : Bool)
    (cs : List kContainer) (acc : String) :
    cs.foldl (renderContainer c ir inn it ih) acc
      = (cs.filter (fun k => k.name = c)).foldl (renderContainer c ir inn it ih) acc := by
  induction cs generalizing acc with
  | nil => rfl
  | cons k ks ih' =>
    by_cases hk : k.name = c
    · simp [List.filter_cons, hk, ih']
    · simp [List.filter_cons, hk, ih', renderContainer]

theorem length_pos_of_ne_empty {s : String} (h : s ≠ "") : 0 < s.length := by
  rcases s with ⟨l⟩
  cases l with
  | nil => exact absurd rfl h
  | cons a l => simp [String.length]

theorem getImage_single_container (a : AppsV1Resource) (c : String) (img : image)
    (ir inn it ih : Bool)
    (hone : a.containers.filter (fun k => k.name = c) = [⟨c, img⟩])
    (hname : img.name ≠ "") :
    (a.GetImage c ir inn it ih).1 = renderSpec img ir inn it ih
    ∧ ((a.GetImage c ir inn it ih).2 = none ↔ renderSpec img ir inn it ih ≠ "")
    ∧ (a.GetImage c true true true true
        = ((if img.registry ≠ "" then img.registry ++ "/" else "") ++ img.name
            ++ (if img.tag ≠ "" then ":" ++ img.tag else "")
            ++ (if img.hash ≠ "" then "@sha256:" ++ img.hash else ""), none)) := by
  have hfold : ∀ ir inn it ih,
      a.containers.foldl (renderContainer c ir inn it ih) ""
        = renderContainer c ir inn it ih "" ⟨c, img⟩ := by
    intro ir inn it ih
    rw [foldl_renderContainer_filter, hone]; rfl
  have hn := length_pos_of_ne_empty hname
  rcases img with ⟨r, n, t, h⟩
  simp only at hn hname
  have key : ∀ ir inn it ih,
      renderContainer c ir inn it ih "" ⟨c, ⟨r, n, t, h⟩⟩ = renderSpec ⟨r, n, t, h⟩ ir inn it ih := by
    intro ir inn it ih
    by_cases hr : r = "" <;> by_cases ht : t = "" <;> by_cases hh : h = "" <;>
      cases ir <;> cases inn <;> cases it <;> cases ih <;>
      simp [renderContainer, renderSpec, joinComponents, joinSeparated, hr, ht, hh,
        String.length_append, length_pos_of_ne_empty, hn, String.append_assoc]
  have hlen : ∀ x : String, 0 < x.length ↔ x ≠ "" := by
    intro x
    constructor
    · intro hx he; subst he; simp at hx
    · exact length_pos_of_ne_empty
  refine ⟨?_, ?_, ?_⟩
  · unfold AppsV1Resource.GetImage
    simp only [hfold, key]
    split <;> rfl
  · unfold AppsV1Resource.GetImage
    simp only [hfold, key]
    split
    · rename_i hpos
      simpa using (hlen _).1 hpos
    · rename_i hpos
      have : renderSpec ⟨r, n, t, h⟩ ir inn it ih = "" := by
        by_contra hne
        exact hpos ((hlen _).2 hne)
      simp [this]
  · unfold AppsV1Resource.GetImage
    simp only [hfold, key]
    have hfull : renderSpec ⟨r, n, t, h⟩ true true true true
        = (if r ≠ "" then r ++ "/" else "") ++ n ++ (if t ≠ "" then ":" ++ t else "")
            ++ (if h ≠ "" then "@sha256:" ++ h else "") := by
      by_cases hr : r = "" <;> by_cases ht : t = "" <;> by_cases hh : h = "" <;>
        simp [renderSpec, joinComponents, joinSeparated, hr, ht, hh, String.append_assoc]
    have hpos : 0 < (renderSpec ⟨r, n, t, h⟩ true true true true).length := by
      rw [hfull]
      simp only [String.length_append]
      omega
    rw [if_pos hpos, hfull]

/-! ### The matcher on repetitions -/

theorem mem_starRun (p : Char → Bool) (g : Bool) (caps : Nat → List Char) (l : List Char) :
    ∀ (pos : Nat) (st : MState), st ∈ starRun p g caps pos l →
      ∃ k, k ≤ l.length ∧ st = ⟨pos + k, l.drop k, caps⟩ := by
  induction l with
  | nil =>
    intro pos st h
    simp only [starRun, List.mem_singleton] at h
    exact ⟨0, by simp, by simpa using h⟩
  | cons c cs ih =>
    intro pos st h
    have here : ∃ k, k ≤ (c :: cs).length ∧
        (⟨pos, c :: cs, caps⟩ : MState) = ⟨pos + k, (c :: cs).drop k, caps⟩ := ⟨0, by simp, by simp⟩
    have deeper : st ∈ starRun p g caps (pos + 1) cs →
        ∃ k, k ≤ (c :: cs).length ∧ st = ⟨pos + k, (c :: cs).drop k, caps⟩ := by
      intro h'
      obtain ⟨k, hk, rfl⟩ := ih _ _ h'
      exact ⟨k + 1, by simp [hk], by simp [Nat.add_assoc, Nat.add_comm 1 k]⟩
    unfold starRun at h
    split at h
    · split at h
      · rcases List.mem_append.1 h with h | h
        · exact deeper h
        · rw [List.mem_singleton.1 h]; exact here
      · rcases List.mem_cons.1 h with h | h
        · rw [h]; exact here
        · exact deeper h
    · rw [List.mem_singleton.1 h]; exact here

theorem starRun_greedy_append (p : Char → Bool) (caps : Nat → List Char)
    (a l : List Char) (ha : ∀ c ∈ a, p c = true) (pos : Nat) :
    ∃ tl, starRun p true caps pos (a ++ l) = starRun p true caps (pos + a.length) l ++ tl := by
  induction a generalizing pos with
  | nil => exact ⟨[], by simp⟩
  | cons c cs ih =>
    obtain ⟨tl, htl⟩ := ih (fun x hx => ha x (List.mem_cons_of_mem _ hx)) (pos + 1)
    refine ⟨tl ++ [⟨pos, c :: (cs ++ l), caps⟩], ?_⟩
    have hc : p c = true := ha c (List.mem_cons_self _ _)
    have hpos : pos + 1 + cs.length = pos + (c :: cs).length := by simp; omega
    rw [← hpos, List.cons_append, starRun]
    simp only [hc, if_true]
    rw [htl, List.append_assoc]

theorem starRun_lazy_append (p : Char → Bool) (caps : Nat → List Char)
    (a l : List Char) (ha : ∀ c ∈ a, p c = true) (pos : Nat) :
    ∃ pre, starRun p false caps pos (a ++ l) = pre ++ starRun p false caps (pos + a.length) l
      ∧ ∀ st ∈ pre, ∃ k, k < a.length ∧ st = ⟨pos + k, a.drop k ++ l, caps⟩ := by
  induction a generalizing pos with
  | nil => exact ⟨[], by simp, by simp⟩
  | cons c cs ih =>
    obtain ⟨pre, hpre, hmem⟩ := ih (fun x hx => ha x (List.mem_cons_of_mem _ hx)) (pos + 1)
    have hc : p c = true := ha c (List.mem_cons_self _ _)
    refine ⟨⟨pos, c :: (cs ++ l), caps⟩ :: pre, ?_, ?_⟩
    · have hpos : pos + 1 + cs.length = pos + (c :: cs).length := by simp; omega
      rw [← hpos, List.cons_append, starRun]
      simp only [hc, if_true, Bool.false_eq_true, if_false]
      rw [hpre, List.cons_append]
    · intro st hst
      rcases List.mem_cons.1 hst with h | h
      · exact ⟨0, by simp, by simp [h]⟩
      · obtain ⟨k, hk, rfl⟩ := hmem st h
        exact ⟨k + 1, by simp [hk], by simp [Nat.add_assoc, Nat.add_comm 1 k]⟩

theorem starRun_stop (p : Char → Bool) (g : Bool) (caps : Nat → List Char) (pos : Nat)
    (l : List Char) (hl : ∀ c ∈ l.head?, p c = false) :
    starRun p g caps pos l = [⟨pos, l, caps⟩] := by
  cases l with
  | nil => rfl
  | cons c cs =>
    have hc : p c = false := hl c (by simp)
    simp [starRun, hc]

theorem starRun_lazy_head (p : Char → Bool) (caps : Nat → List Char) (pos : Nat)
    (l : List Char) :
    (starRun p false caps pos l).head? = some ⟨pos, l, caps⟩ := by
  cases l with
  | nil => rfl
  | cons c cs =>
    unfold starRun
    split <;> simp

/-! ### The pattern of `decomposeImage` on a rendered image -/

theorem flatMap_append_skip {α β : Type} (pre l : List α) (f : α → List β)
    (h : ∀ a ∈ pre, f a = []) : (pre ++ l).flatMap f = l.flatMap f := by
  rw [List.flatMap_append, List.flatMap_eq_nil_iff.2 h, List.nil_append]

theorem sha_data : "@sha256:".data = ['@', 's', 'h', 'a', '2', '5', '6', ':'] := rfl

theorem lazy_star_then_eol (p : Char → Bool) (h : List Char) (hh : ∀ c ∈ h, p c = true)
    (caps : Nat → List Char) (pos : Nat) (g : MState → MState)
    (hg : ∀ st, (g st).rest = st.rest) :
    ((starRun p false caps pos h).map g).flatMap
        (fun st' => if st'.rest = [] then [st'] else [])
      = [g ⟨pos + h.length, [], caps⟩] := by
  obtain ⟨pre, hpre, hmem⟩ := starRun_lazy_append p caps h [] hh pos
  rw [List.append_nil] at hpre
  rw [hpre, List.map_append, flatMap_append_skip]
  · simp [starRun, hg]
  · intro a ha
    obtain ⟨st, hst, rfl⟩ := List.mem_map.1 ha
    obtain ⟨k, hk, rfl⟩ := hmem st hst
    have : List.drop k h ≠ [] := by
      intro h0
      have := congrArg List.length h0
      simp at this
      omega
    simp [hg, this]

theorem run_hashPart_eol (h : List Char) (hh : ∀ c ∈ h, isHashChar c = true) (pos : Nat)
    (caps : Nat → List Char) (h8 : caps 8 = []) :
    ∃ fin, ((Regex.seq hashPart .eol).run ⟨pos, hashText h, caps⟩).head? = some fin
      ∧ fin.caps 8 = h ∧ ∀ j, j < 6 → fin.caps j = caps j := by
  by_cases he : h = []
  · subst he
    refine ⟨⟨pos, [], caps⟩, ?_, h8, fun _ _ => rfl⟩
    simp [hashText, hashPart, Regex.run, Regex.lits, sha_data]
  · simp only [hashText, he, hashPart, Regex.run, Regex.lits, sha_data, if_false,
      List.cons_append, List.nil_append, List.flatMap_cons, List.flatMap_nil, List.append_nil,
      if_true, List.map_cons, List.map_nil, List.map_map, List.flatMap_append,
      List.cons_ne_nil]
    rw [lazy_star_then_eol isHashChar h hh]
    swap
    · intro st; rfl
    refine ⟨_, rfl, ?_, ?_⟩
    · have : pos + 1 + 1 + 1 + 1 + 1 + 1 + 1 + 1 + h.length - (pos + 1 + 1 + 1 + 1 + 1 + 1 + 1 + 1)
          = h.length := by omega
      simp [this]
    · intro j hj
      have h6 : j ≠ 6 := by omega
      have h7 : j ≠ 7 := by omega
      have h8 : j ≠ 8 := by omega
      simp [h6, h7, h8]

theorem hashText_head (h : List Char) : ∀ c ∈ (hashText h).head?, c = '@' := by
  intro c hc
  unfold hashText at hc
  split at hc
  · simp at hc
  · simpa [sha_data, eq_comm] using hc

theorem run_tagPart (t h : List Char) (ht : ∀ c ∈ t, isTagChar c = true) (pos : Nat)
    (caps : Nat → List Char) (h5 : caps 5 = []) :
    ∃ st tl, tagPart.run ⟨pos, tagText t ++ hashText h, caps⟩ = st :: tl
      ∧ st.pos = pos + (tagText t).length ∧ st.rest = hashText h ∧ st.caps 5 = t
      ∧ ∀ j, j ≠ 4 → j ≠ 5 → st.caps j = caps j := by
  by_cases he : t = []
  · subst he
    refine ⟨⟨pos, hashText h, caps⟩, [], ?_, rfl, rfl, h5, fun _ _ _ => rfl⟩
    have hne : ∀ l, hashText h = ':' :: l → False := by
      intro l hl
      have := hashText_head h ':' (by simp [hl])
      exact absurd this (by decide)
    simp only [tagText, if_true, List.nil_append, tagPart, Regex.run]
    split
    · rename_i x xs hx
      by_cases hx' : x = ':'
      · subst hx'; exact (hne _ hx).elim
      · simp [hx']
    · simp
  · obtain ⟨tl, htl⟩ := starRun_greedy_append isTagChar caps t (hashText h) ht (pos + 1)
    have hstop := starRun_stop isTagChar true caps (pos + 1 + t.length) (hashText h)
      (fun c hc => by rw [hashText_head h c hc]; decide)
    rw [hstop] at htl
    simp only [tagText, he, if_false, tagPart, Regex.run, List.cons_append, if_true,
      List.flatMap_cons, List.flatMap_nil, List.append_nil, htl, List.map_append,
      List.map_cons, List.map_nil, List.singleton_append, List.cons_append, List.nil_append]
    refine ⟨_, _, rfl, ?_, rfl, ?_, ?_⟩
    · simp only [List.length_cons]; omega
    · have : pos + 1 + t.length - (pos + 1) = t.length := by omega
      simp [this]
    · intro j h4 h5
      simp [h4, h5]

theorem run_tail_fail (c : Char) (l : List Char) (pos : Nat) (caps : Nat → List Char)
    (h1 : c ≠ ':') (h2 : c ≠ '@') :
    (Regex.seq tagPart (.seq hashPart .eol)).run ⟨pos, c :: l, caps⟩ = [] := by
  simp [Regex.run, tagPart, hashPart, Regex.lits, sha_data, h1, h2]

theorem run_namePart (n rest : List Char) (hne : n ≠ []) (hn : ∀ c ∈ n, isAny c = true)
    (pos : Nat) (caps : Nat → List Char) :
    ∃ pre st tl, namePart.run ⟨pos, n ++ rest, caps⟩ = pre ++ st :: tl
      ∧ (∀ s ∈ pre, ∃ k, k < n.length ∧ s.rest = n.drop k ++ rest)
      ∧ st.pos = pos + n.length ∧ st.rest = rest ∧ st.caps 3 = n
      ∧ ∀ j, j ≠ 3 → st.caps j = caps j := by
  cases n with
  | nil => exact absurd rfl hne
  | cons c cs =>
    have hc : isAny c = true := hn c (List.mem_cons_self _ _)
    obtain ⟨pre, hpre, hmem⟩ := starRun_lazy_append isAny caps cs rest
      (fun x hx => hn x (List.mem_cons_of_mem _ hx)) (pos + 1)
    obtain ⟨tl, htl⟩ := List.head?_eq_some_iff.1
      (starRun_lazy_head isAny caps (pos + 1 + cs.length) rest)
    rw [htl] at hpre
    simp only [namePart, Regex.run, List.cons_append, hc, if_true, hpre, List.map_append,
      List.map_cons]
    refine ⟨_, _, _, rfl, ?_, ?_, rfl, ?_, ?_⟩
    · intro s hs
      obtain ⟨s0, hs0, rfl⟩ := List.mem_map.1 hs
      obtain ⟨k, hk, rfl⟩ := hmem s0 hs0
      exact ⟨k + 1, by simp [hk], by simp⟩
    · simp only [List.length_cons]; omega
    · have : pos + 1 + cs.length - pos = cs.length + 1 := by omega
      simp only [this, List.take_succ_cons, List.cons.injEq, true_and, if_true]
      exact List.take_left _ _
    · intro j hj
      simp [hj]

theorem run_seq (a b : Regex) (st : MState) :
    (Regex.seq a b).run st = (a.run st).flatMap b.run := rfl

theorem run_opt (a : Regex) (st : MState) : (Regex.opt a).run st = a.run st ++ [st] := rfl

theorem run_group (i : Nat) (a : Regex) (st : MState) :
    (Regex.group i a).run st = (a.run st).map (fun st' =>
      ⟨st'.pos, st'.rest,
        fun j => if j = i then st.rest.take (st'.pos - st.pos) else st'.caps j⟩) := rfl

theorem run_star (g : Bool) (p : Char → Bool) (st : MState) :
    (Regex.star g p).run st = starRun p g st.caps st.pos st.rest := rfl

theorem slash_fails_in_starRun (p : Char → Bool) (g : Bool) (caps : Nat → List Char) (pos : Nat)
    (rest : List Char) (hrest : '/' ∉ rest) (f : MState → MState)
    (hf : ∀ s, (f s).rest = s.rest) :
    ((starRun p g caps pos rest).map f).flatMap (Regex.lit '/').run = [] := by
  refine List.flatMap_eq_nil_iff.2 ?_
  intro x hx
  obtain ⟨st, hst, rfl⟩ := List.mem_map.1 hx
  obtain ⟨k, _, rfl⟩ := mem_starRun _ _ _ _ _ _ hst
  simp only [Regex.run, hf]
  split
  · rename_i x xs hx
    have hmem : x ∈ rest := List.mem_of_mem_drop (by rw [hx]; exact List.mem_cons_self _ _)
    have : x ≠ '/' := fun h => hrest (h ▸ hmem)
    simp [this]
  · rfl

theorem run_registryPart_none (rest : List Char) (hrest : '/' ∉ rest) (pos : Nat)
    (caps : Nat → List Char) :
    registryPart.run ⟨pos, rest, caps⟩ = [⟨pos, rest, caps⟩] := by
  simp only [registryPart, run_opt, run_group, run_seq, run_star]
  rw [slash_fails_in_starRun isAny true caps pos rest hrest]
  · rfl
  · intro s; rfl

theorem run_registryPart_some (r rest : List Char) (hr : ∀ c ∈ r, isAny c = true)
    (hrest : '/' ∉ rest) (pos : Nat) (caps : Nat → List Char) :
    ∃ st tl, registryPart.run ⟨pos, r ++ '/' :: rest, caps⟩ = st :: tl
      ∧ st.pos = pos + r.length + 1 ∧ st.rest = rest ∧ st.caps 2 = r
      ∧ ∀ j, j ≠ 1 → j ≠ 2 → st.caps j = caps j := by
  obtain ⟨tl, htl⟩ := starRun_greedy_append isAny caps r ('/' :: rest) hr pos
  have hslash : isAny '/' = true := by decide
  rw [starRun] at htl
  simp only [hslash, if_true] at htl
  simp only [registryPart, run_opt, run_group, run_seq, run_star, htl, List.map_append,
    List.flatMap_append]
  rw [slash_fails_in_starRun isAny true caps (pos + r.length + 1) rest hrest]
  swap
  · intro s; rfl
  simp only [List.map_nil, List.nil_append, List.flatMap_cons, List.flatMap_nil,
    List.append_nil, if_true, List.map_cons, List.cons_append, List.singleton_append,
    Regex.run, List.map_append, List.append_assoc]
  refine ⟨_, _, rfl, rfl, rfl, ?_, ?_⟩
  · have : pos + r.length - pos = r.length := by omega
    simp only [this, if_true]
    exact List.take_left _ _
  · intro j h1 h2
    simp [h1, h2]

theorem slash_not_mem_rendered (n t h : List Char) (hn : ∀ c ∈ n, isNameChar c = true)
    (ht : ∀ c ∈ t, isTagChar c = true) (hh : ∀ c ∈ h, isHashChar c = true) :
    '/' ∉ n ++ (tagText t ++ hashText h) := by
  intro hmem
  rcases List.mem_append.1 hmem with h1 | h1
  · exact absurd (hn _ h1) (by decide)
  · rcases List.mem_append.1 h1 with h2 | h2
    · unfold tagText at h2
      split at h2
      · simp at h2
      · rcases List.mem_cons.1 h2 with h3 | h3
        · exact absurd h3 (by decide)
        · exact absurd (ht _ h3) (by decide)
    · unfold hashText at h2
      split at h2
      · simp at h2
      · rcases List.mem_append.1 h2 with h3 | h3
        · exact absurd h3 (by decide)
        · exact absurd (hh _ h3) (by decide)

theorem run_imageRe (r n t h : List Char) (hr : ∀ c ∈ r, isAny c = true) (hne : n ≠ [])
    (hn : ∀ c ∈ n, isNameChar c = true) (ht : ∀ c ∈ t, isTagChar c = true)
    (hh : ∀ c ∈ h, isHashChar c = true) :
    ∃ fin tl, imageRe.run ⟨0, registryText r ++ (n ++ (tagText t ++ hashText h)), fun _ => []⟩
        = fin :: tl
      ∧ fin.caps 2 = r ∧ fin.caps 3 = n ∧ fin.caps 5 = t ∧ fin.caps 8 = h := by
  have hslash := slash_not_mem_rendered n t h hn ht hh
  have hnAny : ∀ c ∈ n, isAny c = true := by
    intro c hc
    have := hn c hc
    simp only [isNameChar, Bool.and_eq_true] at this
    exact this.1.1.1
  -- the registry part
  obtain ⟨st1, tl1, h1, hrest1, hc2, hcaps1⟩ :
      ∃ st tl, registryPart.run
          ⟨0, registryText r ++ (n ++ (tagText t ++ hashText h)), fun _ => []⟩ = st :: tl
        ∧ st.rest = n ++ (tagText t ++ hashText h) ∧ st.caps 2 = r
        ∧ ∀ j, 3 ≤ j → st.caps j = [] := by
    by_cases he : r = []
    · subst he
      refine ⟨⟨0, n ++ (tagText t ++ hashText h), fun _ => []⟩, [], ?_, rfl, rfl,
        fun _ _ => rfl⟩
      simpa [registryText] using run_registryPart_none _ hslash 0 (fun _ => [])
    · obtain ⟨st, tl, hrun, -, hrest, hc, hcaps⟩ :=
        run_registryPart_some r _ hr hslash 0 (fun _ => [])
      refine ⟨st, tl, ?_, hrest, hc, fun j hj => ?_⟩
      · simpa [registryText, he] using hrun
      · exact hcaps j (by omega) (by omega)
  -- the name part
  obtain ⟨pre, st2, tl2, h2, hpre, -, hrest2, hc3, hcaps2⟩ :=
    run_namePart n (tagText t ++ hashText h) hne hnAny st1.pos st1.caps
  have hst1 : st1 = ⟨st1.pos, n ++ (tagText t ++ hashText h), st1.caps⟩ := by
    cases st1; simp only at hrest1; subst hrest1; rfl
  rw [← hst1] at h2
  -- the tag part
  obtain ⟨st3, tl3, h3, -, hrest3, hc5, hcaps3⟩ :=
    run_tagPart t h ht st2.pos st2.caps (by rw [hcaps2 5 (by decide), hcaps1 5 (by decide)])
  have hst2 : st2 = ⟨st2.pos, tagText t ++ hashText h, st2.caps⟩ := by
    cases st2; simp only at hrest2; subst hrest2; rfl
  rw [← hst2] at h3
  -- the hash part and the end of the text
  obtain ⟨fin, hfin, hc8, hcaps4⟩ :=
    run_hashPart_eol h hh st3.pos st3.caps
      (by rw [hcaps3 8 (by decide) (by decide), hcaps2 8 (by decide), hcaps1 8 (by decide)])
  have hst3 : st3 = ⟨st3.pos, hashText h, st3.caps⟩ := by
    cases st3; simp only at hrest3; subst hrest3; rfl
  rw [← hst3] at hfin
  obtain ⟨tl4, htl4⟩ := List.head?_eq_some_iff.1 hfin
  have hfail : ∀ s ∈ pre, (Regex.seq tagPart (.seq hashPart .eol)).run s = [] := by
    intro s hs
    obtain ⟨k, hk, hsrest⟩ := hpre s hs
    have hdrop : n.drop k ≠ [] := by
      intro h0
      have := congrArg List.length h0
      simp at this
      omega
    obtain ⟨c, l, hcl⟩ := List.exists_cons_of_ne_nil hdrop
    have hcn : isNameChar c = true :=
      hn c (List.mem_of_mem_drop (by rw [hcl]; exact List.mem_cons_self _ _))
    have hs' : s = ⟨s.pos, c :: (l ++ (tagText t ++ hashText h)), s.caps⟩ := by
      cases s; simp only at hsrest; subst hsrest; simp [hcl]
    rw [hs']
    exact run_tail_fail c _ _ _ (fun h0 => absurd (h0 ▸ hcn) (by decide))
      (fun h0 => absurd (h0 ▸ hcn) (by decide))
  refine ⟨fin, ?_, ?_, ?_, ?_, ?_, ?_⟩
  · exact tl4 ++ tl3.flatMap (Regex.seq hashPart .eol).run
      ++ tl2.flatMap (Regex.seq tagPart (.seq hashPart .eol)).run
      ++ tl1.flatMap (Regex.seq namePart (.seq tagPart (.seq hashPart .eol))).run
  · have hbol : Regex.bol.run ⟨0, registryText r ++ (n ++ (tagText t ++ hashText h)), fun _ => []⟩
        = [⟨0, registryText r ++ (n ++ (tagText t ++ hashText h)), fun _ => []⟩] := rfl
    rw [imageRe, run_seq, hbol, List.flatMap_cons, List.flatMap_nil, List.append_nil,
      run_seq, h1, List.flatMap_cons, run_seq, h2, flatMap_append_skip _ _ _ hfail,
      List.flatMap_cons, run_seq, h3, List.flatMap_cons, htl4]
    simp only [List.cons_append, List.append_assoc]
  · rw [hcaps4 2 (by decide), hcaps3 2 (by decide) (by decide), hcaps2 2 (by decide), hc2]
  · rw [hcaps4 3 (by decide), hcaps3 3 (by decide) (by decide), hc3]
  · rw [hcaps4 5 (by decide), hc5]
  · exact hc8

theorem decomposeImage_of_run (s : String) (fin : MState) (tl : List MState)
    (hrun : imageRe.run ⟨0, s.data, fun _ => []⟩ = fin :: tl) :
    decomposeImage s = .value (String.mk (fin.caps 2), String.mk (fin.caps 3),
      String.mk (fin.caps 5), String.mk (fin.caps 8)) := by
  have hg : imageRe.groups = 8 := by decide
  have hr : List.range 9 = [0, 1, 2, 3, 4, 5, 6, 7, 8] := by decide
  have hm : findFirst imageRe 0 s.data
      = some (fun j => if j = 0 then s.data.take (fin.pos - 0) else fin.caps j) := by
    cases hs : s.data with
    | nil => rw [hs] at hrun; simp [findFirst, matchAt, hrun]
    | cons c cs => rw [hs] at hrun; simp [findFirst, matchAt, hrun]
  unfold decomposeImage FindAllStringSubmatch
  simp [hm, hg, hr]

theorem rendered_data (r n t h : String) :
    ((if r ≠ "" then r ++ "/" else "") ++ n ++ (if t ≠ "" then ":" ++ t else "")
        ++ (if h ≠ "" then "@sha256:" ++ h else "")).data
      = registryText r.data ++ (n.data ++ (tagText t.data ++ hashText h.data)) := by
  have hd : ∀ x : String, x = "" ↔ x.data = [] := by
    intro x
    constructor
    · intro hx; subst hx; rfl
    · intro hx; cases x; simp only at hx; subst hx; rfl
  by_cases hr : r = "" <;> by_cases ht : t = "" <;> by_cases hh : h = "" <;>
    simp [registryText, tagText, hashText, hr, ht, hh, String.data_append, sha_data,
      (hd r).not.1, (hd t).not.1, (hd h).not.1]

theorem decomposeImage_rendered (r n t h : String) (hr : ∀ c ∈ r.data, isAny c = true)
    (hne : n ≠ "") (hn : ∀ c ∈ n.data, isNameChar c = true)
    (ht : ∀ c ∈ t.data, isTagChar c = true) (hh : ∀ c ∈ h.data, isHashChar c = true) :
    decomposeImage ((if r ≠ "" then r ++ "/" else "") ++ n ++ (if t ≠ "" then ":" ++ t else "")
        ++ (if h ≠ "" then "@sha256:" ++ h else "")) = .value (r, n, t, h) := by
  have hne' : n.data ≠ [] := by
    intro h0; apply hne; cases n; simp only at h0; subst h0; rfl
  obtain ⟨fin, tl, hrun, h2, h3, h5, h8⟩ := run_imageRe r.data n.data t.data h.data hr hne' hn ht hh
  rw [← rendered_data] at hrun
  rw [decomposeImage_of_run _ fin tl hrun, h2, h3, h5, h8]

/-- C7: for a resource with exactly one container named `c`, whose image has
a non-empty name, `GetImage` returns under every projection the selected
components that are present, in the order registry, name, tag, digest, with
`/` before the name, `:` before the tag and `@sha256:` before the digest,
the first emitted component without its separator, and with a nil error;
under the full projection that is
`(r + "/" if r is non-empty) + n + (":" + t if t is non-empty) +
("@sha256:" + h if h is non-empty)`. -/
theorem GetImage_renders (a : AppsV1Resource) (c : String) (img : image)
    (ir inn it ih : Bool)
    (hone : a.containers.filter (fun k => k.name = c) = [⟨c, img⟩])
    (hname : img.name ≠ "") :
    (a.GetImage c ir inn it ih).1 = renderSpec img ir inn it ih
    ∧ ((a.GetImage c ir inn it ih).2 = none ↔ renderSpec img ir inn it ih ≠ "")
    ∧ (a.GetImage c true true true true
        = ((if img.registry ≠ "" then img.registry ++ "/" else "") ++ img.name
            ++ (if img.tag ≠ "" then ":" ++ img.tag else "")
            ++ (if img.hash ≠ "" then "@sha256:" ++ img.hash else ""), none)) :=
  getImage_single_container a c img ir inn it ih hone hname

/-- C3 (counterexample): the image with empty registry, name `library/nginx`
and tag `1.21` has a non-empty name, is rendered `library/nginx:1.21` under
the full projection, and `decomposeImage` returns for that text the registry
`library` and the name `nginx`, not the components rendered.  A tag holding
`:` and a digest holding `-` do not come back either. -/
theorem roundTrip_counterexample :
    (⟨"", "library/nginx", "1.21", ""⟩ : image).name ≠ ""
    ∧ (AppsV1Resource.GetImage ⟨"web", [⟨"app", ⟨"", "library/nginx", "1.21", ""⟩⟩]⟩ "app"
        true true true true) = ("library/nginx:1.21", none)
    ∧ decomposeImage "library/nginx:1.21" = .value ("library", "nginx", "1.21", "")
    ∧ decomposeImage (AppsV1Resource.GetImage ⟨"web", [⟨"app", ⟨"", "library/nginx", "1.21", ""⟩⟩]⟩
        "app" true true true true).1 ≠ .value ("", "library/nginx", "1.21", "")
    ∧ decomposeImage (AppsV1Resource.GetImage ⟨"web", [⟨"app", ⟨"", "nginx", "1:21", ""⟩⟩]⟩
        "app" true true true true).1 = .value ("", "nginx:1", "21", "")
    ∧ decomposeImage (AppsV1Resource.GetImage ⟨"web", [⟨"app", ⟨"", "nginx", "", "ab-cd"⟩⟩]⟩
        "app" true true true true).1 = .value ("", "nginx@sha256", "ab-cd", "") := by
  refine ⟨?_, ?_, ?_, ?_, ?_, ?_⟩ <;> decide

/-- C3 (amended): round trip.  For an image whose name is non-empty and holds
no `/`, `:`, `@` or newline, whose registry holds no newline, whose tag
consists of characters of `[\w\.\d-]` and whose digest of characters of
`[\w\d]`, and for any subset of registry, tag and digest empty: rendering it
with `GetImage` under the full projection, from a resource whose only
container of that name carries it, and passing the result to
`decomposeImage` yields the same four components, with no error. -/
theorem roundTrip (a : AppsV1Resource) (c : String) (img : image)
    (hone : a.containers.filter (fun k => k.name = c) = [⟨c, img⟩])
    (hname : img.name ≠ "")
    (hn : ∀ ch ∈ img.name.data, isNameChar ch = true)
    (hr : ∀ ch ∈ img.registry.data, isAny ch = true)
    (ht : ∀ ch ∈ img.tag.data, isTagChar ch = true)
    (hh : ∀ ch ∈ img.hash.data, isHashChar ch = true) :
    decomposeImage (a.GetImage c true true true true).1
      = .value (img.registry, img.name, img.tag, img.hash) := by
  rw [(getImage_single_container a c img true true true true hone hname).2.2]
  exact decomposeImage_rendered _ _ _ _ hr hname hn ht hh

/-- Witness of `roundTrip`: the image `docker.io/library/nginx:1.21@sha256:abcd`. -/
theorem roundTrip_witness :
    (⟨"docker.io/library", "nginx", "1.21", "abcd"⟩ : image).name ≠ ""
    ∧ decomposeImage (AppsV1Resource.GetImage
          ⟨"web", [⟨"app", ⟨"docker.io/library", "nginx", "1.21", "abcd"⟩⟩]⟩ "app"
          true true true true).1
        = .value ("docker.io/library", "nginx", "1.21", "abcd") :=
  ⟨by decide,
   roundTrip ⟨"web", [⟨"app", ⟨"docker.io/library", "nginx", "1.21", "abcd"⟩⟩]⟩ "app"
    ⟨"docker.io/library", "nginx", "1.21", "abcd"⟩ (by decide) (by decide) (by decide)
    (by decide) (by decide) (by decide)⟩

/-- Witness of `GetImage_renders`: a resource with the containers `app` and
`sidecar`, rendered under the projection registry and name. -/
theorem GetImage_renders_witness :
    (⟨"docker.io", "nginx", "1.21", "abcd"⟩ : image).name ≠ ""
    ∧ (AppsV1Resource.GetImage
          ⟨"web", [⟨"sidecar", ⟨"", "envoy", "v2", ""⟩⟩,
                   ⟨"app", ⟨"docker.io", "nginx", "1.21", "abcd"⟩⟩]⟩ "app"
          true true false false).1
        = renderSpec ⟨"docker.io", "nginx", "1.21", "abcd"⟩ true true false false :=
  ⟨by decide,
   (GetImage_renders
    ⟨"web", [⟨"sidecar", ⟨"", "envoy", "v2", ""⟩⟩,
             ⟨"app", ⟨"docker.io", "nginx", "1.21", "abcd"⟩⟩]⟩ "app"
    ⟨"docker.io", "nginx", "1.21", "abcd"⟩ true true false false (by decide) (by decide)).1⟩

/-! ### The aggregation index -/

theorem lookup_alter {V : Type} (m : GoMap V) (k k' : String) (f : Option V → V) :
    GoMap.lookup (GoMap.alter m k f) k'
      = if k = k' then some (f (GoMap.lookup m k)) else GoMap.lookup m k' := by
  induction m with
  | nil =>
    by_cases h : k = k' <;> simp [GoMap.alter, GoMap.lookup, h]
  | cons e m ih =>
    obtain ⟨k0, v0⟩ := e
    by_cases h0 : k0 = k
    · subst h0
      by_cases h : k0 = k' <;> simp [GoMap.alter, GoMap.lookup, h]
    · by_cases h : k = k'
      · subst h
        simp [GoMap.alter, GoMap.lookup, h0, ih]
      · by_cases h1 : k0 = k'
        · subst h1
          simp [GoMap.alter, GoMap.lookup, h0, h]
        · simp [GoMap.alter, GoMap.lookup, h0, h, h1, ih]

theorem lookup_mem {V : Type} (m : GoMap V) (k : String) (v : V)
    (h : GoMap.lookup m k = some v) : (k, v) ∈ m := by
  induction m with
  | nil => simp [GoMap.lookup] at h
  | cons e m ih =>
    obtain ⟨k0, v0⟩ := e
    simp only [GoMap.lookup] at h
    split at h
    · rename_i hk
      simp only [Option.some.injEq] at h
      subst hk; subst h
      exact List.mem_cons_self _ _
    · exact List.mem_cons_of_mem _ (ih h)

theorem mem_lookup {V : Type} (m : GoMap V) (k : String) (v : V) (hwf : GoMap.WF m)
    (h : (k, v) ∈ m) : GoMap.lookup m k = some v := by
  induction m with
  | nil => simp at h
  | cons e m ih =>
    obtain ⟨k0, v0⟩ := e
    unfold GoMap.WF at hwf
    simp only [List.map_cons, List.nodup_cons] at hwf
    rcases List.mem_cons.1 h with h1 | h1
    · simp only [Prod.mk.injEq] at h1
      simp [GoMap.lookup, h1.1, h1.2]
    · have hne : k0 ≠ k := by
        intro e
        apply hwf.1
        rw [e]
        exact List.mem_map.2 ⟨(k, v), h1, rfl⟩
      simp only [GoMap.lookup, hne, if_false]
      exact ih hwf.2 h1

theorem lookup_getD {V : Type} (o : Option (GoMap V)) (k : String) :
    GoMap.lookup (o.getD []) k = o.bind (fun m => GoMap.lookup m k) := by
  cases o <;> simp [GoMap.lookup]

theorem bind_lookup_alter {V : Type} (o : Option (GoMap V)) (k k' : String)
    (f : Option V → V) :
    GoMap.lookup (GoMap.alter (o.getD []) k f) k'
      = if k = k' then some (f (o.bind (fun m => GoMap.lookup m k)))
        else o.bind (fun m => GoMap.lookup m k') := by
  rw [lookup_alter, lookup_getD, lookup_getD]

theorem leaf_addContainer (all : Index) (rt rn ctx cn : String) (res : AppsV1Resource)
    (rt' rn' cn' ctx' : String) :
    (addContainer rt rn ctx res all cn).leaf? rt' rn' cn' ctx'
      = if rt = rt' ∧ rn = rn' ∧ cn = cn' ∧ ctx = ctx' then some res
        else all.leaf? rt' rn' cn' ctx' := by
  unfold addContainer Index.leaf? Index.container? Index.resource? Index.kind?
  rw [lookup_alter]
  by_cases h1 : rt = rt'
  · subst h1
    simp only [if_true, Option.some_bind, bind_lookup_alter, true_and]
    by_cases h2 : rn = rn'
    · subst h2
      simp only [if_true, Option.some_bind, bind_lookup_alter, true_and]
      by_cases h3 : cn = cn'
      · subst h3
        simp only [if_true, Option.some_bind, bind_lookup_alter, true_and]
      · simp only [h3, if_false, false_and]
    · simp only [h2, if_false, false_and]
  · simp only [h1, if_false, false_and]

theorem leaf_ensureResource (all : Index) (rt rn rt' rn' cn' ctx' : String) :
    (ensureResource all rt rn).leaf? rt' rn' cn' ctx' = all.leaf? rt' rn' cn' ctx' := by
  unfold ensureResource Index.leaf? Index.container? Index.resource? Index.kind?
  rw [lookup_alter]
  by_cases h1 : rt = rt'
  · subst h1
    simp only [if_true, Option.some_bind, bind_lookup_alter]
    by_cases h2 : rn = rn'
    · subst h2
      simp only [if_true, Option.some_bind, lookup_getD]
    · simp only [h2, if_false]
  · simp only [h1, if_false]

theorem container_ensureResource (all : Index) (rt rn rt' rn' cn' : String) :
    (ensureResource all rt rn).container? rt' rn' cn' = all.container? rt' rn' cn' := by
  unfold ensureResource Index.container? Index.resource? Index.kind?
  rw [lookup_alter]
  by_cases h1 : rt = rt'
  · subst h1
    simp only [if_true, Option.some_bind, bind_lookup_alter]
    by_cases h2 : rn = rn'
    · subst h2
      simp only [if_true, Option.some_bind, lookup_getD]
    · simp only [h2, if_false]
  · simp only [h1, if_false]

theorem resource_ensureResource (all : Index) (rt rn rt' rn' : String) :
    ((ensureResource all rt rn).resource? rt' rn').isSome = true
      ↔ (rt = rt' ∧ rn = rn') ∨ (all.resource? rt' rn').isSome = true := by
  unfold ensureResource Index.resource? Index.kind?
  rw [lookup_alter]
  by_cases h1 : rt = rt'
  · subst h1
    simp only [if_true, Option.some_bind, bind_lookup_alter, true_and]
    by_cases h2 : rn = rn'
    · simp [h2]
    · simp [h2]
  · simp [h1]

theorem kind_ensureResource (all : Index) (rt rn rt' : String) :
    ((ensureResource all rt rn).kind? rt').isSome = true
      ↔ rt = rt' ∨ (all.kind? rt').isSome = true := by
  unfold ensureResource Index.kind?
  rw [lookup_alter]
  by_cases h1 : rt = rt' <;> simp [h1]

theorem container_addContainer (all : Index) (rt rn ctx cn : String) (res : AppsV1Resource)
    (rt' rn' cn' : String) :
    ((addContainer rt rn ctx res all cn).container? rt' rn' cn').isSome = true
      ↔ (rt = rt' ∧ rn = rn' ∧ cn = cn') ∨ (all.container? rt' rn' cn').isSome = true := by
  unfold addContainer Index.container? Index.resource? Index.kind?
  rw [lookup_alter]
  by_cases h1 : rt = rt'
  · subst h1
    simp only [if_true, Option.some_bind, bind_lookup_alter, true_and]
    by_cases h2 : rn = rn'
    · subst h2
      simp only [if_true, Option.some_bind, bind_lookup_alter, true_and]
      by_cases h3 : cn = cn'
      · simp [h3]
      · simp [h3]
    · simp [h2]
  · simp [h1]

theorem resource_addContainer (all : Index) (rt rn ctx cn : String) (res : AppsV1Resource)
    (rt' rn' : String) :
    ((addContainer rt rn ctx res all cn).resource? rt' rn').isSome = true
      ↔ (rt = rt' ∧ rn = rn') ∨ (all.resource? rt' rn').isSome = true := by
  unfold addContainer Index.resource? Index.kind?
  rw [lookup_alter]
  by_cases h1 : rt = rt'
  · subst h1
    simp only [if_true, Option.some_bind, bind_lookup_alter, true_and]
    by_cases h2 : rn = rn'
    · simp [h2]
    · simp [h2]
  · simp [h1]

theorem kind_addContainer (all : Index) (rt rn ctx cn : String) (res : AppsV1Resource)
    (rt' : String) :
    ((addContainer rt rn ctx res all cn).kind? rt').isSome = true
      ↔ rt = rt' ∨ (all.kind? rt').isSome = true := by
  unfold addContainer Index.kind?
  rw [lookup_alter]
  by_cases h1 : rt = rt' <;> simp [h1]

/-! ### Folds that set a flag or overwrite a value -/

theorem foldl_flag {S X : Type} (step : S → X → S) (P : S → Prop) (T : X → Prop)
    (h : ∀ s x, P (step s x) ↔ T x ∨ P s) (l : List X) (s : S) :
    P (l.foldl step s) ↔ (∃ x ∈ l, T x) ∨ P s := by
  induction l generalizing s with
  | nil => simp
  | cons x l ih =>
    rw [List.foldl_cons, ih, h]
    simp only [List.mem_cons, exists_eq_or_imp]
    constructor
    · rintro (h1 | h1 | h1)
      · exact Or.inl (Or.inr h1)
      · exact Or.inl (Or.inl h1)
      · exact Or.inr h1
    · rintro ((h1 | h1) | h1)
      · exact Or.inr (Or.inl h1)
      · exact Or.inl h1
      · exact Or.inr (Or.inr h1)

theorem foldl_overwrite {S X V : Type} (step : S → X → S) (obs : S → Option V)
    (w : X → Option V) (h : ∀ s x, obs (step s x) = (w x).or (obs s)) (l : List X) (s : S) :
    obs (l.foldl step s) = (lastSome w l).or (obs s) := by
  induction l generalizing s with
  | nil => simp [lastSome]
  | cons x l ih =>
    rw [List.foldl_cons, ih, h, lastSome, Option.or_assoc]

theorem lastSome_eq_some {X V : Type} (w : X → Option V) (l : List X) (v : V)
    (h : lastSome w l = some v) : ∃ x ∈ l, w x = some v := by
  induction l with
  | nil => simp [lastSome] at h
  | cons x l ih =>
    rw [lastSome] at h
    cases hl : lastSome w l with
    | none =>
      rw [hl, Option.none_or] at h
      exact ⟨x, List.mem_cons_self _ _, h⟩
    | some v' =>
      rw [hl, Option.or_some] at h
      obtain ⟨y, hy, hw⟩ := ih (by rw [hl, h])
      exact ⟨y, List.mem_cons_of_mem _ hy, hw⟩

theorem lastSome_isSome {X V : Type} (w : X → Option V) (l : List X) :
    (lastSome w l).isSome = true ↔ ∃ x ∈ l, (w x).isSome = true := by
  induction l with
  | nil => simp [lastSome]
  | cons x l ih =>
    rw [lastSome]
    cases hl : lastSome w l with
    | none =>
      have : ¬ ∃ y ∈ l, (w y).isSome = true := by rw [← ih, hl]; simp
      simp only [Option.none_or, List.mem_cons, exists_eq_or_imp]
      constructor
      · exact fun h => Or.inl h
      · rintro (h | h)
        · exact h
        · exact absurd h this
    | some v =>
      have : ∃ y ∈ l, (w y).isSome = true := by rw [← ih, hl]; rfl
      simp only [Option.or_some, Option.isSome_some, List.mem_cons, exists_eq_or_imp, true_iff]
      exact Or.inr this

theorem lastSome_append {X V : Type} (w : X → Option V) (l1 l2 : List X) :
    lastSome w (l1 ++ l2) = (lastSome w l2).or (lastSome w l1) := by
  induction l1 with
  | nil => simp [lastSome]
  | cons x l ih => rw [List.cons_append, lastSome, ih, lastSome, Option.or_assoc]

theorem lastSome_eq_none {X V : Type} (w : X → Option V) (l : List X)
    (h : ∀ x ∈ l, w x = none) : lastSome w l = none := by
  induction l with
  | nil => rfl
  | cons x l ih =>
    rw [lastSome, ih (fun y hy => h y (List.mem_cons_of_mem _ hy)), h x (List.mem_cons_self _ _)]
    rfl

/-! ### What the collecting loop leaves in the index -/

theorem leaf_addResource (rt0 ctx0 : String) (all : Index) (res : AppsV1Resource)
    (rt rn cn ctx : String) :
    (addResource rt0 ctx0 all res).leaf? rt rn cn ctx
      = (lastSome (fun c => if rt0 = rt ∧ res.GetName = rn ∧ c = cn ∧ ctx0 = ctx
            then some res else none) res.GetContainers).or (all.leaf? rt rn cn ctx) := by
  unfold addResource
  simp only
  rw [foldl_overwrite (addContainer rt0 res.GetName ctx0 res)
      (fun s => s.leaf? rt rn cn ctx)
      (fun c => if rt0 = rt ∧ res.GetName = rn ∧ c = cn ∧ ctx0 = ctx then some res else none),
    leaf_ensureResource]
  intro s c
  simp only [leaf_addContainer]
  split <;> simp

theorem leaf_addResult (all : Index) (result : getKubeResourceResult) (rt rn cn ctx : String) :
    (addResult all result).leaf? rt rn cn ctx
      = (lastSome (fun res => lastSome (fun c =>
            if result.rt = rt ∧ res.GetName = rn ∧ c = cn ∧ result.ctx = ctx
            then some res else none) res.GetContainers) result.resources).or
          (all.leaf? rt rn cn ctx) := by
  unfold addResult
  exact foldl_overwrite (addResource result.rt result.ctx) (fun s => s.leaf? rt rn cn ctx) _
    (fun s res => leaf_addResource _ _ s res rt rn cn ctx) _ _

theorem leaf_collectResults (results : List getKubeResourceResult) (rt rn cn ctx : String) :
    (collectResults results).leaf? rt rn cn ctx
      = lastSome (fun result => lastSome (fun res => lastSome (fun c =>
            if result.rt = rt ∧ res.GetName = rn ∧ c = cn ∧ result.ctx = ctx
            then some res else none) res.GetContainers) result.resources) results := by
  unfold collectResults
  rw [foldl_overwrite addResult (fun s => s.leaf? rt rn cn ctx) _
    (fun s result => leaf_addResult s result rt rn cn ctx)]
  simp [Index.leaf?, Index.container?, Index.resource?, Index.kind?, GoMap.lookup, Option.or_none]

theorem leaf_collectResults_some (results : List getKubeResourceResult) (rt rn cn ctx : String)
    (a : AppsV1Resource) (h : (collectResults results).leaf? rt rn cn ctx = some a) :
    ∃ result ∈ results, result.rt = rt ∧ result.ctx = ctx ∧ a ∈ result.resources
      ∧ a.GetName = rn ∧ cn ∈ a.GetContainers := by
  rw [leaf_collectResults] at h
  obtain ⟨result, hres, h1⟩ := lastSome_eq_some _ _ _ h
  obtain ⟨res, hmem, h2⟩ := lastSome_eq_some _ _ _ h1
  obtain ⟨c, hc, h3⟩ := lastSome_eq_some _ _ _ h2
  split at h3
  · rename_i hcond
    obtain ⟨e1, e2, e3, e4⟩ := hcond
    simp only [Option.some.injEq] at h3
    subst h3
    exact ⟨result, hres, e1, e4, hmem, e2, e3 ▸ hc⟩
  · exact absurd h3 (by simp)

theorem leaf_collectResults_isSome (results : List getKubeResourceResult)
    (rt rn cn ctx : String) :
    ((collectResults results).leaf? rt rn cn ctx).isSome = true
      ↔ ∃ result ∈ results, result.rt = rt ∧ result.ctx = ctx
          ∧ ∃ res ∈ result.resources, res.GetName = rn ∧ cn ∈ res.GetContainers := by
  rw [leaf_collectResults, lastSome_isSome]
  simp only [lastSome_isSome]
  constructor
  · rintro ⟨result, hres, res, hmem, c, hc, h⟩
    split at h
    · rename_i hcond
      obtain ⟨e1, e2, e3, e4⟩ := hcond
      exact ⟨result, hres, e1, e4, res, hmem, e2, e3 ▸ hc⟩
    · exact absurd h (by simp)
  · rintro ⟨result, hres, e1, e4, res, hmem, e2, hc⟩
    exact ⟨result, hres, res, hmem, cn, hc, by simp [e1, e2, e4]⟩

theorem container_collectResults (results : List getKubeResourceResult) (rt rn cn : String) :
    ((collectResults results).container? rt rn cn).isSome = true
      ↔ ∃ result ∈ results, ∃ res ∈ result.resources, ∃ c ∈ res.GetContainers,
          result.rt = rt ∧ res.GetName = rn ∧ c = cn := by
  unfold collectResults
  rw [foldl_flag addResult (fun s => (s.container? rt rn cn).isSome = true)
    (fun result => ∃ res ∈ result.resources, ∃ c ∈ res.GetContainers,
      result.rt = rt ∧ res.GetName = rn ∧ c = cn)]
  · simp [Index.container?, Index.resource?, Index.kind?, GoMap.lookup]
  · intro s result
    unfold addResult
    rw [foldl_flag (addResource result.rt result.ctx) (fun s => (s.container? rt rn cn).isSome = true)
      (fun res => ∃ c ∈ res.GetContainers, result.rt = rt ∧ res.GetName = rn ∧ c = cn)]
    intro s res
    unfold addResource
    simp only
    rw [foldl_flag (addContainer result.rt res.GetName result.ctx res)
      (fun s => (s.container? rt rn cn).isSome = true)
      (fun c => result.rt = rt ∧ res.GetName = rn ∧ c = cn), container_ensureResource]
    intro s c
    exact container_addContainer s _ _ _ _ _ _ _ _

theorem resource_collectResults (results : List getKubeResourceResult) (rt rn : String) :
    ((collectResults results).resource? rt rn).isSome = true
      ↔ ∃ result ∈ results, ∃ res ∈ result.resources, result.rt = rt ∧ res.GetName = rn := by
  unfold collectResults
  rw [foldl_flag addResult (fun s => (s.resource? rt rn).isSome = true)
    (fun result => ∃ res ∈ result.resources, result.rt = rt ∧ res.GetName = rn)]
  · simp [Index.resource?, Index.kind?, GoMap.lookup]
  · intro s result
    unfold addResult
    rw [foldl_flag (addResource result.rt result.ctx) (fun s => (s.resource? rt rn).isSome = true)
      (fun res => result.rt = rt ∧ res.GetName = rn)]
    intro s res
    unfold addResource
    simp only
    rw [foldl_flag (addContainer result.rt res.GetName result.ctx res)
      (fun s => (s.resource? rt rn).isSome = true)
      (fun _ => result.rt = rt ∧ res.GetName = rn), resource_ensureResource]
    · constructor
      · rintro (⟨_, _, h⟩ | h | h)
        · exact Or.inl h
        · exact Or.inl h
        · exact Or.inr h
      · rintro (h | h)
        · exact Or.inr (Or.inl h)
        · exact Or.inr (Or.inr h)
    · intro s c
      exact resource_addContainer s _ _ _ _ _ _ _

theorem kind_collectResults (results : List getKubeResourceResult) (rt : String) :
    ((collectResults results).kind? rt).isSome = true
      ↔ ∃ result ∈ results, ∃ _res ∈ result.resources, result.rt = rt := by
  unfold collectResults
  rw [foldl_flag addResult (fun s => (s.kind? rt).isSome = true)
    (fun result => ∃ _res ∈ result.resources, result.rt = rt)]
  · simp [Index.kind?, GoMap.lookup]
  · intro s result
    unfold addResult
    rw [foldl_flag (addResource result.rt result.ctx) (fun s => (s.kind? rt).isSome = true)
      (fun _ => result.rt = rt)]
    intro s res
    unfold addResource
    simp only
    rw [foldl_flag (addContainer result.rt res.GetName result.ctx res)
      (fun s => (s.kind? rt).isSome = true)
      (fun _ => result.rt = rt), kind_ensureResource]
    · constructor
      · rintro (⟨_, _, h⟩ | h | h)
        · exact Or.inl h
        · exact Or.inl h
        · exact Or.inr h
      · rintro (h | h)
        · exact Or.inr (Or.inl h)
        · exact Or.inr (Or.inr h)
    · intro s c
      exact kind_addContainer s _ _ _ _ _ _

/-- C8: aggregation index invariant.  After the collected fetch results are
folded into `allResources`, an entry exists at
`[kind][resourceName][containerName][context]` if and only if some fetch
result for that kind and context contains a resource named `resourceName`
with a container named `containerName`, and every stored resource agrees with
its keys: its `GetName` is the resource-name key and its `GetContainers`
contains the container-name key. -/
theorem index_invariant (results : List getKubeResourceResult)
    (kind resourceName containerName context : String) :
    ((∃ a, (collectResults results).leaf? kind resourceName containerName context = some a)
      ↔ ∃ result ∈ results, result.rt = kind ∧ result.ctx = context
          ∧ ∃ res ∈ result.resources,
              res.GetName = resourceName ∧ containerName ∈ res.GetContainers)
    ∧ ∀ a, (collectResults results).leaf? kind resourceName containerName context = some a →
        a.GetName = resourceName ∧ containerName ∈ a.GetContainers := by
  refine ⟨?_, ?_⟩
  · rw [← leaf_collectResults_isSome, Option.isSome_iff_exists]
  · intro a ha
    obtain ⟨_, _, _, _, _, h1, h2⟩ := leaf_collectResults_some _ _ _ _ _ a ha
    exact ⟨h1, h2⟩

theorem lastSome_container (cn : String) (a : AppsV1Resource) (l : List String)
    (hcn : cn ∈ l) :
    lastSome (fun c => if c = cn then some a else none) l = some a := by
  have h1 : (lastSome (fun c => if c = cn then some a else none) l).isSome = true := by
    rw [lastSome_isSome]
    exact ⟨cn, hcn, by simp⟩
  obtain ⟨v, hv⟩ := Option.isSome_iff_exists.1 h1
  obtain ⟨c, _, hc⟩ := lastSome_eq_some _ _ _ hv
  split at hc
  · rw [hv, ← hc]
  · exact absurd hc (by simp)

/-- C9 (counterexample): two Deployments named `web` are folded for context
`A`, the earlier with the containers `app` and `sidecar`, the later with
`app` only.  After the fold the entry under `sidecar` still refers to the
earlier resource, which differs from the later one. -/
theorem lastWriteWins_counterexample :
    (collectResults collidingResults).leaf? "Deployment" "web" "sidecar" "A" = some webEarlier
    ∧ (collectResults collidingResults).leaf? "Deployment" "web" "app" "A" = some webLater
    ∧ webEarlier ≠ webLater ∧ webEarlier.GetName = webLater.GetName := by
  refine ⟨?_, ?_, ?_, ?_⟩ <;> decide

/-- C9 (amended): last write wins per container.  After the fold, the entry
at `[kind][name][containerName][ctx]` is the last-processed resource of that
kind, name and context that has a container named `containerName`: if the
resource `a` has such a container and no resource processed after it (later
in the same result, or in a later result of that kind and context) has both
its name and such a container, the entry is `a`.  So the later of two
resources of one kind, name and context overwrites the earlier under every
container name the later has, and an entry under a container name that only
the earlier has keeps the earlier. -/
theorem lastWriteWins (before after : List getKubeResourceResult) (kind ctx : String)
    (earlier later : List AppsV1Resource) (a : AppsV1Resource) (containerName : String)
    (hcn : containerName ∈ a.GetContainers)
    (hlater : ∀ b ∈ later, b.GetName = a.GetName → containerName ∉ b.GetContainers)
    (hafter : ∀ r ∈ after, r.rt = kind → r.ctx = ctx →
      ∀ b ∈ r.resources, b.GetName = a.GetName → containerName ∉ b.GetContainers) :
    (collectResults (before ++ ⟨kind, ctx, earlier ++ a :: later⟩ :: after)).leaf?
        kind a.GetName containerName ctx = some a := by
  have hnone : ∀ (rt0 ctx0 : String) (b : AppsV1Resource),
      (rt0 = kind → ctx0 = ctx → b.GetName = a.GetName → containerName ∉ b.GetContainers) →
      lastSome (fun c => if rt0 = kind ∧ b.GetName = a.GetName ∧ c = containerName ∧ ctx0 = ctx
        then some b else none) b.GetContainers = none := by
    intro rt0 ctx0 b hb
    apply lastSome_eq_none
    intro c hc
    split
    · rename_i hcond
      obtain ⟨e1, e2, e3, e4⟩ := hcond
      exact absurd (e3 ▸ hc) (hb e1 e4 e2)
    · rfl
  rw [leaf_collectResults, lastSome_append, lastSome]
  rw [lastSome_eq_none _ after]
  · simp only [Option.none_or]
    rw [lastSome_append, lastSome, lastSome_eq_none _ later]
    · simp only [Option.none_or, true_and, and_true,
        lastSome_container containerName a a.GetContainers hcn, Option.or_some]
    · intro b hb
      simpa using hnone kind ctx b (fun _ _ hname => hlater b hb hname)
  · intro r hr
    apply lastSome_eq_none
    intro b hb
    exact hnone r.rt r.ctx b (fun e1 e2 hname => hafter r hr e1 e2 b hb hname)

/-- Witness of `lastWriteWins`: in the colliding results the entry under `app`
is the later Deployment and the entry under `sidecar` the earlier one. -/
theorem lastWriteWins_witness :
    "sidecar" ∈ webEarlier.GetContainers
    ∧ (collectResults ([] ++ ⟨"Deployment", "A", [] ++ webEarlier :: []⟩
          :: [⟨"Deployment", "A", [webLater]⟩])).leaf?
        "Deployment" webEarlier.GetName "sidecar" "A" = some webEarlier :=
  ⟨by decide,
   lastWriteWins [] [⟨"Deployment", "A", [webLater]⟩] "Deployment" "A" [] [] webEarlier
    "sidecar" (by decide) (by decide) (by decide)⟩

/-- C10 (counterexample): the two colliding results and the same two in the
other order are permutations of each other, and folding them yields indexes
that differ at the leaf of `web`, container `app`, context `A`. -/
theorem fanInOrder_counterexample :
    collidingResults.Perm collidingResults.reverse
    ∧ (collectResults collidingResults).leaf? "Deployment" "web" "app" "A" = some webLater
    ∧ (collectResults collidingResults.reverse).leaf? "Deployment" "web" "app" "A"
        = some webEarlier
    ∧ ¬ (collectResults collidingResults).sameAs (collectResults collidingResults.reverse) := by
  refine ⟨(List.reverse_perm _).symm, by decide, by decide, ?_⟩
  intro h
  have h1 := h.2 "Deployment" "web" "app" "A"
  revert h1
  decide

theorem sameKeys_of_perm (results results' : List getKubeResourceResult)
    (hperm : results.Perm results') :
    (collectResults results).sameKeys (collectResults results') := by
  refine ⟨?_, ?_, ?_, ?_⟩
  · intro rt
    rw [Bool.eq_iff_iff, kind_collectResults, kind_collectResults]
    simp only [hperm.mem_iff]
  · intro rt rn
    rw [Bool.eq_iff_iff, resource_collectResults, resource_collectResults]
    simp only [hperm.mem_iff]
  · intro rt rn cn
    rw [Bool.eq_iff_iff, container_collectResults, container_collectResults]
    simp only [hperm.mem_iff]
  · intro rt rn cn ctx
    rw [Bool.eq_iff_iff, leaf_collectResults_isSome, leaf_collectResults_isSome]
    simp only [hperm.mem_iff]

theorem leaf_collectResults_single (results : List getKubeResourceResult)
    (rt rn cn ctx : String) :
    (collectResults results).leaf? rt rn cn ctx
      = lastSome (fun r => (collectResults [r]).leaf? rt rn cn ctx) results := by
  rw [leaf_collectResults]
  congr 1
  funext r
  rw [leaf_collectResults]
  simp [lastSome]

theorem lastSome_of_agree {X V : Type} (w : X → Option V) (l : List X)
    (hagree : ∀ a ∈ l, ∀ b ∈ l, ∀ x y, w a = some x → w b = some y → x = y) (v : V) :
    lastSome w l = some v ↔ ∃ a ∈ l, w a = some v := by
  constructor
  · exact lastSome_eq_some w l v
  · rintro ⟨a, ha, hv⟩
    have hsome : (lastSome w l).isSome = true :=
      (lastSome_isSome w l).2 ⟨a, ha, by rw [hv]; rfl⟩
    obtain ⟨v', hv'⟩ := Option.isSome_iff_exists.1 hsome
    obtain ⟨b, hb, hw⟩ := lastSome_eq_some w l v' hv'
    rw [hv', hagree b hb a ha v' v hw hv]

theorem lastSome_perm {X V : Type} (w : X → Option V) (l l' : List X) (hperm : l.Perm l')
    (hagree : ∀ a ∈ l, ∀ b ∈ l, ∀ x y, w a = some x → w b = some y → x = y) :
    lastSome w l = lastSome w l' := by
  have hagree' : ∀ a ∈ l', ∀ b ∈ l', ∀ x y, w a = some x → w b = some y → x = y :=
    fun a ha b hb => hagree a (hperm.mem_iff.2 ha) b (hperm.mem_iff.2 hb)
  apply Option.ext
  intro v
  rw [Option.mem_def, Option.mem_def, lastSome_of_agree w l hagree,
    lastSome_of_agree w l' hagree']
  simp only [hperm.mem_iff]

theorem sameAs_of_agree (results results' : List getKubeResourceResult)
    (hperm : results.Perm results') (hagree : agreeingResults results) :
    (collectResults results).sameAs (collectResults results') := by
  refine ⟨sameKeys_of_perm results results' hperm, ?_⟩
  intro rt rn cn ctx
  rw [leaf_collectResults_single results, leaf_collectResults_single results']
  exact lastSome_perm _ results results' hperm
    (fun a ha b hb x y hx hy => hagree a ha b hb rt rn cn ctx x y hx hy)

theorem agree_of_fetched_once (results : List getKubeResourceResult)
    (honce : (results.map (fun r => (r.rt, r.ctx))).Nodup) : agreeingResults results := by
  intro r1 h1 r2 h2 rt rn cn ctx a b ha hb
  obtain ⟨q1, hq1, e1, e2, _⟩ := leaf_collectResults_some [r1] rt rn cn ctx a ha
  obtain ⟨q2, hq2, f1, f2, _⟩ := leaf_collectResults_some [r2] rt rn cn ctx b hb
  rw [List.mem_singleton] at hq1 hq2
  subst hq1; subst hq2
  have hkey : (fun r : getKubeResourceResult => (r.rt, r.ctx)) q1
      = (fun r : getKubeResourceResult => (r.rt, r.ctx)) q2 := by
    simp only [e1, e2, f1, f2]
  have heq : q1 = q2 := List.inj_on_of_nodup_map honce h1 h2 hkey
  subst heq
  rw [ha] at hb
  exact Option.some.inj hb

theorem order_matters_of_disagree (results : List getKubeResourceResult)
    (hnot : ¬ agreeingResults results) :
    ∃ results', results.Perm results'
      ∧ ¬ (collectResults results).sameAs (collectResults results') := by
  unfold agreeingResults leavesAgree at hnot
  push_neg at hnot
  obtain ⟨r1, h1, r2, h2, rt, rn, cn, ctx, a, b, ha, hb, hab⟩ := hnot
  obtain ⟨rest1, hp1⟩ : ∃ rest, results.Perm (rest ++ [r1]) := by
    obtain ⟨s, t, rfl⟩ := List.append_of_mem h1
    exact ⟨s ++ t, List.perm_middle.trans (List.perm_append_singleton r1 (s ++ t)).symm⟩
  obtain ⟨rest2, hp2⟩ : ∃ rest, results.Perm (rest ++ [r2]) := by
    obtain ⟨s, t, rfl⟩ := List.append_of_mem h2
    exact ⟨s ++ t, List.perm_middle.trans (List.perm_append_singleton r2 (s ++ t)).symm⟩
  have hl1 : (collectResults (rest1 ++ [r1])).leaf? rt rn cn ctx = some a := by
    rw [leaf_collectResults_single, lastSome_append]
    simp [lastSome, ha]
  have hl2 : (collectResults (rest2 ++ [r2])).leaf? rt rn cn ctx = some b := by
    rw [leaf_collectResults_single, lastSome_append]
    simp [lastSome, hb]
  by_cases hsame : (collectResults results).sameAs (collectResults (rest1 ++ [r1]))
  · refine ⟨rest2 ++ [r2], hp2, fun hsame2 => hab ?_⟩
    have e1 := hsame.2 rt rn cn ctx
    have e2 := hsame2.2 rt rn cn ctx
    rw [hl1] at e1
    rw [hl2, e1] at e2
    exact Option.some.inj e2
  · exact ⟨rest1 ++ [r1], hp1, hsame⟩

theorem leavesAgree_iff_check (r1 r2 : getKubeResourceResult) :
    leavesAgree r1 r2 ↔ leavesAgreeCheck r1 r2 = true := by
  unfold leavesAgree leavesAgreeCheck
  simp only [List.all_eq_true]
  constructor
  · intro h a _ cn _
    split
    · rename_i x y hx hy
      simpa using h _ _ _ _ x y hx hy
    · rfl
  · intro h rt rn cn ctx a b ha hb
    obtain ⟨q, hq, e1, e2, hmem, hname, hcn⟩ := leaf_collectResults_some [r1] rt rn cn ctx a ha
    rw [List.mem_singleton] at hq
    subst hq
    have hcheck := h a hmem cn hcn
    rw [e1, e2, hname, ha, hb] at hcheck
    simpa using hcheck

theorem agreeingResults_of_check (results : List getKubeResourceResult)
    (h : ∀ r1 ∈ results, ∀ r2 ∈ results, leavesAgreeCheck r1 r2 = true) :
    agreeingResults results :=
  fun r1 h1 r2 h2 => (leavesAgree_iff_check r1 r2).2 (h r1 h1 r2 h2)

theorem not_agreeingResults_of_check (results : List getKubeResourceResult)
    (h : ∃ r1 ∈ results, ∃ r2 ∈ results, leavesAgreeCheck r1 r2 = false) :
    ¬ agreeingResults results := by
  obtain ⟨r1, h1, r2, h2, hc⟩ := h
  intro hagree
  have := (leavesAgree_iff_check r1 r2).1 (hagree r1 h1 r2 h2)
  rw [hc] at this
  cases this

/-- C10 (amended): for every list of fetch results and every permutation of
it, folding in either order yields indexes with the same keys at every
level.  The two indexes also hold the same resource at every leaf when any
two of the results that write one leaf leave the same resource there (each
result folded alone), which is so whenever each kind and context is fetched
once; and when two of the results leave different resources at one leaf,
some permutation yields an index with another resource at a leaf. -/
theorem fanInOrder (results results' : List getKubeResourceResult)
    (hperm : results.Perm results') :
    (collectResults results).sameKeys (collectResults results')
    ∧ (agreeingResults results →
        (collectResults results).sameAs (collectResults results'))
    ∧ ((results.map (fun r => (r.rt, r.ctx))).Nodup →
        (collectResults results).sameAs (collectResults results'))
    ∧ (¬ agreeingResults results →
        ∃ other, results.Perm other
          ∧ ¬ (collectResults results).sameAs (collectResults other)) :=
  ⟨sameKeys_of_perm results results' hperm,
   sameAs_of_agree results results' hperm,
   fun honce => sameAs_of_agree results results' hperm (agree_of_fetched_once results honce),
   order_matters_of_disagree results⟩

/-- Witness of `fanInOrder`: two results of context `A` that both hold the
same Deployment `web`, folded in either order; and a result of context `A`
that holds two Deployments named `web` with a result of context `B`, folded
in either order. -/
theorem fanInOrder_witness :
    overlappingResults.Perm overlappingResults.reverse
    ∧ (collectResults overlappingResults).sameAs (collectResults overlappingResults.reverse)
    ∧ mergedResults.Perm mergedResults.reverse
    ∧ (collectResults mergedResults).leaf? "Deployment" "web" "app" "A" = some webLater
    ∧ (collectResults mergedResults.reverse).leaf? "Deployment" "web" "app" "A" = some webLater
    ∧ (collectResults mergedResults).sameAs (collectResults mergedResults.reverse)
    ∧ ∃ other, collidingResults.Perm other
        ∧ ¬ (collectResults collidingResults).sameAs (collectResults other) :=
  ⟨(List.reverse_perm _).symm,
   (fanInOrder overlappingResults overlappingResults.reverse (List.reverse_perm _).symm).2.1
    (agreeingResults_of_check _ (by decide)),
   (List.reverse_perm _).symm, by decide, by decide,
   (fanInOrder mergedResults mergedResults.reverse (List.reverse_perm _).symm).2.2.1
    (by decide),
   (fanInOrder collidingResults collidingResults (List.Perm.refl _)).2.2.2
    (not_agreeingResults_of_check _ (by decide))⟩

/-! ### The collecting loop builds maps without repeated keys -/

theorem keys_alter {V : Type} (m : GoMap V) (k : String) (f : Option V → V) :
    (GoMap.alter m k f).map Prod.fst
      = if k ∈ m.map Prod.fst then m.map Prod.fst else m.map Prod.fst ++ [k] := by
  induction m with
  | nil => simp [GoMap.alter]
  | cons e m ih =>
    obtain ⟨k0, v0⟩ := e
    by_cases h0 : k0 = k
    · subst h0
      simp [GoMap.alter]
    · have h0' : ¬ k = k0 := fun e => h0 e.symm
      by_cases hk : k ∈ m.map Prod.fst
      · simp only [GoMap.alter, h0, if_false, List.map_cons, ih, hk, if_true,
          List.mem_cons, or_true]
      · simp only [GoMap.alter, h0, if_false, List.map_cons, ih, hk, List.mem_cons, h0',
          or_self, List.cons_append]

theorem mem_alter {V : Type} (m : GoMap V) (k : String) (f : Option V → V)
    (e : String × V) (h : e ∈ GoMap.alter m k f) :
    e ∈ m ∨ e = (k, f (GoMap.lookup m k)) := by
  induction m with
  | nil =>
    simp only [GoMap.alter, List.mem_singleton] at h
    exact Or.inr (by simpa [GoMap.lookup] using h)
  | cons e0 m ih =>
    obtain ⟨k0, v0⟩ := e0
    by_cases h0 : k0 = k
    · subst h0
      simp only [GoMap.alter, if_true, List.mem_cons] at h
      rcases h with h | h
      · exact Or.inr (by simpa [GoMap.lookup] using h)
      · exact Or.inl (List.mem_cons_of_mem _ h)
    · simp only [GoMap.alter, h0, if_false, List.mem_cons] at h
      rcases h with h | h
      · exact Or.inl (h ▸ List.mem_cons_self _ _)
      · rcases ih h with h1 | h1
        · exact Or.inl (List.mem_cons_of_mem _ h1)
        · exact Or.inr (by simpa [GoMap.lookup, h0] using h1)

theorem deep_alter {V : Type} (P : V → Prop) (m : GoMap V) (k : String) (f : Option V → V)
    (hwf : GoMap.WF m) (hP : ∀ e ∈ m, P e.2) (hf : P (f (GoMap.lookup m k))) :
    GoMap.WF (GoMap.alter m k f) ∧ ∀ e ∈ GoMap.alter m k f, P e.2 := by
  constructor
  · unfold GoMap.WF at hwf ⊢
    rw [keys_alter]
    split
    · exact hwf
    · rename_i hk
      exact List.Nodup.append hwf (List.nodup_singleton k)
        (fun x hx hx' => hk (List.mem_singleton.1 hx' ▸ hx))
  · intro e he
    rcases mem_alter m k f e he with h | h
    · exact hP e h
    · rw [h]; exact hf

theorem deep_getD {V : Type} (P : GoMap V → Prop) (m : GoMap (GoMap V)) (k : String)
    (hnil : P []) (hP : ∀ e ∈ m, P e.2) : P ((GoMap.lookup m k).getD []) := by
  cases h : GoMap.lookup m k with
  | none => exact hnil
  | some v => exact hP (k, v) (lookup_mem m k v h)

theorem WF_nil {V : Type} : GoMap.WF ([] : GoMap V) := by
  simp [GoMap.WF]

theorem WF_addContainer (all : Index) (rt rn ctx cn : String) (res : AppsV1Resource)
    (h : all.WF) : (addContainer rt rn ctx res all cn).WF := by
  unfold addContainer
  refine deep_alter 
    (fun m : GoMap (GoMap (GoMap AppsV1Resource)) =>
      GoMap.WF m ∧ ∀ e' ∈ m, GoMap.WF e'.2 ∧ ∀ e'' ∈ e'.2, GoMap.WF e''.2)
    all rt _ h.1 h.2 ?_
  have h2 := deep_getD 
    (fun m : GoMap (GoMap (GoMap AppsV1Resource)) =>
      GoMap.WF m ∧ ∀ e' ∈ m, GoMap.WF e'.2 ∧ ∀ e'' ∈ e'.2, GoMap.WF e''.2)
    all rt ⟨WF_nil, by simp⟩ h.2
  refine deep_alter 
    (fun m : GoMap (GoMap AppsV1Resource) => GoMap.WF m ∧ ∀ e'' ∈ m, GoMap.WF e''.2)
    _ rn _ h2.1 h2.2 ?_
  have h3 := deep_getD 
    (fun m : GoMap (GoMap AppsV1Resource) => GoMap.WF m ∧ ∀ e'' ∈ m, GoMap.WF e''.2)
    ((GoMap.lookup all rt).getD []) rn ⟨WF_nil, by simp⟩ h2.2
  refine deep_alter 
    (fun m : GoMap AppsV1Resource => GoMap.WF m)
    _ cn _ h3.1 h3.2 ?_
  have h4 := deep_getD 
    (fun m : GoMap AppsV1Resource => GoMap.WF m)
   
    ((GoMap.lookup ((GoMap.lookup all rt).getD []) rn).getD []) cn WF_nil h3.2
  exact (deep_alter (fun _ => True) _ ctx _ h4 (fun _ _ => trivial) trivial).1

theorem WF_ensureResource (all : Index) (rt rn : String) (h : all.WF) :
    (ensureResource all rt rn).WF := by
  unfold ensureResource
  refine deep_alter 
    (fun m : GoMap (GoMap (GoMap AppsV1Resource)) =>
      GoMap.WF m ∧ ∀ e' ∈ m, GoMap.WF e'.2 ∧ ∀ e'' ∈ e'.2, GoMap.WF e''.2)
    all rt _ h.1 h.2 ?_
  have h2 := deep_getD 
    (fun m : GoMap (GoMap (GoMap AppsV1Resource)) =>
      GoMap.WF m ∧ ∀ e' ∈ m, GoMap.WF e'.2 ∧ ∀ e'' ∈ e'.2, GoMap.WF e''.2)
    all rt ⟨WF_nil, by simp⟩ h.2
  refine deep_alter 
    (fun m : GoMap (GoMap AppsV1Resource) => GoMap.WF m ∧ ∀ e'' ∈ m, GoMap.WF e''.2)
    _ rn _ h2.1 h2.2 ?_
  exact deep_getD 
    (fun m : GoMap (GoMap AppsV1Resource) => GoMap.WF m ∧ ∀ e'' ∈ m, GoMap.WF e''.2)
    ((GoMap.lookup all rt).getD []) rn ⟨WF_nil, by simp⟩ h2.2

theorem foldl_preserves {S X : Type} (step : S → X → S) (P : S → Prop)
    (h : ∀ s x, P s → P (step s x)) (l : List X) (s : S) (hs : P s) : P (l.foldl step s) := by
  induction l generalizing s with
  | nil => exact hs
  | cons x l ih => exact ih _ (h s x hs)

theorem WF_collectResults (results : List getKubeResourceResult) :
    (collectResults results).WF := by
  unfold collectResults
  refine foldl_preserves _ Index.WF ?_ _ _ ⟨WF_nil, by simp⟩
  intro s result hs
  unfold addResult
  refine foldl_preserves _ Index.WF ?_ _ _ hs
  intro s res hs
  unfold addResource
  refine foldl_preserves _ Index.WF ?_ _ _ (WF_ensureResource _ _ _ hs)
  intro s cn hs
  exact WF_addContainer _ _ _ _ _ _ hs

theorem kinds_collectResults (results : List getKubeResourceResult)
    (h : ∀ r ∈ results, r.rt ∈ resourceTypes) :
    ∀ e ∈ collectResults results, e.1 ∈ resourceTypes := by
  intro e he
  have hl : GoMap.lookup (collectResults results) e.1 = some e.2 :=
    mem_lookup _ _ _ (WF_collectResults results).1 he
  have hs : ((collectResults results).kind? e.1).isSome = true := by
    unfold Index.kind?
    rw [hl]; rfl
  obtain ⟨r, hr, _, _, hrt⟩ := (kind_collectResults results e.1).1 hs
  exact hrt ▸ h r hr

theorem container_mem (all : Index) (rt rn cn : String) (contextMap : GoMap AppsV1Resource)
    (h : all.container? rt rn cn = some contextMap) :
    ∃ e ∈ all, ∃ e' ∈ e.2, ∃ e'' ∈ e'.2,
      e.1 = rt ∧ e'.1 = rn ∧ e''.1 = cn ∧ e''.2 = contextMap := by
  unfold Index.container? Index.resource? Index.kind? at h
  cases h1 : GoMap.lookup all rt with
  | none => rw [h1] at h; simp at h
  | some m1 =>
    rw [h1] at h
    simp only [Option.some_bind] at h
    cases h2 : GoMap.lookup m1 rn with
    | none => rw [h2] at h; simp at h
    | some m2 =>
      rw [h2] at h
      simp only [Option.some_bind] at h
      exact ⟨(rt, m1), lookup_mem _ _ _ h1, (rn, m2), lookup_mem _ _ _ h2,
        (cn, contextMap), lookup_mem _ _ _ h, rfl, rfl, rfl, rfl⟩

theorem mem_container (all : Index) (hwf : all.WF)
    (e : String × GoMap (GoMap (GoMap AppsV1Resource))) (he : e ∈ all)
    (e' : String × GoMap (GoMap AppsV1Resource)) (he' : e' ∈ e.2)
    (e'' : String × GoMap AppsV1Resource) (he'' : e'' ∈ e'.2) :
    all.container? e.1 e'.1 e''.1 = some e''.2 := by
  unfold Index.container? Index.resource? Index.kind?
  rw [mem_lookup all e.1 e.2 hwf.1 he]
  simp only [Option.some_bind]
  rw [mem_lookup e.2 e'.1 e'.2 (hwf.2 e he).1 he']
  simp only [Option.some_bind]
  exact mem_lookup e'.2 e''.1 e''.2 ((hwf.2 e he).2 e' he').1 he''

/-! ### Every image lookup in a collected index succeeds -/

theorem GetContainers_eq_map (a : AppsV1Resource) :
    a.GetContainers = a.containers.map (fun k => k.name) := by
  unfold AppsV1Resource.GetContainers
  have h : ∀ (l : List kContainer) (acc : List String),
      l.foldl (fun containerNames container => containerNames ++ [container.name]) acc
        = acc ++ l.map (fun k => k.name) := by
    intro l
    induction l with
    | nil => intro acc; simp
    | cons k l ih => intro acc; simp [ih]
  simpa using h a.containers []

theorem length_le_emit (c : Prop) [Decidable c] (s sep x : String) :
    s.length ≤ (if c then (if s.length > 0 then s ++ sep else s) ++ x else s).length := by
  split
  · split <;> simp only [String.length_append] <;> omega
  · exact Nat.le_refl _

theorem renderContainer_pos (cn : String) (s : String) (k : kContainer)
    (hname : k.image.name ≠ "") (h : k.name = cn ∨ 0 < s.length) :
    0 < (renderContainer cn true true true true s k).length := by
  have hn := length_pos_of_ne_empty hname
  unfold renderContainer
  by_cases hk : k.name = cn
  · simp only [hk, if_true, Bool.true_and]
    refine Nat.lt_of_lt_of_le ?_ (length_le_emit _ _ _ _)
    refine Nat.lt_of_lt_of_le ?_ (length_le_emit _ _ _ _)
    simp only [String.length_append]
    omega
  · simp only [hk, if_false]
    rcases h with h | h
    · exact absurd h hk
    · exact h

theorem foldl_renderContainer_pos (cn : String) (l : List kContainer) (s : String)
    (hnames : ∀ k ∈ l, k.image.name ≠ "")
    (h : (∃ k ∈ l, k.name = cn) ∨ 0 < s.length) :
    0 < (l.foldl (renderContainer cn true true true true) s).length := by
  induction l generalizing s with
  | nil =>
    rcases h with ⟨k, hk, _⟩ | h
    · simp at hk
    · exact h
  | cons k l ih =>
    rw [List.foldl_cons]
    apply ih _ (fun k' hk' => hnames k' (List.mem_cons_of_mem _ hk'))
    have hk0 := hnames k (List.mem_cons_self _ _)
    rcases h with ⟨k', hk', hcn⟩ | h
    · rcases List.mem_cons.1 hk' with e | e
      · exact Or.inr (renderContainer_pos cn s k hk0 (Or.inl (e ▸ hcn)))
      · exact Or.inl ⟨k', e, hcn⟩
    · exact Or.inr (renderContainer_pos cn s k hk0 (Or.inr h))

theorem GetImage_ok (a : AppsV1Resource) (cn : String) (hcn : cn ∈ a.GetContainers)
    (hnames : ∀ k ∈ a.containers, k.image.name ≠ "") :
    (a.GetImage cn true true true true).2 = none := by
  rw [GetContainers_eq_map] at hcn
  obtain ⟨k, hk, hkn⟩ := List.mem_map.1 hcn
  have hpos := foldl_renderContainer_pos cn a.containers "" hnames (Or.inl ⟨k, hk, hkn⟩)
  unfold AppsV1Resource.GetImage
  simp only [hpos, if_true]

theorem renders_collectResults (results : List getKubeResourceResult)
    (hnames : ∀ r ∈ results, ∀ a ∈ r.resources, ∀ k ∈ a.containers, k.image.name ≠ "") :
    (collectResults results).renders := by
  intro e he e' he' e'' he'' e3 he3
  have hwf := WF_collectResults results
  have hc := mem_container _ hwf e he e' he' e'' he''
  have hl : (collectResults results).leaf? e.1 e'.1 e''.1 e3.1 = some e3.2 := by
    unfold Index.leaf?
    rw [hc]
    exact mem_lookup e''.2 e3.1 e3.2 (((hwf.2 e he).2 e' he').2 e'' he'') he3
  obtain ⟨r, hr, _, _, ha, _, hcn⟩ := leaf_collectResults_some _ _ _ _ _ _ hl
  exact GetImage_ok e3.2 e''.1 hcn (hnames r hr e3.2 ha)

/-! ### Identifying the mismatching images -/

theorem uniqueLoop_skip (l u keys : List String) (h : ∀ y ∈ l, y ∈ keys) :
    uniqueLoop l u keys = u := by
  induction l with
  | nil => rfl
  | cons x l ih =>
    rw [uniqueLoop, if_pos (h x (List.mem_cons_self _ _))]
    exact ih (fun y hy => h y (List.mem_cons_of_mem _ hy))

theorem GetUniqueStrings_all_eq (l : List String) (x : String) (hne : l ≠ [])
    (h : ∀ y ∈ l, y = x) : GetUniqueStrings l = [x] := by
  cases l with
  | nil => exact absurd rfl hne
  | cons y l =>
    have hy : y = x := h y (List.mem_cons_self _ _)
    subst hy
    unfold GetUniqueStrings
    rw [uniqueLoop, if_neg (by simp)]
    exact uniqueLoop_skip l _ _ (fun z hz => by
      rw [h z (List.mem_cons_of_mem _ hz)]; exact List.mem_cons_self _ _)

theorem imagesLoop_eq (onError : String → Bool) (cn : String) (l : GoMap AppsV1Resource)
    (acc imgs : List String) (h : imagesLoop onError cn l acc = some imgs) :
    imgs = acc ++ fullImages cn l := by
  induction l generalizing acc with
  | nil =>
    simp only [imagesLoop, Option.some.injEq] at h
    simp [fullImages, h]
  | cons e l ih =>
    obtain ⟨k, res⟩ := e
    simp only [imagesLoop] at h
    split at h
    · rw [ih _ h]
      simp [fullImages]
    · exact absurd h (by simp)

theorem imagesLoop_total (onError : String → Bool) (cn : String) (l : GoMap AppsV1Resource)
    (acc : List String) (h : ∀ e ∈ l, (e.2.GetImage cn true true true true).2 = none) :
    imagesLoop onError cn l acc = some (acc ++ fullImages cn l) := by
  induction l generalizing acc with
  | nil => simp [imagesLoop, fullImages]
  | cons e l ih =>
    obtain ⟨k, res⟩ := e
    have h0 := h (k, res) (List.mem_cons_self _ _)
    simp only at h0
    simp only [imagesLoop, h0, HandleError, if_true]
    rw [ih _ (fun e he => h e (List.mem_cons_of_mem _ he))]
    simp [fullImages]

theorem mem_flagged_alter (m : GoMap (List String)) (key key' c cn : String) :
    c ∈ flaggedContainers (GoMap.alter m key (fun old => old.getD [] ++ [cn])) key'
      ↔ c ∈ flaggedContainers m key' ∨ (key' = key ∧ c = cn) := by
  unfold flaggedContainers
  rw [lookup_alter]
  by_cases h : key = key'
  · subst h
    simp
  · have h' : ¬ key' = key := fun e => h e.symm
    simp [h, h']

theorem containerLoop_spec (onError : String → Bool) (rt rn : String)
    (l : GoMap (GoMap AppsV1Resource)) (m0 m : GoMap (List String))
    (h : containerLoop onError rt rn l m0 = some m) (key c : String) :
    c ∈ flaggedContainers m key ↔ c ∈ flaggedContainers m0 key
      ∨ (key = rt ++ "-" ++ rn ∧ ∃ e ∈ l, e.1 = c
          ∧ (GetUniqueStrings (fullImages c e.2)).length ≠ 1) := by
  induction l generalizing m0 with
  | nil =>
    simp only [containerLoop, Option.some.injEq] at h
    subst h
    simp
  | cons e l ih =>
    obtain ⟨cn, contextMap⟩ := e
    simp only [containerLoop] at h
    split at h
    · exact absurd h (by simp)
    · rename_i allImages himgs
      have himg : allImages = fullImages cn contextMap := by
        simpa using imagesLoop_eq _ _ _ _ _ himgs
      subst himg
      split at h
      · rename_i hflag
        rw [ih _ h, mem_flagged_alter]
        simp only [List.mem_cons, exists_eq_or_imp]
        constructor
        · rintro ((h1 | ⟨h1, h2⟩) | ⟨h1, h2⟩)
          · exact Or.inl h1
          · exact Or.inr ⟨h1, Or.inl ⟨h2.symm, h2 ▸ hflag⟩⟩
          · exact Or.inr ⟨h1, Or.inr h2⟩
        · rintro (h1 | ⟨h1, ⟨h2, _⟩ | h2⟩)
          · exact Or.inl (Or.inl h1)
          · exact Or.inl (Or.inr ⟨h1, h2.symm⟩)
          · exact Or.inr ⟨h1, h2⟩
      · rename_i hflag
        rw [ih _ h]
        simp only [List.mem_cons, exists_eq_or_imp]
        constructor
        · rintro (h1 | ⟨h1, h2⟩)
          · exact Or.inl h1
          · exact Or.inr ⟨h1, Or.inr h2⟩
        · rintro (h1 | ⟨h1, ⟨h2, h3⟩ | h2⟩)
          · exact Or.inl h1
          · exact absurd (h2 ▸ h3) hflag
          · exact Or.inr ⟨h1, h2⟩

theorem resourceLoop_spec (onError : String → Bool) (rt : String)
    (l : GoMap (GoMap (GoMap AppsV1Resource))) (m0 m : GoMap (List String))
    (h : resourceLoop onError rt l m0 = some m) (key c : String) :
    c ∈ flaggedContainers m key ↔ c ∈ flaggedContainers m0 key
      ∨ ∃ e ∈ l, key = rt ++ "-" ++ e.1 ∧ ∃ e' ∈ e.2, e'.1 = c
          ∧ (GetUniqueStrings (fullImages c e'.2)).length ≠ 1 := by
  induction l generalizing m0 with
  | nil =>
    simp only [resourceLoop, Option.some.injEq] at h
    subst h
    simp
  | cons e l ih =>
    obtain ⟨rn, containerMap⟩ := e
    simp only [resourceLoop] at h
    split at h
    · exact absurd h (by simp)
    · rename_i m1 hm1
      rw [ih _ h, containerLoop_spec _ _ _ _ _ _ hm1]
      simp only [List.mem_cons, exists_eq_or_imp]
      constructor
      · rintro ((h1 | h1) | h1)
        · exact Or.inl h1
        · exact Or.inr (Or.inl h1)
        · exact Or.inr (Or.inr h1)
      · rintro (h1 | h1 | h1)
        · exact Or.inl (Or.inl h1)
        · exact Or.inl (Or.inr h1)
        · exact Or.inr h1

theorem kindLoop_spec (onError : String → Bool) (l : Index) (m0 m : GoMap (List String))
    (h : kindLoop onError l m0 = some m) (key c : String) :
    c ∈ flaggedContainers m key ↔ c ∈ flaggedContainers m0 key
      ∨ ∃ e ∈ l, ∃ e' ∈ e.2, key = e.1 ++ "-" ++ e'.1 ∧ ∃ e'' ∈ e'.2, e''.1 = c
          ∧ (GetUniqueStrings (fullImages c e''.2)).length ≠ 1 := by
  induction l generalizing m0 with
  | nil =>
    simp only [kindLoop, Option.some.injEq] at h
    subst h
    simp
  | cons e l ih =>
    obtain ⟨rt, resourceMap⟩ := e
    simp only [kindLoop] at h
    split at h
    · exact absurd h (by simp)
    · rename_i m1 hm1
      rw [ih _ h, resourceLoop_spec _ _ _ _ _ hm1]
      simp only [List.mem_cons, exists_eq_or_imp]
      constructor
      · rintro ((h1 | h1) | h1)
        · exact Or.inl h1
        · exact Or.inr (Or.inl h1)
        · exact Or.inr (Or.inr h1)
      · rintro (h1 | h1 | h1)
        · exact Or.inl (Or.inl h1)
        · exact Or.inl (Or.inr h1)
        · exact Or.inr h1

theorem containerLoop_total (onError : String → Bool) (rt rn : String)
    (l : GoMap (GoMap AppsV1Resource)) (m0 : GoMap (List String))
    (h : ∀ e ∈ l, ∀ e3 ∈ e.2, (e3.2.GetImage e.1 true true true true).2 = none) :
    ∃ m, containerLoop onError rt rn l m0 = some m := by
  induction l generalizing m0 with
  | nil => exact ⟨m0, rfl⟩
  | cons e l ih =>
    obtain ⟨cn, contextMap⟩ := e
    have h0 := imagesLoop_total onError cn contextMap []
      (fun e3 he3 => h (cn, contextMap) (List.mem_cons_self _ _) e3 he3)
    have hl := fun m1 => ih m1 (fun e he => h e (List.mem_cons_of_mem _ he))
    simp only [containerLoop, h0]
    split
    · exact hl _
    · exact hl _

theorem resourceLoop_total (onError : String → Bool) (rt : String)
    (l : GoMap (GoMap (GoMap AppsV1Resource))) (m0 : GoMap (List String))
    (h : ∀ e' ∈ l, ∀ e ∈ e'.2, ∀ e3 ∈ e.2, (e3.2.GetImage e.1 true true true true).2 = none) :
    ∃ m, resourceLoop onError rt l m0 = some m := by
  induction l generalizing m0 with
  | nil => exact ⟨m0, rfl⟩
  | cons e l ih =>
    obtain ⟨rn, containerMap⟩ := e
    obtain ⟨m1, hm1⟩ := containerLoop_total onError rt rn containerMap m0
      (h (rn, containerMap) (List.mem_cons_self _ _))
    simp only [resourceLoop, hm1]
    exact ih m1 (fun e he => h e (List.mem_cons_of_mem _ he))

theorem kindLoop_total (onError : String → Bool) (l : Index) (m0 : GoMap (List String))
    (h : Index.renders l) : ∃ m, kindLoop onError l m0 = some m := by
  induction l generalizing m0 with
  | nil => exact ⟨m0, rfl⟩
  | cons e l ih =>
    obtain ⟨rt, resourceMap⟩ := e
    obtain ⟨m1, hm1⟩ := resourceLoop_total onError rt resourceMap m0
      (h (rt, resourceMap) (List.mem_cons_self _ _))
    simp only [kindLoop, hm1]
    exact ih m1 (fun e he => h e (List.mem_cons_of_mem _ he))

theorem hyphen_split (a b x y : List Char) (ha : '-' ∉ a) (hb : '-' ∉ b)
    (h : a ++ '-' :: x = b ++ '-' :: y) : a = b ∧ x = y := by
  induction a generalizing b with
  | nil =>
    cases b with
    | nil => simpa using h
    | cons c b =>
      simp only [List.nil_append, List.cons_append, List.cons.injEq] at h
      exact absurd (h.1 ▸ List.mem_cons_self _ _) hb
  | cons c a ih =>
    cases b with
    | nil =>
      simp only [List.nil_append, List.cons_append, List.cons.injEq] at h
      exact absurd (h.1 ▸ List.mem_cons_self _ _) ha
    | cons d b =>
      simp only [List.cons_append, List.cons.injEq] at h
      obtain ⟨h1, h2⟩ := ih b (fun hm => ha (List.mem_cons_of_mem _ hm))
        (fun hm => hb (List.mem_cons_of_mem _ hm)) h.2
      exact ⟨by rw [h.1, h1], h2⟩

theorem mismatchKey_inj (rt rt' rn rn' : String) (hrt : rt ∈ resourceTypes)
    (hrt' : rt' ∈ resourceTypes) (h : rt ++ "-" ++ rn = rt' ++ "-" ++ rn') :
    rt = rt' ∧ rn = rn' := by
  have hfree : ∀ k ∈ resourceTypes, '-' ∉ k.data := by decide
  have hd := congrArg String.data h
  simp only [String.data_append] at hd
  rw [List.append_assoc, List.append_assoc] at hd
  obtain ⟨h1, h2⟩ := hyphen_split _ _ _ _ (hfree rt hrt) (hfree rt' hrt') hd
  exact ⟨String.ext h1, String.ext h2⟩

theorem flagged_iff (onError : String → Bool) (options : uiOptions) (all : Index)
    (m : GoMap (List String)) (hwf : all.WF) (hkinds : ∀ e ∈ all, e.1 ∈ resourceTypes)
    (hm : identifyMismatches onError options all = some m)
    (rt rn cn : String) (contextMap : GoMap AppsV1Resource)
    (hleaf : all.container? rt rn cn = some contextMap) :
    cn ∈ flaggedContainers m (rt ++ "-" ++ rn)
      ↔ (GetUniqueStrings (fullImages cn contextMap)).length ≠ 1 := by
  unfold identifyMismatches at hm
  rw [kindLoop_spec onError all [] m hm]
  obtain ⟨e, he, e', he', e'', he'', h1, h2, h3, h4⟩ := container_mem all rt rn cn contextMap hleaf
  constructor
  · rintro (h0 | ⟨d, hd, d', hd', hkey, d'', hd'', hc, hflag⟩)
    · simp [flaggedContainers, GoMap.lookup] at h0
    · have hrt : rt ∈ resourceTypes := h1 ▸ hkinds e he
      obtain ⟨k1, k2⟩ := mismatchKey_inj rt d.1 rn d'.1 hrt (hkinds d hd) hkey
      have hc1 := mem_container all hwf d hd d' hd' d'' hd''
      rw [← k1, ← k2, hc, hleaf] at hc1
      simp only [Option.some.injEq] at hc1
      rw [hc1]
      exact hflag
  · intro hflag
    exact Or.inr ⟨e, he, e', he', by rw [h1, h2], e'', he'', h3, by rw [h4]; exact hflag⟩

theorem detection_on_collected (onError : String → Bool) (options : uiOptions)
    (results : List getKubeResourceResult)
    (hkinds : ∀ r ∈ results, r.rt ∈ resourceTypes)
    (hnames : ∀ r ∈ results, ∀ a ∈ r.resources, ∀ k ∈ a.containers, k.image.name ≠ "") :
    ∃ m, identifyMismatches onError options (collectResults results) = some m
      ∧ ∀ (rt rn cn : String) (contextMap : GoMap AppsV1Resource),
          (collectResults results).container? rt rn cn = some contextMap →
          (cn ∈ flaggedContainers m (rt ++ "-" ++ rn)
            ↔ (GetUniqueStrings (fullImages cn contextMap)).length ≠ 1) := by
  obtain ⟨m, hm⟩ := kindLoop_total onError (collectResults results) []
    (renders_collectResults results hnames)
  exact ⟨m, hm, fun rt rn cn contextMap hleaf =>
    flagged_iff onError options _ m (WF_collectResults results)
      (kinds_collectResults results hkinds) hm rt rn cn contextMap hleaf⟩

/-- C6: a resource that is present in only one context is never flagged.  For
an index without repeated keys whose kinds are resource types, and for any
projection in the options: a container whose leaf
`[kind][resourceName][containerName]` has exactly one context is not in the
entry of `kind-resourceName` of the map that the detection yields. -/
theorem single_context_not_flagged (onError : String → Bool) (options : uiOptions)
    (all : Index) (m : GoMap (List String)) (hwf : all.WF)
    (hkinds : ∀ e ∈ all, e.1 ∈ resourceTypes)
    (hm : identifyMismatches onError options all = some m)
    (rt rn cn : String) (contextMap : GoMap AppsV1Resource)
    (hleaf : all.container? rt rn cn = some contextMap)
    (hone : contextMap.length = 1) :
    cn ∉ flaggedContainers m (rt ++ "-" ++ rn) := by
  rw [flagged_iff onError options all m hwf hkinds hm rt rn cn contextMap hleaf]
  obtain ⟨e, rfl⟩ := List.length_eq_one.1 hone
  simp [fullImages, GetUniqueStrings_all_eq [_] _ (by simp) (fun y hy => List.mem_singleton.1 hy)]

/-- Witness of `single_context_not_flagged`: Deployment `solo` exists in
context `A` only. -/
theorem single_context_not_flagged_witness :
    twoContextIndex.container? "Deployment" "solo" "main" = some [("A", soloA)]
    ∧ "main" ∉ flaggedContainers [("Deployment-web", ["app"])] ("Deployment" ++ "-" ++ "solo") :=
  ⟨by decide,
   single_context_not_flagged (fun _ => false) nameOnly twoContextIndex _
    (by unfold Index.WF GoMap.WF; decide) (by decide) (by decide)
    "Deployment" "solo" "main" [("A", soloA)] (by decide) (by decide)⟩

/-- C5 (counterexample): the options select the image name only, and in the
contexts `A` and `B` the container `app` of Deployment `web` runs the same
image name with the tags `v1` and `v2`, so its images agree on every selected
component; the detection flags it all the same. -/
theorem projection_counterexample :
    twoContextIndex.container? "Deployment" "web" "app" = some [("A", webV1), ("B", webV2)]
    ∧ webV1.GetImage "app" nameOnly.showImageRegistryName nameOnly.showImageName
          nameOnly.showImageTag nameOnly.showImageHash
        = webV2.GetImage "app" nameOnly.showImageRegistryName nameOnly.showImageName
          nameOnly.showImageTag nameOnly.showImageHash
    ∧ identifyMismatches (fun _ => false) nameOnly twoContextIndex
        = some [("Deployment-web", ["app"])]
    ∧ identifyMismatches (fun _ => true) nameOnly twoContextIndex
        = some [("Deployment-web", ["app"])]
    ∧ "app" ∈ flaggedContainers [("Deployment-web", ["app"])] "Deployment-web" := by
  refine ⟨?_, ?_, ?_, ?_, ?_⟩ <;> decide

/-- C5 (amended): mismatch detection compares the images under the full
projection (registry, name, tag and digest), whatever projection the options
select.  For an index without repeated keys whose kinds are resource types
and for every projection in the options: a container whose full image names
are the same in all the contexts of its non-empty leaf is not flagged, and
the detection yields the same map under any other options. -/
theorem full_projection_agree_not_flagged (onError : String → Bool) (options : uiOptions)
    (all : Index) (m : GoMap (List String)) (hwf : all.WF)
    (hkinds : ∀ e ∈ all, e.1 ∈ resourceTypes)
    (hm : identifyMismatches onError options all = some m)
    (rt rn cn : String) (contextMap : GoMap AppsV1Resource)
    (hleaf : all.container? rt rn cn = some contextMap)
    (hne : contextMap ≠ [])
    (hagree : ∀ e1 ∈ contextMap, ∀ e2 ∈ contextMap,
      (e1.2.GetImage cn true true true true).1 = (e2.2.GetImage cn true true true true).1) :
    cn ∉ flaggedContainers m (rt ++ "-" ++ rn)
    ∧ ∀ options', identifyMismatches onError options' all = some m := by
  refine ⟨?_, fun _ => hm⟩
  rw [flagged_iff onError options all m hwf hkinds hm rt rn cn contextMap hleaf]
  obtain ⟨e0, l, rfl⟩ := List.exists_cons_of_ne_nil hne
  rw [GetUniqueStrings_all_eq (fullImages cn (e0 :: l))
    ((e0.2.GetImage cn true true true true).1) (by simp [fullImages])]
  · simp
  · intro y hy
    obtain ⟨e, he, rfl⟩ := List.mem_map.1 hy
    exact hagree e he e0 (List.mem_cons_self _ _)

/-- Witness of `full_projection_agree_not_flagged`: Deployment `web` runs the
same image in the contexts `A` and `B`. -/
theorem full_projection_agree_not_flagged_witness :
    (collectResults [⟨"Deployment", "A", [webV1]⟩, ⟨"Deployment", "B", [webV1]⟩]).container?
        "Deployment" "web" "app" = some [("A", webV1), ("B", webV1)]
    ∧ "app" ∉ flaggedContainers [] ("Deployment" ++ "-" ++ "web")
    ∧ ∀ options', identifyMismatches (fun _ => false) options'
        (collectResults [⟨"Deployment", "A", [webV1]⟩, ⟨"Deployment", "B", [webV1]⟩])
        = some [] :=
  ⟨by decide,
   full_projection_agree_not_flagged (fun _ => false) nameOnly
    (collectResults [⟨"Deployment", "A", [webV1]⟩, ⟨"Deployment", "B", [webV1]⟩]) []
    (by unfold Index.WF GoMap.WF; decide) (by decide) (by decide)
    "Deployment" "web" "app" [("A", webV1), ("B", webV1)] (by decide) (by decide) (by decide)⟩

/-! ### The name that `decomposeImage` returns -/

theorem caps_of_mem_starRun (p : Char → Bool) (g : Bool) (caps : Nat → List Char) (pos : Nat)
    (l : List Char) (st : MState) (h : st ∈ starRun p g caps pos l) : st.caps = caps := by
  obtain ⟨k, _, rfl⟩ := mem_starRun p g caps l pos st h
  rfl

theorem caps_of_mem_run (j : Nat) (a : Regex) :
    ∀ (st st' : MState), st' ∈ a.run st → a.captures j = false → st'.caps j = st.caps j := by
  induction a with
  | empty =>
    intro st st' h _
    simp only [Regex.run, List.mem_singleton] at h
    rw [h]
  | lit c =>
    intro st st' h _
    simp only [Regex.run] at h
    split at h
    · split at h
      · rw [List.mem_singleton.1 h]
      · simp at h
    · simp at h
  | cls p =>
    intro st st' h _
    simp only [Regex.run] at h
    split at h
    · split at h
      · rw [List.mem_singleton.1 h]
      · simp at h
    · simp at h
  | seq a b iha ihb =>
    intro st st' h hc
    simp only [Regex.captures, Bool.or_eq_false_iff] at hc
    rw [run_seq] at h
    obtain ⟨mid, hmid, hst'⟩ := List.mem_flatMap.1 h
    rw [ihb mid st' hst' hc.2, iha st mid hmid hc.1]
  | opt a iha =>
    intro st st' h hc
    simp only [Regex.captures] at hc
    rw [run_opt] at h
    rcases List.mem_append.1 h with h1 | h1
    · exact iha st st' h1 hc
    · rw [List.mem_singleton.1 h1]
  | star g p =>
    intro st st' h _
    rw [run_star] at h
    rw [caps_of_mem_starRun _ _ _ _ _ _ h]
  | plus g p =>
    intro st st' h _
    simp only [Regex.run] at h
    split at h
    · split at h
      · rw [caps_of_mem_starRun _ _ _ _ _ _ h]
      · simp at h
    · simp at h
  | group i a iha =>
    intro st st' h hc
    simp only [Regex.captures, Bool.or_eq_false_iff, decide_eq_false_iff_not] at hc
    rw [run_group] at h
    obtain ⟨mid, hmid, rfl⟩ := List.mem_map.1 h
    simp only [hc.1, if_false]
    exact iha st mid hmid hc.2
  | bol =>
    intro st st' h _
    simp only [Regex.run] at h
    split at h
    · rw [List.mem_singleton.1 h]
    · simp at h
  | eol =>
    intro st st' h _
    simp only [Regex.run] at h
    split at h
    · rw [List.mem_singleton.1 h]
    · simp at h

theorem namePart_captures (st st' : MState) (h : st' ∈ namePart.run st) : st'.caps 3 ≠ [] := by
  simp only [namePart, run_group, List.mem_map] at h
  obtain ⟨mid, hmid, rfl⟩ := h
  simp only [Regex.run] at hmid
  split at hmid
  · rename_i x xs hrest
    split at hmid
    · obtain ⟨k, _, rfl⟩ := mem_starRun _ _ _ _ _ _ hmid
      have : st.pos + 1 + k - st.pos = k + 1 := by omega
      simp [hrest, this]
    · simp at hmid
  · simp at hmid

theorem imageRe_name_nonempty (st fin : MState) (h : fin ∈ imageRe.run st) :
    fin.caps 3 ≠ [] := by
  rw [imageRe, run_seq] at h
  obtain ⟨s0, _, h⟩ := List.mem_flatMap.1 h
  rw [run_seq] at h
  obtain ⟨s1, _, h⟩ := List.mem_flatMap.1 h
  rw [run_seq] at h
  obtain ⟨s2, hs2, h⟩ := List.mem_flatMap.1 h
  rw [caps_of_mem_run 3 _ s2 fin h (by decide)]
  exact namePart_captures s1 s2 hs2

theorem findFirst_some (re : Regex) (rest : List Char) :
    ∀ (pos : Nat) (caps : Nat → List Char), findFirst re pos rest = some caps →
      ∃ (st fin : MState), fin ∈ re.run st ∧ ∀ j, j ≠ 0 → caps j = fin.caps j := by
  have hat : ∀ (pos : Nat) (rest : List Char) (caps : Nat → List Char),
      matchAt re pos rest = some caps →
      ∃ (st fin : MState), fin ∈ re.run st ∧ ∀ j, j ≠ 0 → caps j = fin.caps j := by
    intro pos rest caps h
    unfold matchAt at h
    split at h
    · rename_i fin tl hrun
      simp only [Option.some.injEq] at h
      refine ⟨_, fin, by rw [hrun]; exact List.mem_cons_self _ _, ?_⟩
      intro j hj
      rw [← h]
      simp [hj]
    · simp at h
  induction rest with
  | nil =>
    intro pos caps h
    exact hat pos [] caps (by simpa [findFirst] using h)
  | cons c tl ih =>
    intro pos caps h
    simp only [findFirst] at h
    split at h
    · rename_i caps' hm
      simp only [Option.some.injEq] at h
      exact hat pos (c :: tl) caps (h ▸ hm)
    · exact ih _ _ h

theorem decomposeImage_value (image registry name tag hash : String)
    (h : decomposeImage image = .value (registry, name, tag, hash)) :
    ∃ caps, findFirst imageRe 0 image.data = some caps ∧ registry = String.mk (caps 2)
      ∧ name = String.mk (caps 3) ∧ tag = String.mk (caps 5) ∧ hash = String.mk (caps 8) := by
  have hg : imageRe.groups = 8 := by decide
  have hr : List.range 9 = [0, 1, 2, 3, 4, 5, 6, 7, 8] := by decide
  unfold decomposeImage FindAllStringSubmatch at h
  cases hf : findFirst imageRe 0 image.data with
  | none => simp [hf] at h
  | some caps =>
    refine ⟨caps, rfl, ?_⟩
    simp [hf, hg, hr] at h
    obtain ⟨h1, h2, h3, h4⟩ := h
    exact ⟨h1.symm, h2.symm, h3.symm, h4.symm⟩

/-- C13: whenever `decomposeImage` succeeds, the name it returns is
non-empty, for every input string. -/
theorem decomposeImage_name_nonempty (image registry name tag hash : String)
    (h : decomposeImage image = .value (registry, name, tag, hash)) : name ≠ "" := by
  obtain ⟨caps, hf, -, hname, -, -⟩ := decomposeImage_value image registry name tag hash h
  obtain ⟨st, fin, hfin, hcaps⟩ := findFirst_some imageRe image.data 0 caps hf
  have h3 := imageRe_name_nonempty st fin hfin
  rw [← hcaps 3 (by decide)] at h3
  intro he
  rw [hname] at he
  exact h3 (by simpa using congrArg String.data he)

/-- Witness of `decomposeImage_name_nonempty`: the image `nginx:1.21`. -/
theorem decomposeImage_name_nonempty_witness :
    decomposeImage "nginx:1.21" = .value ("", "nginx", "1.21", "") ∧ "nginx" ≠ "" :=
  ⟨by decide,
   decomposeImage_name_nonempty "nginx:1.21" "" "nginx" "1.21" "" (by decide)⟩

theorem run_after_registry (n t h : List Char) (hne : n ≠ [])
    (hn : ∀ c ∈ n, isNameChar c = true) (ht : ∀ c ∈ t, isTagChar c = true)
    (hh : ∀ c ∈ h, isHashChar c = true) (st1 : MState)
    (hrest1 : st1.rest = n ++ (tagText t ++ hashText h))
    (hcaps1 : ∀ j, 3 ≤ j → st1.caps j = []) :
    ∃ fin tl, (Regex.seq namePart (.seq tagPart (.seq hashPart .eol))).run st1 = fin :: tl
      ∧ fin.caps 2 = st1.caps 2 ∧ fin.caps 3 = n ∧ fin.caps 5 = t ∧ fin.caps 8 = h := by
  have hnAny : ∀ c ∈ n, isAny c = true := by
    intro c hc
    have := hn c hc
    simp only [isNameChar, Bool.and_eq_true] at this
    exact this.1.1.1
  obtain ⟨pre, st2, tl2, h2, hpre, -, hrest2, hc3, hcaps2⟩ :=
    run_namePart n (tagText t ++ hashText h) hne hnAny st1.pos st1.caps
  have hst1 : st1 = ⟨st1.pos, n ++ (tagText t ++ hashText h), st1.caps⟩ := by
    cases st1; simp only at hrest1; subst hrest1; rfl
  rw [← hst1] at h2
  obtain ⟨st3, tl3, h3, -, hrest3, hc5, hcaps3⟩ :=
    run_tagPart t h ht st2.pos st2.caps (by rw [hcaps2 5 (by decide), hcaps1 5 (by decide)])
  have hst2 : st2 = ⟨st2.pos, tagText t ++ hashText h, st2.caps⟩ := by
    cases st2; simp only at hrest2; subst hrest2; rfl
  rw [← hst2] at h3
  obtain ⟨fin, hfin, hc8, hcaps4⟩ :=
    run_hashPart_eol h hh st3.pos st3.caps
      (by rw [hcaps3 8 (by decide) (by decide), hcaps2 8 (by decide), hcaps1 8 (by decide)])
  have hst3 : st3 = ⟨st3.pos, hashText h, st3.caps⟩ := by
    cases st3; simp only at hrest3; subst hrest3; rfl
  rw [← hst3] at hfin
  obtain ⟨tl4, htl4⟩ := List.head?_eq_some_iff.1 hfin
  have hfail : ∀ s ∈ pre, (Regex.seq tagPart (.seq hashPart .eol)).run s = [] := by
    intro s hs
    obtain ⟨k, hk, hsrest⟩ := hpre s hs
    have hdrop : n.drop k ≠ [] := by
      intro h0
      have := congrArg List.length h0
      simp at this
      omega
    obtain ⟨c, l, hcl⟩ := List.exists_cons_of_ne_nil hdrop
    have hcn : isNameChar c = true :=
      hn c (List.mem_of_mem_drop (by rw [hcl]; exact List.mem_cons_self _ _))
    have hs' : s = ⟨s.pos, c :: (l ++ (tagText t ++ hashText h)), s.caps⟩ := by
      cases s; simp only at hsrest; subst hsrest; simp [hcl]
    rw [hs']
    exact run_tail_fail c _ _ _ (fun h0 => absurd (h0 ▸ hcn) (by decide))
      (fun h0 => absurd (h0 ▸ hcn) (by decide))
  refine ⟨fin, tl4 ++ tl3.flatMap (Regex.seq hashPart .eol).run
      ++ tl2.flatMap (Regex.seq tagPart (.seq hashPart .eol)).run, ?_, ?_, ?_, ?_, ?_⟩
  · rw [run_seq, h2, flatMap_append_skip _ _ _ hfail, List.flatMap_cons, run_seq, h3,
      List.flatMap_cons, htl4]
    simp only [List.cons_append, List.append_assoc]
  · rw [hcaps4 2 (by decide), hcaps3 2 (by decide) (by decide), hcaps2 2 (by decide)]
  · rw [hcaps4 3 (by decide), hcaps3 3 (by decide) (by decide), hc3]
  · rw [hcaps4 5 (by decide), hc5]
  · exact hc8

theorem decomposeImage_registry_name (r n : String) (hr : ∀ c ∈ r.data, isAny c = true)
    (hne : n ≠ "") (hn : ∀ c ∈ n.data, isNameChar c = true) :
    decomposeImage (r ++ "/" ++ n) = .value (r, n, "", "") := by
  have hne' : n.data ≠ [] := by
    intro h0; apply hne; cases n; simp only at h0; subst h0; rfl
  have hslash : '/' ∉ n.data ++ (tagText [] ++ hashText []) := by
    simpa [tagText, hashText] using
      slash_not_mem_rendered n.data [] [] hn (by simp) (by simp)
  obtain ⟨st1, tl1, h1, -, hrest1, hc2, hcaps1⟩ :=
    run_registryPart_some r.data _ hr hslash 0 (fun _ => [])
  obtain ⟨fin, tl, hrun, h2, h3, h5, h8⟩ :=
    run_after_registry n.data [] [] hne' hn (by simp) (by simp) st1 hrest1
      (fun j hj => hcaps1 j (by omega) (by omega))
  have hdata : (r ++ "/" ++ n).data = r.data ++ '/' :: (n.data ++ (tagText [] ++ hashText [])) := by
    simp [String.data_append, tagText, hashText]
  have hbol : Regex.bol.run ⟨0, (r ++ "/" ++ n).data, fun _ => []⟩
      = [⟨0, (r ++ "/" ++ n).data, fun _ => []⟩] := rfl
  have hfull : imageRe.run ⟨0, (r ++ "/" ++ n).data, fun _ => []⟩
      = fin :: (tl ++ tl1.flatMap (Regex.seq namePart (.seq tagPart (.seq hashPart .eol))).run) := by
    rw [imageRe, run_seq, hbol, List.flatMap_cons, List.flatMap_nil, List.append_nil, run_seq,
      hdata, h1, List.flatMap_cons, hrun]
    rfl
  rw [decomposeImage_of_run _ fin _ hfull, h2, hc2, h3, h5, h8]

/-- C14: a colon that belongs to the registry's port is never taken as the
tag.  For every registry string `r` without a line break (it may contain `:`
and `/`) and every non-empty name `n` that contains no `/`, `:`, `@` or line
break, `decomposeImage (r + "/" + n)` returns registry `r`, name `n`, an
empty tag and an empty digest; `localhost:5000/nginx` gives registry
`localhost:5000` and name `nginx`. -/
theorem registry_port_not_tag (r n : String) (hr : ∀ c ∈ r.data, isAny c = true)
    (hne : n ≠ "") (hn : ∀ c ∈ n.data, isNameChar c = true) :
    decomposeImage (r ++ "/" ++ n) = .value (r, n, "", "")
    ∧ decomposeImage "localhost:5000/nginx" = .value ("localhost:5000", "nginx", "", "") :=
  ⟨decomposeImage_registry_name r n hr hne hn, by decide⟩

/-- Witness of `registry_port_not_tag`: registry `registry.local:5000/team`
and name `nginx`. -/
theorem registry_port_not_tag_witness :
    ("nginx" : String) ≠ ""
    ∧ decomposeImage ("registry.local:5000/team" ++ "/" ++ "nginx")
        = .value ("registry.local:5000/team", "nginx", "", "") :=
  ⟨by decide,
   (registry_port_not_tag "registry.local:5000/team" "nginx" (by decide) (by decide)
      (by decide)).1⟩

/-! ### The context name recovered from a list entry -/

theorem run_group_plus_lazy (i : Nat) (n rest : List Char) (hne : n ≠ [])
    (hn : ∀ c ∈ n, isAny c = true) (pos : Nat) (caps : Nat → List Char) :
    ∃ pre st tl, (Regex.group i (.plus false isAny)).run ⟨pos, n ++ rest, caps⟩ = pre ++ st :: tl
      ∧ (∀ s ∈ pre, ∃ k, 0 < k ∧ k < n.length ∧ s.rest = n.drop k ++ rest)
      ∧ st.pos = pos + n.length ∧ st.rest = rest ∧ st.caps i = n
      ∧ ∀ j, j ≠ i → st.caps j = caps j := by
  cases n with
  | nil => exact absurd rfl hne
  | cons c cs =>
    have hc : isAny c = true := hn c (List.mem_cons_self _ _)
    obtain ⟨pre, hpre, hmem⟩ := starRun_lazy_append isAny caps cs rest
      (fun x hx => hn x (List.mem_cons_of_mem _ hx)) (pos + 1)
    obtain ⟨tl, htl⟩ := List.head?_eq_some_iff.1
      (starRun_lazy_head isAny caps (pos + 1 + cs.length) rest)
    rw [htl] at hpre
    simp only [Regex.run, List.cons_append, hc, if_true, hpre, List.map_append,
      List.map_cons]
    refine ⟨_, _, _, rfl, ?_, ?_, rfl, ?_, ?_⟩
    · intro s hs
      obtain ⟨s0, hs0, rfl⟩ := List.mem_map.1 hs
      obtain ⟨k, hk, rfl⟩ := hmem s0 hs0
      exact ⟨k + 1, by omega, by simp [hk], by simp⟩
    · simp only [List.length_cons]; omega
    · have : pos + 1 + cs.length - pos = cs.length + 1 := by omega
      simp only [this, List.take_succ_cons, List.cons.injEq, true_and, if_true]
      exact List.take_left _ _
    · intro j hj
      simp [hj]

theorem noOpenerAfterSpace_drop (l : List Char) (h : noOpenerAfterSpace l = true) (k : Nat) :
    noOpenerAfterSpace (l.drop k) = true := by
  induction k generalizing l with
  | zero => simpa using h
  | succ k ih =>
    cases l with
    | nil => simp [noOpenerAfterSpace]
    | cons a l =>
      cases l with
      | nil => simp [noOpenerAfterSpace]
      | cons b l =>
        simp only [noOpenerAfterSpace, Bool.and_eq_true] at h
        simpa using ih (b :: l) h.2

theorem bracket_tail_fail (d sfx : List Char) (hd : d ≠ []) (hprop : noOpenerAfterSpace d = true)
    (pos : Nat) (caps : Nat → List Char) :
    (Regex.seq (.lit ' ') (.seq (.cls isOpener)
      (.seq (.star true isAny) (.seq (.cls isCloser) .eol)))).run
        ⟨pos, d ++ ' ' :: sfx, caps⟩ = [] := by
  cases d with
  | nil => exact absurd rfl hd
  | cons a d =>
    cases d with
    | nil =>
      by_cases ha : a = ' '
      · subst ha
        simp [Regex.run, isOpener]
      · simp [Regex.run, ha]
    | cons b d =>
      simp only [noOpenerAfterSpace, Bool.and_eq_true, Bool.not_eq_true', Bool.and_eq_false_iff,
        decide_eq_false_iff_not] at hprop
      by_cases ha : a = ' '
      · subst ha
        rcases hprop.1 with h1 | h1
        · exact absurd rfl h1
        · simp [Regex.run, h1]
      · simp [Regex.run, ha]

theorem bracket_tail_run (o c : Char) (content : List Char) (ho : isOpener o = true)
    (hc : isCloser c = true) (hcontent : ∀ x ∈ content, isAny x = true)
    (pos : Nat) (caps : Nat → List Char) :
    ∃ fin tl, (Regex.seq (.lit ' ') (.seq (.cls isOpener)
      (.seq (.star true isAny) (.seq (.cls isCloser) .eol)))).run
        ⟨pos, ' ' :: o :: (content ++ [c]), caps⟩ = fin :: tl ∧ fin.caps = caps := by
  obtain ⟨tl, htl⟩ := starRun_greedy_append isAny caps content [c] hcontent (pos + 1 + 1)
  have hcany : isAny c = true := by
    simp only [isCloser, Bool.or_eq_true, decide_eq_true_eq] at hc
    rcases hc with h | h <;> subst h <;> decide
  simp only [starRun, hcany, if_true, List.cons_append, List.nil_append] at htl
  simp only [Regex.run, if_true, ho, List.flatMap_cons, List.flatMap_nil, List.append_nil, htl,
    List.flatMap_append, hc, List.nil_append, List.cons_append]
  exact ⟨_, _, rfl, rfl⟩

theorem run_contextRe (n content : List Char) (o c : Char) (hne : n ≠ [])
    (hn : ∀ x ∈ n, isAny x = true) (hprop : noOpenerAfterSpace n = true)
    (ho : isOpener o = true) (hc : isCloser c = true)
    (hcontent : ∀ x ∈ content, isAny x = true) :
    ∃ fin tl, contextRe.run ⟨0, n ++ ' ' :: o :: (content ++ [c]), fun _ => []⟩ = fin :: tl
      ∧ fin.caps 1 = n := by
  obtain ⟨pre, st, tl, hrun, hpre, -, hrest, hc1, -⟩ :=
    run_group_plus_lazy 1 n (' ' :: o :: (content ++ [c])) hne hn 0 (fun _ => [])
  obtain ⟨fin, tl', hfin, hcaps⟩ := bracket_tail_run o c content ho hc hcontent st.pos st.caps
  have hst : st = ⟨st.pos, ' ' :: o :: (content ++ [c]), st.caps⟩ := by
    cases st; simp only at hrest; subst hrest; rfl
  rw [← hst] at hfin
  have hfail : ∀ s ∈ pre, (Regex.seq (.lit ' ') (.seq (.cls isOpener)
      (.seq (.star true isAny) (.seq (.cls isCloser) .eol)))).run s = [] := by
    intro s hs
    obtain ⟨k, _, hk, hsrest⟩ := hpre s hs
    have hdrop : n.drop k ≠ [] := by
      intro h0
      have := congrArg List.length h0
      simp at this
      omega
    have hs' : s = ⟨s.pos, n.drop k ++ ' ' :: (o :: (content ++ [c])), s.caps⟩ := by
      cases s; simp only at hsrest; subst hsrest; rfl
    rw [hs']
    exact bracket_tail_fail _ _ hdrop (noOpenerAfterSpace_drop n hprop k) _ _
  have hbol : Regex.bol.run ⟨0, n ++ ' ' :: o :: (content ++ [c]), fun _ => []⟩
      = [⟨0, n ++ ' ' :: o :: (content ++ [c]), fun _ => []⟩] := rfl
  refine ⟨fin, tl' ++ tl.flatMap (Regex.seq (.lit ' ') (.seq (.cls isOpener)
      (.seq (.star true isAny) (.seq (.cls isCloser) .eol)))).run, ?_, ?_⟩
  · rw [contextRe, run_seq, hbol, List.flatMap_cons, List.flatMap_nil, List.append_nil, run_seq,
      hrun, flatMap_append_skip _ _ _ hfail, List.flatMap_cons, hfin]
    rfl
  · rw [hcaps, hc1]

theorem cleanContextName_of_run (s : String) (fin : MState) (tl : List MState)
    (hrun : contextRe.run ⟨0, s.data, fun _ => []⟩ = fin :: tl) :
    cleanContextName s = .value (String.mk (fin.caps 1)) := by
  have hg : contextRe.groups = 1 := by decide
  have hr : List.range 2 = [0, 1] := by decide
  have hm : findFirst contextRe 0 s.data
      = some (fun j => if j = 0 then s.data.take (fin.pos - 0) else fin.caps j) := by
    cases hs : s.data with
    | nil => rw [hs] at hrun; simp [findFirst, matchAt, hrun]
    | cons c cs => rw [hs] at hrun; simp [findFirst, matchAt, hrun]
  unfold cleanContextName FindAllStringSubmatch
  simp [hm, hg, hr]

theorem cleanContextName_entry (name content : String) (o c : Char) (hne : name ≠ "")
    (hn : ∀ x ∈ name.data, isAny x = true) (hprop : noOpenerAfterSpace name.data = true)
    (ho : isOpener o = true) (hc : isCloser c = true)
    (hcontent : ∀ x ∈ content.data, isAny x = true) :
    cleanContextName (name ++ String.mk [' ', o] ++ content ++ String.mk [c]) = .value name := by
  have hne' : name.data ≠ [] := by
    intro h0; apply hne; cases name; simp only at h0; subst h0; rfl
  obtain ⟨fin, tl, hrun, h1⟩ := run_contextRe name.data content.data o c hne' hn hprop ho hc hcontent
  have hdata : (name ++ String.mk [' ', o] ++ content ++ String.mk [c]).data
      = name.data ++ ' ' :: o :: (content.data ++ [c]) := by
    simp [String.data_append]
  rw [← hdata] at hrun
  rw [cleanContextName_of_run _ fin tl hrun, h1]

/-- Where the name is recovered: for every probed context whose name is
non-empty, holds no line break and no space followed by `[` or `(`, and whose
server version holds no line break, `cleanContextName` applied to the text
of the list entry that `updateContextList` builds for it (name, ` [`,
version, `]` when reachable; name and ` (Unreachable)` when not) returns
exactly the context name with a nil error. -/
theorem cleanContextName_recovers (ctx : KubeContext) (hne : ctx.Name ≠ "")
    (hn : ∀ x ∈ ctx.Name.data, isAny x = true)
    (hprop : noOpenerAfterSpace ctx.Name.data = true)
    (hv : ∀ x ∈ ctx.ServerVersion.data, isAny x = true) :
    cleanContextName (contextListEntry ctx).1 = .value ctx.Name := by
  unfold contextListEntry
  split
  · have h := cleanContextName_entry ctx.Name ctx.ServerVersion '[' ']' hne hn hprop
      (by decide) (by decide) hv
    have e1 : String.mk [' ', '['] = " [" := by decide
    have e2 : String.mk [']'] = "]" := by decide
    rw [e1, e2] at h
    exact h
  · have h := cleanContextName_entry ctx.Name "Unreachable" '(' ')' hne hn hprop
      (by decide) (by decide) (by decide)
    have e : ctx.Name ++ String.mk [' ', '('] ++ "Unreachable" ++ String.mk [')']
        = ctx.Name ++ " (Unreachable)" := by
      rw [String.append_assoc, String.append_assoc]
      congr 1
    rw [e] at h
    exact h

/-- Witness of `cleanContextName_recovers`: the reachable context
`gke_prod-eu` with server version `1.27`. -/
theorem cleanContextName_recovers_witness :
    ("gke_prod-eu" : String) ≠ ""
    ∧ cleanContextName (contextListEntry ⟨"gke_prod-eu", true, none, "1.27"⟩).1
        = .value "gke_prod-eu" :=
  ⟨by decide,
   cleanContextName_recovers ⟨"gke_prod-eu", true, none, "1.27"⟩ (by decide) (by decide)
    (by decide) (by decide)⟩

/-- C18 (failing input): the kubeconfig holds the contexts `prod (eu)`,
reachable with server version `1.27`, and `dev [old]`, unreachable.
`updateContextList` builds the entries `prod (eu) [1.27]` and
`dev [old] (Unreachable)` and stores the error under `dev [old]`.  With the
first entry selected `getActiveContexts` returns `prod`, which is not the
name of the context, and for the second entry the handler reads
`unreachableError` at `dev`, where nothing is stored. -/
theorem getActiveContexts_loses_name :
    (updateContextList newMultiSelectList [] bracketProbes).1.items
        = [⟨"prod (eu) [1.27]", false⟩, ⟨"dev [old] (Unreachable)", true⟩]
    ∧ (updateContextList newMultiSelectList [] bracketProbes).2
        = [("dev [old]", some "dial tcp: i/o timeout")]
    ∧ ((updateContextList newMultiSelectList [] bracketProbes).1.InputHandler
          (.keyRune ' ')).map (fun m => m.selectedItems) = some [0]
    ∧ ((updateContextList newMultiSelectList [] bracketProbes).1.InputHandler
          (.keyRune ' ')).bind (getActiveContexts (fun _ => false)) = some ["prod"]
    ∧ cleanContextName "prod (eu) [1.27]" = .value "prod"
    ∧ cleanContextName "dev [old] (Unreachable)" = .value "dev"
    ∧ highlightedError (fun _ => false)
          (updateContextList newMultiSelectList [] bracketProbes).2 "dev [old] (Unreachable)"
        = some none
    ∧ GoMap.lookup (updateContextList newMultiSelectList [] bracketProbes).2 "dev [old]"
        = some (some "dial tcp: i/o timeout") := by
  refine ⟨?_, ?_, ?_, ?_, ?_, ?_, ?_, ?_⟩ <;> decide

/-! ### `GetUniqueStrings` -/

theorem uniqueLoop_eq (items : List String) :
    ∀ (u keys : List String), (∀ x, x ∈ keys ↔ x ∈ u) →
      uniqueLoop items u keys = u ++ (keepFirst items).filter (fun y => y ∉ u) := by
  induction items with
  | nil => intro u keys _; simp [uniqueLoop, keepFirst]
  | cons item rest ih =>
    intro u keys hk
    by_cases hmem : item ∈ keys
    · have hu : item ∈ u := (hk item).1 hmem
      rw [uniqueLoop, if_pos hmem, ih u keys hk, keepFirst]
      congr 1
      simp only [List.filter_cons, hu, not_true_eq_false, decide_False, Bool.false_eq_true,
        if_false, List.filter_filter]
      apply List.filter_congr
      intro y _
      by_cases hy : y ∈ u
      · simp [hy]
      · have : y ≠ item := fun e => hy (e ▸ hu)
        simp [hy, this]
    · have hu : item ∉ u := fun h => hmem ((hk item).2 h)
      rw [uniqueLoop, if_neg hmem, ih (u ++ [item]) (item :: keys)
        (by intro x; simp [hk x, or_comm]), keepFirst]
      simp only [List.filter_cons, hu, not_false_eq_true, decide_True, if_true,
        List.filter_filter, List.append_assoc, List.singleton_append]
      congr 2
      apply List.filter_congr
      intro y _
      simp [Bool.and_comm]

theorem GetUniqueStrings_eq_keepFirst (items : List String) :
    GetUniqueStrings items = keepFirst items := by
  unfold GetUniqueStrings
  rw [uniqueLoop_eq items [] [] (by simp)]
  simp

theorem mem_keepFirst (l : List String) (x : String) : x ∈ keepFirst l ↔ x ∈ l := by
  induction l with
  | nil => simp [keepFirst]
  | cons a l ih =>
    by_cases h : x = a
    · simp [keepFirst, h]
    · simp [keepFirst, h, ih]

theorem nodup_keepFirst (l : List String) : (keepFirst l).Nodup := by
  induction l with
  | nil => simp [keepFirst]
  | cons a l ih =>
    rw [keepFirst, List.nodup_cons]
    exact ⟨by simp, ih.filter _⟩

theorem sublist_keepFirst (l : List String) : (keepFirst l).Sublist l := by
  induction l with
  | nil => simp [keepFirst]
  | cons a l ih =>
    rw [keepFirst]
    exact ((List.filter_sublist _).trans ih).cons₂ a

theorem keepFirst_of_nodup (l : List String) (h : l.Nodup) : keepFirst l = l := by
  induction l with
  | nil => rfl
  | cons a l ih =>
    rw [List.nodup_cons] at h
    rw [keepFirst, ih h.2]
    congr 1
    rw [List.filter_eq_self]
    intro y hy
    have : y ≠ a := fun e => h.1 (e ▸ hy)
    simp [this]

/-- C20: `GetUniqueStrings` returns its input with duplicates removed, the
first occurrence of each string kept in input order.  The result has no
repeated element, is a subsequence of the input and contains exactly the
strings of the input; the function is idempotent, and the length of its
result is 1 exactly when the input is non-empty and all its elements are
equal. -/
theorem GetUniqueStrings_spec (items : List String) :
    GetUniqueStrings items = keepFirst items
    ∧ (GetUniqueStrings items).Nodup
    ∧ (GetUniqueStrings items).Sublist items
    ∧ (∀ x, x ∈ GetUniqueStrings items ↔ x ∈ items)
    ∧ GetUniqueStrings (GetUniqueStrings items) = GetUniqueStrings items
    ∧ ((GetUniqueStrings items).length = 1
        ↔ items ≠ [] ∧ ∀ x ∈ items, ∀ y ∈ items, x = y) := by
  have he := GetUniqueStrings_eq_keepFirst items
  refine ⟨he, ?_, ?_, ?_, ?_, ?_⟩
  · rw [he]; exact nodup_keepFirst items
  · rw [he]; exact sublist_keepFirst items
  · intro x; rw [he]; exact mem_keepFirst items x
  · rw [GetUniqueStrings_eq_keepFirst, he, keepFirst_of_nodup _ (nodup_keepFirst items)]
  · constructor
    · intro hlen
      obtain ⟨a, ha⟩ := List.length_eq_one.1 hlen
      have hmem : ∀ x, x ∈ items ↔ x = a := by
        intro x
        rw [← mem_keepFirst items x, ← he, ha, List.mem_singleton]
      refine ⟨?_, ?_⟩
      · intro h0
        have := (hmem a).2 rfl
        rw [h0] at this
        simp at this
      · intro x hx y hy
        rw [(hmem x).1 hx, (hmem y).1 hy]
    · rintro ⟨hne, hall⟩
      obtain ⟨a, l, rfl⟩ := List.exists_cons_of_ne_nil hne
      rw [GetUniqueStrings_all_eq (a :: l) a (by simp)
        (fun y hy => hall y hy a (List.mem_cons_self _ _))]
      rfl

/-! ### The flag and the set of distinct images -/

theorem length_GetUniqueStrings (l : List String) :
    (GetUniqueStrings l).length = l.toFinset.card := by
  have hset : (keepFirst l).toFinset = l.toFinset := by
    ext x
    simp only [List.mem_toFinset, mem_keepFirst]
  rw [GetUniqueStrings_eq_keepFirst, ← hset, List.toFinset_card_of_nodup (nodup_keepFirst l)]

theorem card_ne_one_iff (l : List String) (hne : l ≠ []) :
    l.toFinset.card ≠ 1 ↔ ∃ x ∈ l, ∃ y ∈ l, x ≠ y := by
  have hpos : 0 < l.toFinset.card := by
    obtain ⟨x, t, rfl⟩ := List.exists_cons_of_ne_nil hne
    exact Finset.card_pos.2 ⟨x, by simp⟩
  have h1 : l.toFinset.card ≠ 1 ↔ 1 < l.toFinset.card := by omega
  rw [h1, Finset.one_lt_card]
  simp only [List.mem_toFinset]

/-- C4: mismatch detection in `updateDisplayArea` flags a container exactly
when its full image names over the contexts that hold it are not all
identical.  For an index without repeated keys whose kinds are resource
types: the detection yields its map whenever every image lookup succeeds,
and in the map it yields the container name is in the entry of
`kind-resourceName` if and only if the set of the distinct full image names
at the leaf `[kind][resourceName][containerName]` has a size other than 1,
which for a leaf with a context is to say that two contexts of the leaf hold
different full image names. -/
theorem mismatch_iff (onError : String → Bool) (options : uiOptions) (all : Index)
    (hwf : all.WF) (hkinds : ∀ e ∈ all, e.1 ∈ resourceTypes) :
    (all.renders → ∃ m, identifyMismatches onError options all = some m)
    ∧ ∀ m, identifyMismatches onError options all = some m →
        ∀ (rt rn cn : String) (contextMap : GoMap AppsV1Resource),
          all.container? rt rn cn = some contextMap →
          (cn ∈ flaggedContainers m (rt ++ "-" ++ rn)
            ↔ (contextMap.map
                (fun e => (e.2.GetImage cn true true true true).1)).toFinset.card ≠ 1)
          ∧ (contextMap ≠ [] →
              (cn ∈ flaggedContainers m (rt ++ "-" ++ rn)
                ↔ ∃ e1 ∈ contextMap, ∃ e2 ∈ contextMap,
                    (e1.2.GetImage cn true true true true).1
                      ≠ (e2.2.GetImage cn true true true true).1)) := by
  refine ⟨fun hr => kindLoop_total onError all [] hr, ?_⟩
  intro m hm rt rn cn contextMap hleaf
  have hflag := flagged_iff onError options all m hwf hkinds hm rt rn cn contextMap hleaf
  rw [length_GetUniqueStrings] at hflag
  refine ⟨hflag, fun hne => ?_⟩
  rw [hflag]
  unfold fullImages
  rw [card_ne_one_iff _ (by simpa using hne)]
  simp only [List.mem_map, exists_exists_and_eq_and]

/-- Witness of `mismatch_iff`, and the example of the claim: contexts `A` and
`B` both have Deployment `web` with container `app`, tagged `v1` in `A` and
`v2` in `B`; the result maps `Deployment-web` to `[app]`. -/
theorem mismatch_iff_witness :
    twoContextIndex.WF
    ∧ identifyMismatches (fun _ => false) ⟨true, true, true, false, false⟩ twoContextIndex
        = some [("Deployment-web", ["app"])]
    ∧ twoContextIndex.container? "Deployment" "web" "app" = some [("A", webV1), ("B", webV2)]
    ∧ (webV1.GetImage "app" true true true true).1 = "app:v1"
    ∧ (webV2.GetImage "app" true true true true).1 = "app:v2"
    ∧ ("app" ∈ flaggedContainers [("Deployment-web", ["app"])] ("Deployment" ++ "-" ++ "web")
        ↔ ∃ e1 ∈ [("A", webV1), ("B", webV2)], ∃ e2 ∈ [("A", webV1), ("B", webV2)],
            (e1.2.GetImage "app" true true true true).1
              ≠ (e2.2.GetImage "app" true true true true).1) :=
  ⟨by unfold Index.WF GoMap.WF; decide, by decide, by decide, by decide, by decide,
   ((mismatch_iff (fun _ => false) ⟨true, true, true, false, false⟩ twoContextIndex
      (by unfold Index.WF GoMap.WF; decide) (by decide)).2 _ (by decide)
      "Deployment" "web" "app" [("A", webV1), ("B", webV2)] (by decide)).2 (by decide)⟩

/-! ### When `GetImage` reports a lookup failure -/

theorem append_eq_empty_iff (a b : String) : a ++ b = "" ↔ a = "" ∧ b = "" := by
  constructor
  · intro h
    have hd := congrArg String.data h
    simp only [String.data_append] at hd
    rw [List.append_eq_nil] at hd
    exact ⟨String.ext hd.1, String.ext hd.2⟩
  · rintro ⟨rfl, rfl⟩
    rfl

theorem renderSpec_eq_empty_iff (img : image) (ir inn it ih : Bool) (hname : img.name ≠ "") :
    renderSpec img ir inn it ih = "" ↔ anySelectedPresent img ir inn it ih = false := by
  rcases img with ⟨r, n, t, h⟩
  simp only at hname
  by_cases hr : r = "" <;> by_cases ht : t = "" <;> by_cases hh : h = "" <;>
    cases ir <;> cases inn <;> cases it <;> cases ih <;>
    simp [renderSpec, anySelectedPresent, joinComponents, joinSeparated, hr, ht, hh, hname,
      append_eq_empty_iff]

theorem filter_name_of_not_mem (l : List kContainer) (c : String)
    (h : c ∉ l.map (fun k => k.name)) : l.filter (fun k => k.name = c) = [] := by
  rw [List.filter_eq_nil_iff]
  intro k hk
  have : k.name ≠ c := fun e => h (List.mem_map.2 ⟨k, hk, e⟩)
  simp [this]

theorem filter_name_of_mem (l : List kContainer) (k : kContainer) (hk : k ∈ l)
    (hnodup : (l.map (fun k => k.name)).Nodup) :
    l.filter (fun x => x.name = k.name) = [k] := by
  induction l with
  | nil => simp at hk
  | cons x l ih =>
    simp only [List.map_cons, List.nodup_cons] at hnodup
    rcases List.mem_cons.1 hk with e | e
    · subst e
      have hnot : k.name ∉ l.map (fun k => k.name) := hnodup.1
      simp [List.filter_cons, filter_name_of_not_mem l k.name hnot]
    · have hne : x.name ≠ k.name := by
        intro e'
        exact hnodup.1 (e' ▸ List.mem_map.2 ⟨k, e, rfl⟩)
      simp [List.filter_cons, hne, ih e hnodup.2]

theorem GetImage_absent (a : AppsV1Resource) (c : String) (ir inn it ih : Bool)
    (h : c ∉ a.GetContainers) :
    a.GetImage c ir inn it ih
      = ("", some ("lookup failed for container \x27" ++ c ++ "\x27")) := by
  rw [GetContainers_eq_map] at h
  unfold AppsV1Resource.GetImage
  rw [foldl_renderContainer_filter, filter_name_of_not_mem _ _ h]
  rfl

theorem GetImage_error_string (a : AppsV1Resource) (c : String) (ir inn it ih : Bool)
    (h : (a.GetImage c ir inn it ih).2 ≠ none) : (a.GetImage c ir inn it ih).1 = "" := by
  unfold AppsV1Resource.GetImage at h ⊢
  simp only at h ⊢
  split at h
  · exact absurd rfl h
  · rename_i hlen
    split
    · rename_i hpos; exact absurd hpos hlen
    · simp only
      have h0 : (List.foldl (renderContainer c ir inn it ih) "" a.containers).length = 0 := by
        omega
      apply String.ext
      exact List.length_eq_zero.1 h0

theorem GetImage_error_iff_aux (a : AppsV1Resource) (c : String) (ir inn it ih : Bool)
    (hdistinct : (a.containers.map (fun k => k.name)).Nodup)
    (hnames : ∀ k ∈ a.containers, k.image.name ≠ "") :
    (a.GetImage c ir inn it ih).2 ≠ none
      ↔ (c ∉ a.GetContainers
          ∨ ∃ k ∈ a.containers, k.name = c ∧ anySelectedPresent k.image ir inn it ih = false) := by
  by_cases hc : c ∈ a.GetContainers
  · have hc' := hc
    rw [GetContainers_eq_map] at hc'
    obtain ⟨k, hk, hkc⟩ := List.mem_map.1 hc'
    have hone : a.containers.filter (fun x => x.name = c) = [⟨c, k.image⟩] := by
      have := filter_name_of_mem a.containers k hk hdistinct
      rw [hkc] at this
      rw [this]
      cases k
      simp only at hkc
      subst hkc
      rfl
    have hsingle := (getImage_single_container a c k.image ir inn it ih hone (hnames k hk)).2.1
    rw [Ne, hsingle, not_not, renderSpec_eq_empty_iff _ _ _ _ _ (hnames k hk)]
    constructor
    · intro h
      exact Or.inr ⟨k, hk, hkc, h⟩
    · rintro (h | ⟨k', hk', hkc', h⟩)
      · exact absurd hc h
      · have hk1 := filter_name_of_mem a.containers k hk hdistinct
        have hk2 := filter_name_of_mem a.containers k' hk' hdistinct
        rw [hkc] at hk1
        rw [hkc', hk1] at hk2
        simp only [List.cons.injEq, and_true] at hk2
        rw [hk2]
        exact h
  · rw [GetImage_absent a c ir inn it ih hc]
    simp [hc]

/-- C16: `GetImage` reports a lookup failure exactly when it has nothing to
return.  For a resource whose containers have distinct names and non-empty
image names, `GetImage(c, ...)` returns a non-nil error, and then the empty
string, if and only if no container is named `c` or none of the selected
components is present in the image of that container; it returns an error
for every container name when all four include flags are false, and a nil
error under the full projection for every existing container. -/
theorem GetImage_error_iff (a : AppsV1Resource) (c : String) (ir inn it ih : Bool)
    (hdistinct : (a.containers.map (fun k => k.name)).Nodup)
    (hnames : ∀ k ∈ a.containers, k.image.name ≠ "") :
    ((a.GetImage c ir inn it ih).2 ≠ none
      ↔ (c ∉ a.GetContainers
          ∨ ∃ k ∈ a.containers, k.name = c ∧ anySelectedPresent k.image ir inn it ih = false))
    ∧ ((a.GetImage c ir inn it ih).2 ≠ none → (a.GetImage c ir inn it ih).1 = "")
    ∧ (a.GetImage c false false false false).2 ≠ none
    ∧ (c ∈ a.GetContainers → (a.GetImage c true true true true).2 = none) := by
  refine ⟨GetImage_error_iff_aux a c ir inn it ih hdistinct hnames,
    GetImage_error_string a c ir inn it ih, ?_, fun hc => GetImage_ok a c hc hnames⟩
  rw [GetImage_error_iff_aux a c false false false false hdistinct hnames]
  by_cases hc : c ∈ a.GetContainers
  · have hc' := hc
    rw [GetContainers_eq_map] at hc'
    obtain ⟨k, hk, hkc⟩ := List.mem_map.1 hc'
    exact Or.inr ⟨k, hk, hkc, rfl⟩
  · exact Or.inl hc

/-- Witness of `GetImage_error_iff`: a Deployment with the containers `app`
and `sidecar`, asked for the tag of `sidecar`, whose image has none. -/
theorem GetImage_error_iff_witness :
    (AppsV1Resource.GetImage
        ⟨"web", [⟨"app", ⟨"docker.io", "nginx", "1.21", ""⟩⟩,
                 ⟨"sidecar", ⟨"", "envoy", "", ""⟩⟩]⟩ "sidecar" false false true false).2 ≠ none
    ∧ ∃ k ∈ [(⟨"app", ⟨"docker.io", "nginx", "1.21", ""⟩⟩ : kContainer),
             ⟨"sidecar", ⟨"", "envoy", "", ""⟩⟩],
        k.name = "sidecar" ∧ anySelectedPresent k.image false false true false = false :=
  ⟨by decide,
   ((GetImage_error_iff
      ⟨"web", [⟨"app", ⟨"docker.io", "nginx", "1.21", ""⟩⟩,
               ⟨"sidecar", ⟨"", "envoy", "", ""⟩⟩]⟩ "sidecar" false false true false
      (by decide) (by decide)).1.1 (by decide)).resolve_left (by decide)⟩

/-! ### `EnsureDir` -/

theorem properPrefixes_concat (l : Path) (x : String) : (l ++ [x]).inits.dropLast = l.inits := by
  rw [List.inits_append]
  simp [List.inits]

theorem inits_eq_proper (l : Path) : l.inits = l.inits.dropLast ++ [l] := by
  rcases List.eq_nil_or_concat l with rfl | ⟨l', x, rfl⟩
  · rfl
  · rw [List.concat_eq_append, properPrefixes_concat, List.inits_append]
    simp [List.inits]

theorem ne_of_mem_properPrefixes (p q : Path) (h : q ∈ p.inits.dropLast) : q ≠ p := by
  rcases List.eq_nil_or_concat p with rfl | ⟨l, x, rfl⟩
  · simp [List.inits] at h
  · rw [List.concat_eq_append] at h ⊢
    rw [properPrefixes_concat, List.mem_inits] at h
    intro e
    have := h.length_le
    rw [e] at this
    simp at this

theorem findSome?_congr_mem {X V : Type} (l : List X) (f g : X → Option V)
    (h : ∀ x ∈ l, f x = g x) : l.findSome? f = l.findSome? g := by
  induction l with
  | nil => rfl
  | cons x l ih =>
    rw [List.findSome?_cons, List.findSome?_cons, h x (List.mem_cons_self _ _),
      ih (fun y hy => h y (List.mem_cons_of_mem _ hy))]

theorem entry_add_ne (fs : FileSystem) (p q : Path) (mode : Nat) (h : q ≠ p) :
    FileSystem.entry ⟨fs.dirs ++ [(p, mode)], fs.files⟩ q = fs.entry q := by
  have hp : ¬ p = q := fun e => h e.symm
  unfold FileSystem.entry
  simp only [List.find?_append, List.find?_cons, hp, decide_False, List.find?_nil,
    Option.or_none]

theorem entry_add_self (fs : FileSystem) (p : Path) (mode : Nat)
    (h : fs.entry p = .missing) :
    FileSystem.entry ⟨fs.dirs ++ [(p, mode)], fs.files⟩ p = .dir mode := by
  unfold FileSystem.entry at h ⊢
  cases hfind : fs.dirs.find? (fun e => decide (e.1 = p)) with
  | some e => rw [hfind] at h; simp at h
  | none =>
    simp only [List.find?_append, hfind, List.find?_cons, decide_True, Option.none_or]

theorem walk_of_above (fs : FileSystem) (p : Path) (above : Nat) (hne : p ≠ [])
    (hstat : osStat fs p.dropLast = .dir) (hentry : fs.entry p.dropLast = .dir above)
    (hsearch : ownerMaySearch above = true) :
    p.inits.dropLast.findSome? fs.obstacle = none := by
  have hp : p = p.dropLast ++ [p.getLast hne] := (List.dropLast_append_getLast hne).symm
  have hproper : p.inits.dropLast = p.dropLast.inits := by
    conv_lhs => rw [hp]
    exact properPrefixes_concat _ _
  rw [hproper, inits_eq_proper, List.findSome?_append]
  have h1 : p.dropLast.inits.dropLast.findSome? fs.obstacle = none := by
    unfold osStat at hstat
    cases hw : p.dropLast.inits.dropLast.findSome? fs.obstacle with
    | none => rfl
    | some err => rw [hw] at hstat; simp at hstat
  rw [h1]
  simp [FileSystem.obstacle, hentry, hsearch]

theorem osMkdir_ok (fs fs' : FileSystem) (p : Path) (mode : Nat)
    (h : osMkdir fs p mode = (none, fs')) : osStat fs' p = .dir := by
  unfold osMkdir at h
  split at h
  · simp at h
  · rename_i hne
    split at h
    · simp at h
    · simp at h
    · rename_i hstat
      split at h
      · rename_i above hentry
        split at h
        · simp at h
        · rename_i hsearch
          simp only [Bool.not_eq_true, Bool.not_eq_false_eq_eq_true, Bool.not_eq_true_eq_eq_false,
            Bool.not_not] at hsearch
          split at h
          · rename_i hmissing
            split at h
            · simp only [Prod.mk.injEq, true_and] at h
              subst h
              have hwalk := walk_of_above fs p above hne hstat hentry (by simpa using hsearch)
              have hsame : p.inits.dropLast.findSome?
                  (FileSystem.obstacle ⟨fs.dirs ++ [(p, mode)], fs.files⟩)
                  = p.inits.dropLast.findSome? fs.obstacle := by
                apply findSome?_congr_mem
                intro q hq
                unfold FileSystem.obstacle
                rw [entry_add_ne fs p q mode (ne_of_mem_properPrefixes p q hq)]
              unfold osStat
              rw [hsame, hwalk, entry_add_self fs p mode hmissing]
            · simp at h
          · simp at h
      · simp at h

theorem mkdirAllRev_ok (mode : Nat) (l : List String) (fs fs' : FileSystem)
    (h : mkdirAllRev mode l fs = (none, fs')) : osStat fs' l.reverse = .dir := by
  cases l with
  | nil =>
    unfold mkdirAllRev at h
    split at h
    · rename_i hstat
      simp only [Prod.mk.injEq, true_and] at h
      subst h
      exact hstat
    · simp at h
    · simp [osMkdir] at h
  | cons name above =>
    unfold mkdirAllRev at h
    split at h
    · rename_i hstat
      simp only [Prod.mk.injEq, true_and] at h
      subst h
      exact hstat
    · simp at h
    · split at h
      · simp at h
      · split at h
        · rename_i hmk
          simp only [Prod.mk.injEq, true_and] at h
          subst h
          exact osMkdir_ok _ _ _ _ hmk
        · split at h
          · rename_i hfound
            simp only [Prod.mk.injEq, true_and] at h
            subst h
            exact hfound
          · simp at h

theorem osMkdirAll_ok (fs fs' : FileSystem) (p : Path) (mode : Nat)
    (h : osMkdirAll fs p mode = (none, fs')) : DirExists fs' p = true := by
  unfold osMkdirAll at h
  have := mkdirAllRev_ok mode p.reverse fs fs' h
  rw [List.reverse_reverse] at this
  simp [DirExists, this]

theorem mkdirAllRev_of_dir (mode : Nat) (l : List String) (fs : FileSystem)
    (h : osStat fs l.reverse = .dir) : mkdirAllRev mode l fs = (none, fs) := by
  cases l with
  | nil => unfold mkdirAllRev; rw [show osStat fs [] = .dir from h]
  | cons name above => unfold mkdirAllRev; rw [h]

theorem EnsureDir_of_exists (fs : FileSystem) (path : Path) (mode : Nat)
    (h : DirExists fs (filepathDir path) = true) : EnsureDir fs path mode = some fs := by
  unfold DirExists at h
  unfold EnsureDir
  simp only [decide_eq_true_eq] at h
  simp [h, osIsNotExist]

theorem EnsureDir_of_made (fs fs' : FileSystem) (path : Path) (mode : Nat)
    (hstat : osStat fs (filepathDir path) = .failed .notExist)
    (hmk : osMkdirAll fs (filepathDir path) mode = (none, fs')) :
    EnsureDir fs path mode = some fs' := by
  unfold EnsureDir
  simp [hstat, osIsNotExist, hmk]

theorem EnsureDir_of_failed (fs fs' : FileSystem) (path : Path) (mode : Nat) (err : PathError)
    (hstat : osStat fs (filepathDir path) = .failed .notExist)
    (hmk : osMkdirAll fs (filepathDir path) mode = (some err, fs')) :
    EnsureDir fs path mode = none := by
  unfold EnsureDir
  simp [hstat, osIsNotExist, hmk]


theorem osMkdirAll_one_level (fs : FileSystem) (p : Path) (mode : Nat)
    (hstat : osStat fs p = .failed .notExist)
    (habove : DirExists fs p.dropLast = true)
    (hw : fs.writable p.dropLast = true) :
    osMkdirAll fs p mode = (none, ⟨fs.dirs ++ [(p, mode)], fs.files⟩) := by
  have hdir : osStat fs p.dropLast = .dir := by simpa [DirExists] using habove
  rcases List.eq_nil_or_concat p with rfl | ⟨l, x, rfl⟩
  · rw [List.dropLast_nil, hstat] at hdir
    simp at hdir
  · rw [List.concat_eq_append] at hstat hdir hw ⊢
    rw [List.dropLast_concat] at hdir hw
    obtain ⟨above, hentry, hwrite⟩ : ∃ above, fs.entry l = .dir above
        ∧ ownerMayWrite above = true := by
      unfold FileSystem.writable at hw
      split at hw
      · rename_i m hm
        exact ⟨m, hm, hw⟩
      · simp at hw
    have hproper : l.inits.dropLast.findSome? fs.obstacle = none := by
      unfold osStat at hdir
      cases hwalk : l.inits.dropLast.findSome? fs.obstacle with
      | none => rfl
      | some err => rw [hwalk] at hdir; simp at hdir
    have hfacts : ownerMaySearch above = true ∧ fs.entry (l ++ [x]) = .missing := by
      unfold osStat at hstat
      rw [properPrefixes_concat, inits_eq_proper, List.findSome?_append, hproper] at hstat
      simp only [Option.none_or, List.findSome?_cons, List.findSome?_nil,
        FileSystem.obstacle, hentry] at hstat
      cases hs : ownerMaySearch above with
      | false => simp [hs] at hstat
      | true =>
        refine ⟨rfl, ?_⟩
        simp only [hs, if_true] at hstat
        cases he : fs.entry (l ++ [x]) with
        | missing => rfl
        | dir m => rw [he] at hstat; simp at hstat
        | file => rw [he] at hstat; simp at hstat
    have hmk : osMkdir fs (l ++ [x]) mode = (none, ⟨fs.dirs ++ [(l ++ [x], mode)], fs.files⟩) := by
      unfold osMkdir
      rw [if_neg (by simp), List.dropLast_concat, hdir]
      simp only [hentry, hfacts.1, Bool.not_true, Bool.false_eq_true, if_false, hfacts.2,
        hwrite, if_true]
    unfold osMkdirAll
    rw [List.reverse_append, List.reverse_singleton, List.singleton_append]
    unfold mkdirAllRev
    rw [List.reverse_cons, List.reverse_reverse, hstat]
    simp only
    rw [mkdirAllRev_of_dir mode l.reverse fs (by rw [List.reverse_reverse]; exact hdir)]
    simp only [hmk]

/-- C17 (counterexample): the directory `/home/.kdiff` is missing and the
owner may not write `/home`, so `os.MkdirAll` fails and `log.Fatalf` ends the
program: `EnsureDir` returns no state in which the directory exists.  And
when a regular file stands at the parent path `/tmp/kdiff`, or above the
parent path `/tmp/kdiff/logs`, `EnsureDir` returns with the state as it was,
in which the parent directory does not exist. -/
theorem EnsureDir_counterexample :
    (osStat readOnlyHome (filepathDir ["home", ".kdiff", "kdiff.log"]) = .failed .notExist
      ∧ EnsureDir readOnlyHome ["home", ".kdiff", "kdiff.log"] 493 = none
      ∧ ¬ ∃ fs', EnsureDir readOnlyHome ["home", ".kdiff", "kdiff.log"] 493 = some fs'
          ∧ DirExists fs' (filepathDir ["home", ".kdiff", "kdiff.log"]) = true)
    ∧ (osStat fileInPlace (filepathDir ["tmp", "kdiff", "kdiff.log"]) = .file
      ∧ EnsureDir fileInPlace ["tmp", "kdiff", "kdiff.log"] 493 = some fileInPlace
      ∧ DirExists fileInPlace (filepathDir ["tmp", "kdiff", "kdiff.log"]) = false)
    ∧ (osStat fileInPlace (filepathDir ["tmp", "kdiff", "logs", "kdiff.log"])
        = .failed .notDir
      ∧ EnsureDir fileInPlace ["tmp", "kdiff", "logs", "kdiff.log"] 493 = some fileInPlace
      ∧ DirExists fileInPlace (filepathDir ["tmp", "kdiff", "logs", "kdiff.log"]) = false) := by
  refine ⟨⟨by decide, by decide, ?_⟩, ⟨by decide, by decide, by decide⟩,
    ⟨by decide, by decide, by decide⟩⟩
  rintro ⟨fs', h, _⟩
  have hnone : EnsureDir readOnlyHome ["home", ".kdiff", "kdiff.log"] 493 = none := by decide
  rw [hnone] at h
  cases h

/-- C17 (amended): `EnsureDir(path, mode)` returns with the parent directory
of `path` in place when that directory already existed, and, when `os.Stat`
reported that it does not exist, when `os.MkdirAll` could make it, after
which a second call leaves the state, and so the directory, in place; when
`os.MkdirAll` fails, `log.Fatalf` ends the program.  `os.MkdirAll` does make
the directory when the directory above it exists and its owner may write
it. -/
theorem EnsureDir_ensures (fs : FileSystem) (path : Path) (mode : Nat) :
    (DirExists fs (filepathDir path) = true → EnsureDir fs path mode = some fs)
    ∧ (osStat fs (filepathDir path) = .failed .notExist →
        (∀ fs', osMkdirAll fs (filepathDir path) mode = (none, fs') →
          EnsureDir fs path mode = some fs' ∧ DirExists fs' (filepathDir path) = true
            ∧ EnsureDir fs' path mode = some fs')
        ∧ (∀ err fs', osMkdirAll fs (filepathDir path) mode = (some err, fs') →
            EnsureDir fs path mode = none)
        ∧ (DirExists fs (filepathDir path).dropLast = true →
            fs.writable (filepathDir path).dropLast = true →
            ∃ fs', EnsureDir fs path mode = some fs'
              ∧ DirExists fs' (filepathDir path) = true
              ∧ EnsureDir fs' path mode = some fs')) := by
  refine ⟨EnsureDir_of_exists fs path mode, fun hstat => ⟨?_, ?_, ?_⟩⟩
  · intro fs' hmk
    have hdir := osMkdirAll_ok fs fs' (filepathDir path) mode hmk
    exact ⟨EnsureDir_of_made fs fs' path mode hstat hmk, hdir,
      EnsureDir_of_exists fs' path mode hdir⟩
  · intro err fs' hmk
    exact EnsureDir_of_failed fs fs' path mode err hstat hmk
  · intro habove hw
    have hmk := osMkdirAll_one_level fs (filepathDir path) mode hstat habove hw
    have hdir := osMkdirAll_ok fs _ (filepathDir path) mode hmk
    exact ⟨_, EnsureDir_of_made fs _ path mode hstat hmk, hdir,
      EnsureDir_of_exists _ path mode hdir⟩

/-- Witness of `EnsureDir_ensures`: the case of the test, a file under a
missing directory of the temporary directory, where the first call makes the
directory and the second leaves it; and a log file three missing levels
down, each level made with the permission bits `0755`. -/
theorem EnsureDir_ensures_witness :
    osStat tempDirState (filepathDir testFile1) = .failed .notExist
    ∧ DirExists tempDirState (filepathDir testFile1).dropLast = true
    ∧ tempDirState.writable (filepathDir testFile1).dropLast = true
    ∧ EnsureDir tempDirState testFile1 493
        = some ⟨[([], 493), (["tmp"], 493), (["tmp", "kdiff-testEnsureDir-dir1"], 493)], []⟩
    ∧ EnsureDir tempDirState ["tmp", "a", "b", "c", "kdiff.log"] 493
        = some ⟨[([], 493), (["tmp"], 493), (["tmp", "a"], 493), (["tmp", "a", "b"], 493),
            (["tmp", "a", "b", "c"], 493)], []⟩
    ∧ EnsureDir tempDirState ["tmp", "a", "b", "c", "kdiff.log"] 292 = none
    ∧ ∃ fs', EnsureDir tempDirState testFile1 493 = some fs'
        ∧ DirExists fs' (filepathDir testFile1) = true
        ∧ EnsureDir fs' testFile1 493 = some fs' :=
  ⟨by decide, by decide, by decide, by decide, by decide, by decide,
   ((EnsureDir_ensures tempDirState testFile1 493).2 (by decide)).2.2 (by decide) (by decide)⟩

/-! ### Probing the contexts -/

theorem lexLe_total (a b : List Char) : lexLe a b = true ∨ lexLe b a = true := by
  induction a generalizing b with
  | nil => exact Or.inl rfl
  | cons x a ih =>
    cases b with
    | nil => exact Or.inr rfl
    | cons y b =>
      simp only [lexLe]
      by_cases h1 : x.toNat < y.toNat
      · simp [h1]
      · by_cases h2 : y.toNat < x.toNat
        · simp [h2]
        · simp only [h1, h2, if_false]
          exact ih b

theorem lexLe_trans (a b c : List Char) (h1 : lexLe a b = true) (h2 : lexLe b c = true) :
    lexLe a c = true := by
  induction a generalizing b c with
  | nil => rfl
  | cons x a ih =>
    cases b with
    | nil => simp [lexLe] at h1
    | cons y b =>
      cases c with
      | nil => simp [lexLe] at h2
      | cons z c =>
        simp only [lexLe] at h1 h2 ⊢
        by_cases hxy : x.toNat < y.toNat
        · by_cases hyz : y.toNat < z.toNat
          · have : x.toNat < z.toNat := by omega
            simp [this]
          · by_cases hzy : z.toNat < y.toNat
            · simp [hyz, hzy] at h2
            · have : x.toNat < z.toNat := by omega
              simp [this]
        · by_cases hyx : y.toNat < x.toNat
          · simp [hxy, hyx] at h1
          · simp only [hxy, hyx, if_false] at h1
            by_cases hyz : y.toNat < z.toNat
            · have : x.toNat < z.toNat := by omega
              simp [this]
            · by_cases hzy : z.toNat < y.toNat
              · simp [hyz, hzy] at h2
              · simp only [hyz, hzy, if_false] at h2
                have e1 : ¬ x.toNat < z.toNat := by omega
                have e2 : ¬ z.toNat < x.toNat := by omega
                simp only [e1, e2, if_false]
                exact ih b c h1 h2

theorem sorted_sortStrings (l : List String) :
    (sortStrings l).Sorted (fun a b => stringLe a b = true) :=
  @List.sorted_insertionSort String (fun a b => stringLe a b = true) _
    ⟨fun a b => lexLe_total a.data b.data⟩
    ⟨fun a b c => lexLe_trans a.data b.data c.data⟩ l

theorem perm_sortStrings (l : List String) : (sortStrings l).Perm l :=
  List.perm_insertionSort _ l

theorem dispatchLoop_eq (onError : String → Bool) (cErr nErr : String → Option String)
    (sv : String → VersionResult) (names : List String) :
    ∀ (pending p : List KubeContext),
      dispatchLoop onError cErr nErr sv names pending = some p →
      p = pending ++ names.map (fun ctx => getServerVersion ctx (sv ctx)) := by
  induction names with
  | nil => intro pending p h; simpa [dispatchLoop, eq_comm] using h
  | cons ctx rest ih =>
    intro pending p h
    simp only [dispatchLoop] at h
    split at h
    · split at h
      · rw [ih _ _ h]; simp
      · simp at h
    · simp at h

theorem dispatchLoop_total (onError : String → Bool) (cErr nErr : String → Option String)
    (sv : String → VersionResult) (names : List String)
    (hc : ∀ ctx, cErr ctx = none) (hn : ∀ ctx, nErr ctx = none) :
    ∀ (pending : List KubeContext),
      dispatchLoop onError cErr nErr sv names pending
        = some (pending ++ names.map (fun ctx => getServerVersion ctx (sv ctx))) := by
  induction names with
  | nil => intro pending; simp [dispatchLoop]
  | cons ctx rest ih =>
    intro pending
    simp [dispatchLoop, hc, hn, HandleError, ih]

theorem perm_cons_eraseIdx {α : Type} (l : List α) (i : Nat) (c : α) (h : l[i]? = some c) :
    l.Perm (c :: l.eraseIdx i) := by
  induction l generalizing i with
  | nil => simp at h
  | cons x l ih =>
    cases i with
    | zero =>
      simp only [List.getElem?_cons_zero, Option.some.injEq] at h
      subst h
      simp
    | succ i =>
      simp only [List.getElem?_cons_succ] at h
      simp only [List.eraseIdx_cons_succ]
      exact ((ih i h).cons x).trans (List.Perm.swap c x _)

theorem receiveLoop_perm (n : Nat) :
    ∀ (pending : List KubeContext) (schedule : List Nat) (allContexts : List KubeContext),
      pending.length = n →
      ∃ result, receiveLoop n pending schedule allContexts = some result
        ∧ result.Perm (allContexts ++ pending) := by
  induction n with
  | zero =>
    intro pending schedule allContexts hlen
    have : pending = [] := List.length_eq_zero.1 hlen
    subst this
    exact ⟨allContexts, rfl, by simp⟩
  | succ n ih =>
    intro pending schedule allContexts hlen
    have hi : schedule.headD 0 % pending.length < pending.length :=
      Nat.mod_lt _ (by omega)
    have hget : pending[schedule.headD 0 % pending.length]?
        = some (pending[schedule.headD 0 % pending.length]) := List.getElem?_eq_getElem hi
    obtain ⟨result, hres, hperm⟩ := ih (pending.eraseIdx (schedule.headD 0 % pending.length))
      schedule.tail (allContexts ++ [pending[schedule.headD 0 % pending.length]])
      (by rw [List.length_eraseIdx, if_pos hi]; omega)
    refine ⟨result, ?_, ?_⟩
    · simp only [receiveLoop, hget]
      exact hres
    · refine hperm.trans ?_
      rw [List.append_assoc]
      exact List.Perm.append_left _ (perm_cons_eraseIdx _ _ _ hget).symm

theorem receiveLoop_in_order (n : Nat) :
    ∀ (pending : List KubeContext) (schedule : List Nat) (allContexts : List KubeContext),
      pending.length = n → (∀ k ∈ schedule, k = 0) →
      receiveLoop n pending schedule allContexts = some (allContexts ++ pending) := by
  induction n with
  | zero =>
    intro pending schedule allContexts hlen _
    have : pending = [] := List.length_eq_zero.1 hlen
    subst this
    simp [receiveLoop]
  | succ n ih =>
    intro pending schedule allContexts hlen hz
    have h0 : schedule.headD 0 = 0 := by
      cases schedule with
      | nil => rfl
      | cons k s => exact hz k (List.mem_cons_self _ _)
    cases pending with
    | nil => simp at hlen
    | cons c rest =>
      simp only [List.length_cons, Nat.add_right_cancel_iff] at hlen
      simp only [receiveLoop, h0, Nat.zero_mod, List.getElem?_cons_zero, List.eraseIdx_cons_zero]
      rw [ih rest schedule.tail _ hlen (fun k hk => hz k (List.mem_of_mem_tail hk))]
      simp

theorem GetContextInfo_some (onError : String → Bool) (contexts : List String)
    (cErr nErr : String → Option String) (sv : String → VersionResult) (schedule : List Nat)
    (hc : ∀ ctx, cErr ctx = none) (hn : ∀ ctx, nErr ctx = none) :
    ∃ result, GetContextInfo onError (none, contexts) cErr nErr sv schedule = some result
      ∧ result.Perm ((sortStrings contexts).map (fun ctx => getServerVersion ctx (sv ctx))) := by
  obtain ⟨result, hres, hperm⟩ := receiveLoop_perm (sortStrings contexts).length
    ((sortStrings contexts).map (fun ctx => getServerVersion ctx (sv ctx))) schedule []
    (by simp)
  refine ⟨result, ?_, by simpa using hperm⟩
  simp only [GetContextInfo, GetContextNames, HandleError, if_true,
    dispatchLoop_total onError cErr nErr sv _ hc hn, List.nil_append]
  exact hres

theorem name_getServerVersion (ctx : String) (v : VersionResult) :
    (getServerVersion ctx v).Name = ctx := by
  cases v <;> rfl

theorem GetContextInfo_in_order (onError : String → Bool) (contexts : List String)
    (cErr nErr : String → Option String) (sv : String → VersionResult) (schedule : List Nat)
    (hc : ∀ ctx, cErr ctx = none) (hn : ∀ ctx, nErr ctx = none)
    (hz : ∀ k ∈ schedule, k = 0) :
    GetContextInfo onError (none, contexts) cErr nErr sv schedule
      = some ((sortStrings contexts).map (fun ctx => getServerVersion ctx (sv ctx))) := by
  simp only [GetContextInfo, GetContextNames, HandleError, if_true,
    dispatchLoop_total onError cErr nErr sv _ hc hn, List.nil_append]
  rw [receiveLoop_in_order _ _ _ _ (by simp) hz]
  simp

theorem names_of_probes (sv : String → VersionResult) (names : List String) :
    (names.map (fun ctx => getServerVersion ctx (sv ctx))).map (fun e => e.Name) = names := by
  induction names with
  | nil => rfl
  | cons ctx names ih =>
    simp only [List.map_cons, name_getServerVersion, ih]

/-- C11 (counterexample): the contexts `a` and `b` are both reachable and the
probe of `b` completes first; `GetContextInfo` returns the probe of `b`
before the probe of `a`, which is not ascending order. -/
theorem GetContextInfo_counterexample :
    GetContextInfo (fun _ => false) (none, ["a", "b"]) (fun _ => none) (fun _ => none)
        (fun _ => .ok "1" "27") [1]
      = some [⟨"b", true, none, "1.27"⟩, ⟨"a", true, none, "1.27"⟩]
    ∧ ¬ List.Sorted (fun a b => stringLe a b = true)
        ([(⟨"b", true, none, "1.27"⟩ : KubeContext), ⟨"a", true, none, "1.27"⟩].map
          (fun e => e.Name)) := by
  constructor <;> decide

/-- C11 (amended): `GetContextInfo` returns the context probes in the order in
which the individual probes complete.  When the kubeconfig loads and a
client is built for every context, then for every completion order the
result holds one probe per context name, the names being a permutation of
the ascending list that `GetContextNames` returns and in which the probes
are started; the result is in ascending order of the names when the probes
complete in the order in which they were started. -/
theorem GetContextInfo_order (onError : String → Bool) (contexts : List String)
    (cErr nErr : String → Option String) (sv : String → VersionResult) (schedule : List Nat)
    (hc : ∀ ctx, cErr ctx = none) (hn : ∀ ctx, nErr ctx = none) :
    (∃ result, GetContextInfo onError (none, contexts) cErr nErr sv schedule = some result
        ∧ (result.map (fun e => e.Name)).Perm (sortStrings contexts))
    ∧ GetContextNames onError (none, contexts) = some (sortStrings contexts)
    ∧ (sortStrings contexts).Sorted (fun a b => stringLe a b = true)
    ∧ ((∀ k ∈ schedule, k = 0) →
        ∃ result, GetContextInfo onError (none, contexts) cErr nErr sv schedule = some result
          ∧ result.map (fun e => e.Name) = sortStrings contexts) := by
  refine ⟨?_, rfl, sorted_sortStrings contexts, ?_⟩
  · obtain ⟨result, hres, hperm⟩ := GetContextInfo_some onError contexts cErr nErr sv schedule hc hn
    refine ⟨result, hres, ?_⟩
    have := hperm.map (fun e => e.Name)
    rwa [names_of_probes] at this
  · intro hz
    exact ⟨_, GetContextInfo_in_order onError contexts cErr nErr sv schedule hc hn hz,
      names_of_probes sv _⟩

/-- Witness of `GetContextInfo_order`: three contexts, the last started probe
completing first. -/
theorem GetContextInfo_order_witness :
    GetContextInfo (fun _ => false) (none, ["good", "bad", "alpha"]) (fun _ => none)
        (fun _ => none) probeOfExample [2, 0]
      = some [⟨"good", true, none, "1.27"⟩, ⟨"alpha", true, none, "1.27"⟩,
          ⟨"bad", false, some "dial tcp: i/o timeout", ""⟩]
    ∧ sortStrings ["good", "bad", "alpha"] = ["alpha", "bad", "good"]
    ∧ ∃ result, GetContextInfo (fun _ => false) (none, ["good", "bad", "alpha"]) (fun _ => none)
          (fun _ => none) probeOfExample [2, 0] = some result
        ∧ (result.map (fun e => e.Name)).Perm (sortStrings ["good", "bad", "alpha"]) :=
  ⟨by decide, by decide,
   (GetContextInfo_order (fun _ => false) ["good", "bad", "alpha"] (fun _ => none)
      (fun _ => none) probeOfExample [2, 0] (fun _ => rfl) (fun _ => rfl)).1⟩

/-- C12: probing N contexts returns exactly N entries, one per context name,
and a probe error is captured as data.  When the kubeconfig loads and a
client is built for every context, then for every completion order and
every outcome of the server-version requests: `GetContextInfo` returns a
list as long as the list of contexts whose names are a permutation of the
context names, and for each entry `Reachable` is false if and only if the
request for that context returned an error, in which case `UnreachableError`
is that error and `ServerVersion` is empty; otherwise `Reachable` is true,
`UnreachableError` is nil and `ServerVersion` is `Major.Minor`. -/
theorem probe_results (onError : String → Bool) (contexts : List String)
    (cErr nErr : String → Option String) (sv : String → VersionResult) (schedule : List Nat)
    (hc : ∀ ctx, cErr ctx = none) (hn : ∀ ctx, nErr ctx = none) :
    ∃ result, GetContextInfo onError (none, contexts) cErr nErr sv schedule = some result
      ∧ result.length = contexts.length
      ∧ (result.map (fun e => e.Name)).Perm contexts
      ∧ ∀ e ∈ result,
          (e.Reachable = false ↔ ∃ err, sv e.Name = .failed err)
          ∧ (∀ err, sv e.Name = .failed err →
              e.UnreachableError = some err ∧ e.ServerVersion = "")
          ∧ (∀ major minor, sv e.Name = .ok major minor →
              e.Reachable = true ∧ e.UnreachableError = none
                ∧ e.ServerVersion = major ++ "." ++ minor) := by
  obtain ⟨result, hres, hperm⟩ := GetContextInfo_some onError contexts cErr nErr sv schedule hc hn
  refine ⟨result, hres, ?_, ?_, ?_⟩
  · rw [hperm.length_eq, List.length_map, (perm_sortStrings contexts).length_eq]
  · have := hperm.map (fun e => e.Name)
    rw [names_of_probes] at this
    exact this.trans (perm_sortStrings contexts)
  · intro e he
    obtain ⟨ctx, _, rfl⟩ := List.mem_map.1 (hperm.mem_iff.1 he)
    rw [name_getServerVersion]
    cases hv : sv ctx with
    | ok major minor => simp [getServerVersion]
    | failed err => simp [getServerVersion]

/-- Witness of `probe_results`, and the example of the claim: the context
`bad` always errors and the others succeed; three entries come back and
exactly one has `Reachable` false, with its error set. -/
theorem probe_results_witness :
    GetContextInfo (fun _ => false) (none, ["good", "bad", "alpha"]) (fun _ => none)
        (fun _ => none) probeOfExample [2, 0]
      = some [⟨"good", true, none, "1.27"⟩, ⟨"alpha", true, none, "1.27"⟩,
          ⟨"bad", false, some "dial tcp: i/o timeout", ""⟩]
    ∧ ([(⟨"good", true, none, "1.27"⟩ : KubeContext), ⟨"alpha", true, none, "1.27"⟩,
          ⟨"bad", false, some "dial tcp: i/o timeout", ""⟩].filter
          (fun e => !e.Reachable)).length = 1
    ∧ ∃ result, GetContextInfo (fun _ => false) (none, ["good", "bad", "alpha"]) (fun _ => none)
          (fun _ => none) probeOfExample [2, 0] = some result
        ∧ result.length = ["good", "bad", "alpha"].length :=
  ⟨by decide, by decide,
   (probe_results (fun _ => false) ["good", "bad", "alpha"] (fun _ => none)
      (fun _ => none) probeOfExample [2, 0] (fun _ => rfl) (fun _ => rfl)).imp
      (fun _ h => ⟨h.1, h.2.1⟩)⟩

/-! ### The selection of a list -/

theorem keyGet_keySet (m : List (Int × Bool)) (k : Int) (v : Bool) (x : Int) :
    keyGet (keySet m k v) x = if k = x then v else keyGet m x := by
  induction m with
  | nil => simp [keySet, keyGet]
  | cons e m ih =>
    obtain ⟨k0, v0⟩ := e
    by_cases h0 : k0 = k
    · subst h0
      by_cases hx : k0 = x <;> simp [keySet, keyGet, hx]
    · by_cases hk : k = x
      · subst hk
        simp [keySet, keyGet, h0, ih]
      · by_cases hx : k0 = x
        · subst hx
          simp [keySet, keyGet, h0, hk]
        · simp [keySet, keyGet, h0, hk, hx, ih]

theorem keys_keySet (m : List (Int × Bool)) (k : Int) (v : Bool) :
    (keySet m k v).map Prod.fst
      = if k ∈ m.map Prod.fst then m.map Prod.fst else m.map Prod.fst ++ [k] := by
  induction m with
  | nil => simp [keySet]
  | cons e m ih =>
    obtain ⟨k0, v0⟩ := e
    by_cases h0 : k0 = k
    · subst h0
      simp [keySet]
    · have h0' : ¬ k = k0 := fun e => h0 e.symm
      by_cases hk : k ∈ m.map Prod.fst
      · simp only [keySet, h0, if_false, List.map_cons, ih, hk, if_true,
          List.mem_cons, or_true]
      · simp only [keySet, h0, if_false, List.map_cons, ih, hk, List.mem_cons, h0',
          or_self, List.cons_append]

theorem nodup_keySet (m : List (Int × Bool)) (k : Int) (v : Bool)
    (h : (m.map Prod.fst).Nodup) : ((keySet m k v).map Prod.fst).Nodup := by
  rw [keys_keySet]
  split
  · exact h
  · rename_i hk
    exact List.Nodup.append h (List.nodup_singleton k)
      (fun x hx hx' => hk (List.mem_singleton.1 hx' ▸ hx))

theorem mem_true_iff_keyGet (m : List (Int × Bool)) (h : (m.map Prod.fst).Nodup) (x : Int) :
    (x, true) ∈ m ↔ keyGet m x = true := by
  induction m with
  | nil => simp [keyGet]
  | cons e m ih =>
    obtain ⟨k0, v0⟩ := e
    simp only [List.map_cons, List.nodup_cons] at h
    by_cases hx : k0 = x
    · subst hx
      have hnot : (k0, true) ∉ m := fun hm => h.1 (List.mem_map.2 ⟨(k0, true), hm, rfl⟩)
      simp [keyGet, hnot, eq_comm]
    · have hx' : ¬ x = k0 := fun e => hx e.symm
      simp [keyGet, hx, hx', ih h.2]

theorem keys_of_fold (list : List Int) :
    ∀ (keys : List (Int × Bool)), (keys.map Prod.fst).Nodup →
      ((list.foldl (fun keys item => keySet keys item true) keys).map Prod.fst).Nodup
      ∧ ∀ x, keyGet (list.foldl (fun keys item => keySet keys item true) keys) x
          = (decide (x ∈ list) || keyGet keys x) := by
  induction list with
  | nil => intro keys h; exact ⟨h, by simp⟩
  | cons a list ih =>
    intro keys h
    obtain ⟨h1, h2⟩ := ih (keySet keys a true) (nodup_keySet keys a true h)
    refine ⟨h1, ?_⟩
    intro x
    rw [List.foldl_cons, h2 x, keyGet_keySet]
    by_cases hax : a = x
    · subst hax; simp
    · have : ¬ x = a := fun e => hax e.symm
      simp [hax, this]

theorem toggleSelection_spec (list : List Int) (currentItem : Int) :
    (toggleSelection list currentItem).Nodup
    ∧ ∀ x, x ∈ toggleSelection list currentItem
        ↔ (x = currentItem ∧ currentItem ∉ list) ∨ (x ≠ currentItem ∧ x ∈ list) := by
  obtain ⟨hn, hget⟩ := keys_of_fold list [] (by simp)
  have hkeys : ∀ keys : List (Int × Bool),
      (if keyGet keys currentItem = true then keySet keys currentItem false
        else keySet keys currentItem true)
      = keySet keys currentItem (!keyGet keys currentItem) := by
    intro keys
    cases keyGet keys currentItem <;> simp
  unfold toggleSelection
  simp only [hkeys]
  have hn' := nodup_keySet _ currentItem
    (!keyGet (list.foldl (fun keys item => keySet keys item true) []) currentItem) hn
  constructor
  · exact List.Nodup.sublist ((List.filter_sublist _).map Prod.fst) hn'
  · intro x
    have hmem : x ∈ List.map (fun e => e.1)
          (List.filter (fun e => e.2)
            (keySet (list.foldl (fun keys item => keySet keys item true) []) currentItem
              (!keyGet (list.foldl (fun keys item => keySet keys item true) []) currentItem)))
        ↔ (x, true) ∈ keySet (list.foldl (fun keys item => keySet keys item true) []) currentItem
              (!keyGet (list.foldl (fun keys item => keySet keys item true) []) currentItem) := by
      simp only [List.mem_map, List.mem_filter]
      constructor
      · rintro ⟨⟨k, v⟩, ⟨hm, hv⟩, hk⟩
        simp only at hv hk
        subst hv; subst hk
        exact hm
      · intro hm
        exact ⟨(x, true), ⟨hm, rfl⟩, rfl⟩
    rw [hmem, mem_true_iff_keyGet _ hn', keyGet_keySet, hget, hget]
    by_cases hx : currentItem = x
    · subst hx
      simp [keyGet]
    · have hx' : ¬ x = currentItem := fun e => hx e.symm
      simp [hx, hx', keyGet]

theorem selectAllLoop_spec (items : List multiSelectListItem) :
    ∀ (index : Int) (acc : List Int), acc.Nodup → (∀ a ∈ acc, a < index) →
      (selectAllLoop items index acc).Nodup
      ∧ ∀ x, x ∈ selectAllLoop items index acc →
          x ∈ acc ∨ ∃ (j : Nat) (item : multiSelectListItem),
            items[j]? = some item ∧ item.IsDisabled = false ∧ x = index + j := by
  induction items with
  | nil =>
    intro index acc hn _
    exact ⟨hn, fun x hx => Or.inl hx⟩
  | cons item rest ih =>
    intro index acc hn hlt
    have hn' : (if (!item.IsDisabled) = true then acc ++ [index] else acc).Nodup := by
      split
      · exact List.Nodup.append hn (List.nodup_singleton _)
          (fun x hx hx' => by
            rw [List.mem_singleton.1 hx'] at hx
            exact absurd (hlt _ hx) (lt_irrefl _))
      · exact hn
    have hlt' : ∀ a ∈ (if (!item.IsDisabled) = true then acc ++ [index] else acc),
        a < index + 1 := by
      intro a ha
      split at ha
      · rcases List.mem_append.1 ha with h | h
        · have := hlt a h; omega
        · rw [List.mem_singleton.1 h]; omega
      · have := hlt a ha; omega
    obtain ⟨h1, h2⟩ := ih (index + 1) _ hn' hlt'
    refine ⟨h1, ?_⟩
    intro x hx
    rcases h2 x hx with h | ⟨j, it, hj, hd, hxj⟩
    · split at h
      · rename_i hen
        rcases List.mem_append.1 h with h | h
        · exact Or.inl h
        · refine Or.inr ⟨0, item, by simp, by simpa using hen, ?_⟩
          rw [List.mem_singleton.1 h]; simp
      · exact Or.inl h
    · exact Or.inr ⟨j + 1, it, by simpa using hj, hd, by rw [hxj]; push_cast; omega⟩

theorem getItem_of_index (m : multiSelectList) (j : Nat) (item : multiSelectListItem)
    (h : m.items[j]? = some item) : m.getItem (j : Int) = some item := by
  unfold multiSelectList.getItem
  simp [h]

theorem getItem_isSome (m : multiSelectList) (i : Int) (h0 : 0 ≤ i)
    (h1 : i < (m.items.length : Int)) : ∃ item, m.getItem i = some item := by
  unfold multiSelectList.getItem
  have hlt : i.toNat < m.items.length := by omega
  exact ⟨m.items[i.toNat], by simp [not_lt.2 h0, List.getElem?_eq_getElem hlt]⟩

theorem inv_setCursor (m : multiSelectList) (c : Int) (h : m.Inv)
    (hc : m.items ≠ [] → 0 ≤ c ∧ c < (m.items.length : Int))
    (hc' : m.items = [] → c = 0 ∨ c = -1) :
    multiSelectList.Inv { m with currentItem := c } :=
  ⟨h.1, h.2.1, hc, hc'⟩

theorem inv_setSelection (m : multiSelectList) (sel : List Int) (h : m.Inv)
    (hn : sel.Nodup)
    (hv : ∀ i ∈ sel, ∃ item, m.getItem i = some item ∧ item.IsDisabled = false) :
    multiSelectList.Inv { m with selectedItems := sel } :=
  ⟨hn, hv, h.2.2.1, h.2.2.2⟩

theorem inv_addItem (m : multiSelectList) (text : String) (isDisabled : Bool) (h : m.Inv) :
    (m.addItem text isDisabled).Inv := by
  refine ⟨h.1, ?_, ?_, ?_⟩
  · intro i hi
    obtain ⟨item, hitem, hd⟩ := h.2.1 i hi
    refine ⟨item, ?_, hd⟩
    unfold multiSelectList.getItem at hitem ⊢
    split at hitem
    · simp at hitem
    · rename_i hneg
      simp only [multiSelectList.addItem, hneg, if_false]
      have hlt : i.toNat < m.items.length := by
        by_contra hge
        rw [List.getElem?_eq_none (by omega)] at hitem
        simp at hitem
      rw [List.getElem?_append_left hlt]
      exact hitem
  · intro _
    simp only [multiSelectList.addItem, List.length_append, List.length_singleton]
    by_cases hitems : m.items = []
    · rcases h.2.2.2 hitems with h0 | h0 <;> simp [h0, hitems]
    · obtain ⟨h1, h2⟩ := h.2.2.1 hitems
      have hne : m.currentItem ≠ -1 := by omega
      simp only [hne, if_false]
      push_cast
      omega
  · intro hnil
    simp [multiSelectList.addItem] at hnil

theorem inv_clear (m : multiSelectList) : m.Clear.Inv := by
  refine ⟨by simp [multiSelectList.Clear], by simp [multiSelectList.Clear], ?_, ?_⟩
  · intro h; simp [multiSelectList.Clear] at h
  · intro _; exact Or.inr rfl

theorem map_const_eq_some {α : Type} (o : Option Unit) (a b : α)
    (h : o.map (fun _ => a) = some b) : b = a := by
  cases o with
  | none => simp at h
  | some u => simpa [eq_comm] using h

theorem inv_InputHandler (m m' : multiSelectList) (event : KeyEvent) (h : m.Inv)
    (hstep : m.InputHandler event = some m') : m'.Inv := by
  unfold multiSelectList.InputHandler at hstep
  split at hstep
  · simp only [Option.some.injEq] at hstep
    rw [← hstep]; exact h
  · rename_i hlen
    have hne : m.items ≠ [] := fun e => hlen (by simp [e])
    obtain ⟨hc0, hc1⟩ := h.2.2.1 hne
    have hpos : 0 < (m.items.length : Int) := by
      have : 0 < m.items.length := List.length_pos.2 hne
      omega
    cases event with
    | keyUp =>
      simp only at hstep
      rw [map_const_eq_some _ _ _ hstep]
      split
      · exact inv_setCursor m 0 h (fun _ => ⟨le_refl _, hpos⟩) (fun e => absurd e hne)
      · rename_i hneg
        exact inv_setCursor m (m.currentItem - 1) h (fun _ => ⟨by omega, by omega⟩)
          (fun e => absurd e hne)
    | keyDown =>
      simp only at hstep
      rw [map_const_eq_some _ _ _ hstep]
      split
      · exact inv_setCursor m ((m.items.length : Int) - 1) h (fun _ => ⟨by omega, by omega⟩)
          (fun e => absurd e hne)
      · rename_i hge
        simp only [ge_iff_le, not_le] at hge
        exact inv_setCursor m (m.currentItem + 1) h (fun _ => ⟨by omega, hge⟩)
          (fun e => absurd e hne)
    | keyEnd =>
      simp only at hstep
      rw [map_const_eq_some _ _ _ hstep]
      exact inv_setCursor m ((m.items.length : Int) - 1) h (fun _ => ⟨by omega, by omega⟩)
        (fun e => absurd e hne)
    | keyHome =>
      simp only at hstep
      rw [map_const_eq_some _ _ _ hstep]
      exact inv_setCursor m 0 h (fun _ => ⟨le_refl _, hpos⟩) (fun e => absurd e hne)
    | keyRune r =>
      simp only at hstep
      split at hstep
      · split at hstep
        · simp at hstep
        · rename_i item hitem
          rw [map_const_eq_some _ _ _ hstep]
          split
          · rename_i hen
            obtain ⟨hn, hmem⟩ := toggleSelection_spec m.selectedItems m.currentItem
            refine inv_setSelection m _ h hn ?_
            intro i hi
            rcases (hmem i).1 hi with ⟨rfl, _⟩ | ⟨_, hold⟩
            · exact ⟨item, hitem, by simpa using hen⟩
            · exact h.2.1 i hold
          · exact h
      · split at hstep
        · rw [map_const_eq_some _ _ _ hstep]
          split
          · exact inv_setSelection m [] h (by simp) (by simp)
          · obtain ⟨hn, hmem⟩ := selectAllLoop_spec m.items 0 [] (by simp) (by simp)
            refine inv_setSelection m _ h hn ?_
            intro i hi
            rcases hmem i hi with hnil | ⟨j, item, hj, hd, hij⟩
            · simp at hnil
            · refine ⟨item, ?_, hd⟩
              rw [hij, zero_add]
              exact getItem_of_index m j item hj
        · simp only [Option.some.injEq] at hstep
          rw [← hstep]; exact h
    | other =>
      simp only [Option.some.injEq] at hstep
      rw [← hstep]; exact h

theorem reachable_inv (m : multiSelectList) (h : Reachable m) : m.Inv := by
  induction h with
  | new =>
    exact ⟨by simp [newMultiSelectList], by simp [newMultiSelectList],
      fun hne => absurd rfl hne, fun _ => Or.inl rfl⟩
  | addItem m text isDisabled _ ih => exact inv_addItem m text isDisabled ih
  | clear m _ _ => exact inv_clear m
  | setSelected m _ ih => exact ih
  | setHighlighted m _ ih => exact ih
  | key m m' event _ hstep ih => exact inv_InputHandler m m' event ih hstep
  | reorder m order _ hperm ih =>
    exact inv_setSelection m order ih (hperm.nodup_iff.2 ih.1)
      (fun i hi => ih.2.1 i (hperm.mem_iff.1 hi))

/-- C19: in every state reachable from `newMultiSelectList` through `addItem`,
`Clear`, the setting of a handler and the key handler, `selectedItems` has no
duplicates and every index in it is a valid index of an item that is not
disabled; hence the index of a disabled item is never in the selection. -/
theorem selection_invariant (m : multiSelectList) (h : Reachable m) :
    m.selectedItems.Nodup
    ∧ (∀ i ∈ m.selectedItems, ∃ item, m.getItem i = some item ∧ item.IsDisabled = false)
    ∧ (∀ i item, m.getItem i = some item → item.IsDisabled = true → i ∉ m.selectedItems) := by
  have hinv := reachable_inv m h
  refine ⟨hinv.1, hinv.2.1, ?_⟩
  intro i item hitem hdis hmem
  obtain ⟨item', hitem', hen⟩ := hinv.2.1 i hmem
  rw [hitem] at hitem'
  cases hitem'
  rw [hdis] at hen
  cases hen

/-- C19 at the list of a reachable and an unreachable context, after the keys
Down, Space (on the disabled item), Up and Space. -/
theorem selection_invariant_witness :
    Reachable exampleList
    ∧ exampleList.selectedItems.Nodup
    ∧ (∀ i ∈ exampleList.selectedItems,
        ∃ item, exampleList.getItem i = some item ∧ item.IsDisabled = false)
    ∧ (∀ i item, exampleList.getItem i = some item → item.IsDisabled = true →
        i ∉ exampleList.selectedItems) :=
  have added : Reachable
      ⟨[⟨"alpha [1.27]", false⟩, ⟨"bad (Unreachable)", true⟩], [], 0, false, false⟩ :=
    Reachable.addItem _ "bad (Unreachable)" true
      (Reachable.addItem _ "alpha [1.27]" false Reachable.new)
  have down : Reachable
      ⟨[⟨"alpha [1.27]", false⟩, ⟨"bad (Unreachable)", true⟩], [], 1, false, false⟩ :=
    Reachable.key _ _ .keyDown added (by decide)
  have space : Reachable
      ⟨[⟨"alpha [1.27]", false⟩, ⟨"bad (Unreachable)", true⟩], [], 1, false, false⟩ :=
    Reachable.key _ _ (.keyRune ' ') down (by decide)
  have up : Reachable
      ⟨[⟨"alpha [1.27]", false⟩, ⟨"bad (Unreachable)", true⟩], [], 0, false, false⟩ :=
    Reachable.key _ _ .keyUp space (by decide)
  have reached : Reachable exampleList :=
    Reachable.key _ _ (.keyRune ' ') up (by decide)
  ⟨reached, selection_invariant exampleList reached⟩

theorem textLoop_some (m : multiSelectList) (indices : List Int)
    (hv : ∀ i ∈ indices, 0 ≤ i ∧ i < (m.items.length : Int)) :
    ∀ list : List String, ∃ texts : List String,
      textLoop m indices list = some (list ++ texts) ∧ texts.length = indices.length
      ∧ ∀ t, t ∈ texts ↔ ∃ i ∈ indices, m.GetItemText i = some t := by
  induction indices with
  | nil => intro list; exact ⟨[], by simp [textLoop], rfl, by simp⟩
  | cons i rest ih =>
    intro list
    obtain ⟨h0, h1⟩ := hv i (List.mem_cons_self _ _)
    have hlt : i.toNat < m.items.length := by omega
    have hget : m.GetItemText i = some (m.items[i.toNat]).Text := by
      simp [multiSelectList.GetItemText, not_lt.2 h0, List.getElem?_eq_getElem hlt]
    obtain ⟨texts, ht, hl, hm⟩ :=
      ih (fun j hj => hv j (List.mem_cons_of_mem _ hj)) (list ++ [(m.items[i.toNat]).Text])
    refine ⟨(m.items[i.toNat]).Text :: texts, ?_, by simp [hl], ?_⟩
    · simp only [textLoop, hget, ht, List.append_assoc, List.singleton_append]
    · intro t
      simp only [List.mem_cons, hm, exists_eq_or_imp, hget, Option.some.injEq]
      constructor
      · rintro (h | h)
        · exact Or.inl h.symm
        · exact Or.inr h
      · rintro (h | h)
        · exact Or.inl h.symm
        · exact Or.inr h

theorem getItemTextMultiple_some (m : multiSelectList) (indices : List Int)
    (hv : ∀ i ∈ indices, 0 ≤ i ∧ i < (m.items.length : Int)) :
    ∃ texts : List String,
      m.getItemTextMultiple indices = some texts ∧ texts.length = indices.length
      ∧ ∀ t, t ∈ texts ↔ ∃ i ∈ indices, m.GetItemText i = some t := by
  obtain ⟨texts, h1, h2, h3⟩ := textLoop_some m indices hv []
  exact ⟨texts, by simpa [multiSelectList.getItemTextMultiple] using h1, h2, h3⟩

theorem length_eq_iff_all_selected (l : List Int) (n : Nat) (hn : l.Nodup)
    (hv : ∀ i ∈ l, 0 ≤ i ∧ i < (n : Int)) :
    l.length = n ↔ ∀ j : Nat, j < n → (j : Int) ∈ l := by
  have hnat : (l.map Int.toNat).Nodup := by
    refine List.Nodup.map_on ?_ hn
    intro a ha b hb hab
    have := hv a ha
    have := hv b hb
    omega
  have hsub : l.map Int.toNat ⊆ List.range n := by
    intro j hj
    obtain ⟨i, hi, rfl⟩ := List.mem_map.1 hj
    have := hv i hi
    exact List.mem_range.2 (by omega)
  have hle : (l.map Int.toNat).length ≤ n := by
    simpa using (List.subperm_of_subset hnat hsub).length_le
  constructor
  · intro hlen j hj
    have hperm : (l.map Int.toNat).Perm (List.range n) :=
      (List.subperm_of_subset hnat hsub).perm_of_length_le (by simp [hlen])
    have hmem : j ∈ l.map Int.toNat := hperm.mem_iff.2 (List.mem_range.2 hj)
    obtain ⟨i, hi, hij⟩ := List.mem_map.1 hmem
    have := hv i hi
    have hi' : i = (j : Int) := by omega
    rw [← hi']; exact hi
  · intro hall
    have hsup : List.range n ⊆ l.map Int.toNat := by
      intro j hj
      exact List.mem_map.2 ⟨(j : Int), hall j (List.mem_range.1 hj), by simp⟩
    have hge : n ≤ (l.map Int.toNat).length := by
      simpa using (List.subperm_of_subset (List.nodup_range n) hsup).length_le
    have : (l.map Int.toNat).length = l.length := List.length_map _ _
    omega

theorem length_fetches_of (c : String) (rs ns : List String) :
    (rs.flatMap (fun rt => ns.map (fun n => (⟨rt, c, n⟩ : FetchCall)))).length
      = rs.length * ns.length := by
  induction rs with
  | nil => simp
  | cons r rs ihr =>
    simp only [List.flatMap_cons, List.length_append, List.length_map, ihr,
      List.length_cons]
    ring

theorem length_fetches (cs rs ns : List String) :
    (cs.flatMap (fun ctx => rs.flatMap (fun rt =>
      ns.map (fun n => (⟨rt, ctx, n⟩ : FetchCall))))).length
      = cs.length * rs.length * ns.length := by
  induction cs with
  | nil => simp
  | cons c cs ih =>
    simp only [List.flatMap_cons, List.length_append, length_fetches_of, ih, List.length_cons]
    ring

/-- C15: with a selection of valid indices without duplicates in both lists,
`updateDisplayArea` settles its fetches: when every namespace of the list is
selected the namespaces used are the single `""`, otherwise they are the
texts of the selected namespaces; a call is dispatched for exactly each
context, selected kind and namespace used, and the number of calls, which is
the number of results collected, is the product of the three lengths. -/
theorem namespace_collapse (activeContexts : List String)
    (resourceTypeList namespaceList : multiSelectList)
    (hkinds : ∀ i ∈ resourceTypeList.selectedItems,
      0 ≤ i ∧ i < (resourceTypeList.items.length : Int))
    (hnodup : namespaceList.selectedItems.Nodup)
    (hvalid : ∀ i ∈ namespaceList.selectedItems,
      0 ≤ i ∧ i < (namespaceList.items.length : Int)) :
    ∃ (kinds selected : List String) (fetch : DisplayFetch),
      resourceTypeList.getItemTextMultiple resourceTypeList.selectedItems = some kinds
      ∧ namespaceList.getItemTextMultiple namespaceList.selectedItems = some selected
      ∧ updateDisplayArea activeContexts resourceTypeList namespaceList = some fetch
      ∧ ((∀ j : Nat, j < namespaceList.items.length → (j : Int) ∈ namespaceList.selectedItems) →
          fetch.activeNamespaces = [""])
      ∧ (¬ (∀ j : Nat, j < namespaceList.items.length →
            (j : Int) ∈ namespaceList.selectedItems) →
          fetch.activeNamespaces = selected)
      ∧ (∀ call : FetchCall, call ∈ fetch.calls ↔
          call.ctx ∈ activeContexts ∧ call.rt ∈ kinds ∧ call.ns ∈ fetch.activeNamespaces)
      ∧ fetch.calls.length
          = activeContexts.length * kinds.length * fetch.activeNamespaces.length
      ∧ fetch.rounds = fetch.calls.length := by
  obtain ⟨kinds, hk, _, _⟩ :=
    getItemTextMultiple_some resourceTypeList resourceTypeList.selectedItems hkinds
  obtain ⟨selected, hs, _, _⟩ :=
    getItemTextMultiple_some namespaceList namespaceList.selectedItems hvalid
  have hiff := length_eq_iff_all_selected namespaceList.selectedItems
    namespaceList.items.length hnodup hvalid
  refine ⟨kinds, selected,
    { activeNamespaces :=
        if namespaceList.GetSelectedItems.length = namespaceList.GetItemCount then [""]
        else selected
      calls := activeContexts.flatMap (fun ctx =>
        kinds.flatMap (fun rt =>
          (if namespaceList.GetSelectedItems.length = namespaceList.GetItemCount then [""]
            else selected).map (fun ns => ⟨rt, ctx, ns⟩)))
      rounds := activeContexts.length * kinds.length
        * (if namespaceList.GetSelectedItems.length = namespaceList.GetItemCount then [""]
            else selected).length },
    hk, hs, ?_, ?_, ?_, ?_, ?_, ?_⟩
  · simp only [updateDisplayArea, multiSelectList.GetSelectedItems, hk, hs]
  · intro hall
    simp only [multiSelectList.GetSelectedItems, multiSelectList.GetItemCount,
      hiff.2 hall, if_true]
  · intro hnot
    have hne : ¬ namespaceList.selectedItems.length = namespaceList.items.length :=
      fun e => hnot (hiff.1 e)
    simp only [multiSelectList.GetSelectedItems, multiSelectList.GetItemCount, hne, if_false]
  · intro call
    obtain ⟨rt, ctx, ns⟩ := call
    simp only [List.mem_flatMap, List.mem_map, FetchCall.mk.injEq]
    constructor
    · rintro ⟨c, hc, r, hr, n, hn, rfl, rfl, rfl⟩
      exact ⟨hc, hr, hn⟩
    · rintro ⟨hc, hr, hn⟩
      exact ⟨ctx, hc, rt, hr, ns, hn, rfl, rfl, rfl⟩
  · exact length_fetches _ _ _
  · exact (length_fetches _ _ _).symm

/-- C15 at two contexts and two selected kinds, with both namespaces of the
list selected: four calls, each with the namespace `""`. -/
theorem namespace_collapse_witness :
    (∀ i ∈ exampleKinds.selectedItems, 0 ≤ i ∧ i < (exampleKinds.items.length : Int))
    ∧ allNamespaces.selectedItems.Nodup
    ∧ (∀ i ∈ allNamespaces.selectedItems, 0 ≤ i ∧ i < (allNamespaces.items.length : Int))
    ∧ updateDisplayArea ["alpha", "beta"] exampleKinds allNamespaces
        = some ⟨[""], [⟨"Deployment", "alpha", ""⟩, ⟨"StatefulSet", "alpha", ""⟩,
            ⟨"Deployment", "beta", ""⟩, ⟨"StatefulSet", "beta", ""⟩], 4⟩
    ∧ updateDisplayArea ["alpha"] exampleKinds oneNamespace
        = some ⟨["kube-system"], [⟨"Deployment", "alpha", "kube-system"⟩,
            ⟨"StatefulSet", "alpha", "kube-system"⟩], 2⟩
    ∧ ∃ (kinds selected : List String) (fetch : DisplayFetch),
      exampleKinds.getItemTextMultiple exampleKinds.selectedItems = some kinds
      ∧ allNamespaces.getItemTextMultiple allNamespaces.selectedItems = some selected
      ∧ updateDisplayArea ["alpha", "beta"] exampleKinds allNamespaces = some fetch
      ∧ ((∀ j : Nat, j < allNamespaces.items.length → (j : Int) ∈ allNamespaces.selectedItems) →
          fetch.activeNamespaces = [""])
      ∧ (¬ (∀ j : Nat, j < allNamespaces.items.length →
            (j : Int) ∈ allNamespaces.selectedItems) →
          fetch.activeNamespaces = selected)
      ∧ (∀ call : FetchCall, call ∈ fetch.calls ↔
          call.ctx ∈ ["alpha", "beta"] ∧ call.rt ∈ kinds ∧ call.ns ∈ fetch.activeNamespaces)
      ∧ fetch.calls.length
          = ["alpha", "beta"].length * kinds.length * fetch.activeNamespaces.length
      ∧ fetch.rounds = fetch.calls.length :=
  ⟨by decide, by decide, by decide, by decide, by decide,
    namespace_collapse ["alpha", "beta"] exampleKinds allNamespaces
      (by decide) (by decide) (by decide)⟩

/-! ### The cursor of a list -/

theorem triggerSelectedFunc_some (m : multiSelectList) (h0 : 0 ≤ m.currentItem)
    (h1 : m.currentItem < (m.items.length : Int)) : m.triggerSelectedFunc = some () := by
  obtain ⟨item, hitem⟩ := getItem_isSome m m.currentItem h0 h1
  unfold multiSelectList.triggerSelectedFunc
  split
  · rw [hitem]; rfl
  · rfl

theorem triggerHighlightedFunc_some (m : multiSelectList) (h0 : 0 ≤ m.currentItem)
    (h1 : m.currentItem < (m.items.length : Int)) : m.triggerHighlightedFunc = some () := by
  obtain ⟨item, hitem⟩ := getItem_isSome m m.currentItem h0 h1
  unfold multiSelectList.triggerHighlightedFunc
  split
  · rw [hitem]; rfl
  · rfl

theorem selected_step (m : multiSelectList) (h0 : 0 ≤ m.currentItem)
    (h1 : m.currentItem < (m.items.length : Int)) :
    ∃ m', (m.triggerSelectedFunc).map (fun _ => m) = some m' :=
  ⟨m, by rw [triggerSelectedFunc_some m h0 h1]; rfl⟩

theorem highlighted_step (m : multiSelectList) (h0 : 0 ≤ m.currentItem)
    (h1 : m.currentItem < (m.items.length : Int)) :
    ∃ m', (m.triggerHighlightedFunc).map (fun _ => m) = some m' :=
  ⟨m, by rw [triggerHighlightedFunc_some m h0 h1]; rfl⟩

theorem InputHandler_some (m : multiSelectList) (h : m.Inv) (event : KeyEvent) :
    ∃ m', m.InputHandler event = some m' := by
  unfold multiSelectList.InputHandler
  split
  · exact ⟨m, rfl⟩
  · rename_i hlen
    have hne : m.items ≠ [] := fun e => hlen (by simp [e])
    obtain ⟨hc0, hc1⟩ := h.2.2.1 hne
    have hpos : 0 < (m.items.length : Int) := by
      have : 0 < m.items.length := List.length_pos.2 hne
      omega
    cases event with
    | keyUp =>
      apply highlighted_step
      · split
        · simp only; omega
        · rename_i hif
          simp only at hif ⊢
          omega
      · split
        · simp only; omega
        · rename_i hif
          simp only at hif ⊢
          omega
    | keyDown =>
      apply highlighted_step
      · split
        · simp only; omega
        · rename_i hif
          simp only at hif ⊢
          omega
      · split
        · simp only; omega
        · rename_i hif
          simp only at hif ⊢
          omega
    | keyEnd =>
      apply highlighted_step
      · simp only; omega
      · simp only; omega
    | keyHome =>
      apply highlighted_step
      · simp only; omega
      · simp only; omega
    | keyRune r =>
      simp only
      split
      · obtain ⟨item, hitem⟩ := getItem_isSome m m.currentItem hc0 hc1
        rw [hitem]
        apply selected_step
        · split <;> simpa using hc0
        · split <;> simpa using hc1
      · split
        · apply selected_step
          · split <;> simpa [multiSelectList.SelectAllItems] using hc0
          · split <;> simpa [multiSelectList.SelectAllItems] using hc1
        · exact ⟨m, rfl⟩
    | other => exact ⟨m, rfl⟩

/-- C21: in every state reachable from `newMultiSelectList` through `addItem`,
`Clear`, the setting of a handler and the key handler, a non-empty item list
has `0 ≤ currentItem < len(items)`, so the indexing `items[currentItem]` finds
an item and `triggerSelectedFunc` and `triggerHighlightedFunc` return; and for
every key event the key handler returns, without an index-out-of-range panic,
a state that is reachable again. -/
theorem cursor_bounds (m : multiSelectList) (h : Reachable m) :
    (m.items ≠ [] →
      0 ≤ m.currentItem ∧ m.currentItem < (m.items.length : Int)
      ∧ (∃ item, m.getItem m.currentItem = some item)
      ∧ m.triggerSelectedFunc = some () ∧ m.triggerHighlightedFunc = some ())
    ∧ ∀ event : KeyEvent, ∃ m', m.InputHandler event = some m' ∧ Reachable m' := by
  have hinv := reachable_inv m h
  constructor
  · intro hne
    obtain ⟨h0, h1⟩ := hinv.2.2.1 hne
    exact ⟨h0, h1, getItem_isSome m m.currentItem h0 h1, triggerSelectedFunc_some m h0 h1,
      triggerHighlightedFunc_some m h0 h1⟩
  · intro event
    obtain ⟨m', hm'⟩ := InputHandler_some m hinv event
    exact ⟨m', hm', Reachable.key m m' event h hm'⟩

/-- C21 at a namespace list with a selected handler, emptied by `Clear` and
filled again, after the keys End and Down: the cursor stays on the last
item. -/
theorem cursor_bounds_witness :
    Reachable cursorList
    ∧ cursorList.InputHandler .keyDown = some cursorList
    ∧ (cursorList.items ≠ [] →
      0 ≤ cursorList.currentItem ∧ cursorList.currentItem < (cursorList.items.length : Int)
      ∧ (∃ item, cursorList.getItem cursorList.currentItem = some item)
      ∧ cursorList.triggerSelectedFunc = some () ∧ cursorList.triggerHighlightedFunc = some ())
    ∧ ∀ event : KeyEvent, ∃ m', cursorList.InputHandler event = some m' ∧ Reachable m' :=
  have cleared : Reachable ⟨[], [], -1, true, false⟩ :=
    Reachable.clear _ (Reachable.setSelected _ Reachable.new)
  have added : Reachable
      ⟨[⟨"default", false⟩, ⟨"kube-system", false⟩], [], 0, true, false⟩ :=
    Reachable.addItem _ "kube-system" false (Reachable.addItem _ "default" false cleared)
  have atEnd : Reachable cursorList :=
    Reachable.key _ _ .keyEnd added (by decide)
  have reached : Reachable cursorList :=
    Reachable.key _ _ .keyDown atEnd (by decide)
  ⟨reached, by decide, cursor_bounds cursorList reached⟩

end Kdiff
